import Mathlib

/-!
# Containers: doubly-linked list (`list.c`) and multiset (`multiset.h`)

The list is embedded over an explicit heap of nodes. An address is a natural
number and `0` is the `NULL` pointer. Each C statement that reads or writes
through a pointer becomes a `load`/`store` on the heap; reading through `NULL`
or through an address that holds no node is a `Fault`, so every operation
returns `Except Fault _`. The element bytes (`data_size` of them, owned by the
node) are a value of an arbitrary type `α`. The two calls to `malloc` inside
the adding functions are arguments: the address handed out for the node
(`none` when the call fails) and whether the buffer for the element could be
allocated. The counter `space` and the write offset of `list_copy_to_array` are `int` in C:
an increment of either is reduced to the 32-bit two's complement range by `wrap32`.
-/

namespace Containers

/-- Heap addresses; `0` is `NULL`. -/
abbrev Addr := Nat

/-- Ways in which running the C code can go wrong. -/
inductive Fault where
  | nullDeref
  | danglingDeref
  | outOfFuel
  deriving DecidableEq, Repr

/-- The C `struct node`: `prev`, `data`, `next`. -/
structure Node (α : Type) where
  prev : Addr
  data : α
  next : Addr
  deriving DecidableEq, Repr

/-- The node store. -/
abbrev Heap (α : Type) := Addr → Option (Node α)

/-- The C `struct _list` together with the heap its pointers live in. -/
structure ListObj (α : Type) where
  data_size : Nat
  space : Int
  head : Addr
  tail : Addr
  mem : Heap α

/-- The errno value `ENOMEM`. -/
def ENOMEM : Int := 12

/-- The errno value `EINVAL`. -/
def EINVAL : Int := 22

/-- The largest value of a C `int`. -/
def INT_MAX : Int := 2147483647

/-- The value a C `int` holds after an arithmetic result is stored in it: the result reduced
modulo `2^32` to the range from `-2^31` to `2^31 - 1`. -/
def wrap32 (x : Int) : Int := (x + 2147483648) % 4294967296 - 2147483648

/-- Read the node a pointer refers to. -/
def load {α : Type} (m : Heap α) (a : Addr) : Except Fault (Node α) :=
  if a = 0 then .error .nullDeref
  else match m a with
    | some n => .ok n
    | none => .error .danglingDeref

/-- Write a node at an address. -/
def store {α : Type} (m : Heap α) (a : Addr) (n : Node α) : Heap α :=
  fun b => if b = a then some n else m b

/-- Release the node at an address (`free`). -/
def release {α : Type} (m : Heap α) (a : Addr) : Heap α :=
  fun b => if b = a then none else m b

/-- The statement `p->prev = v`. -/
def setPrev {α : Type} (m : Heap α) (p v : Addr) : Except Fault (Heap α) := do
  let n ← load m p
  pure (store m p { n with prev := v })

/-- The statement `p->next = v`. -/
def setNext {α : Type} (m : Heap α) (p v : Addr) : Except Fault (Heap α) := do
  let n ← load m p
  pure (store m p { n with next := v })

/-- The statement `memcpy(p->data, data, data_size)`. -/
def setData {α : Type} (m : Heap α) (p : Addr) (v : α) : Except Fault (Heap α) := do
  let n ← load m p
  pure (store m p { n with data := v })

/-- The function `list_init`; `none` when `malloc` fails. -/
def list_init {α : Type} (allocated : Bool) (data_size : Nat) : Option (ListObj α) :=
  if allocated then
    some { data_size := data_size, space := 0, head := 0, tail := 0, mem := fun _ => none }
  else none

/-- The function `list_size`. -/
def list_size {α : Type} (me : ListObj α) : Int := me.space

/-- The function `list_is_empty`. -/
def list_is_empty {α : Type} (me : ListObj α) : Bool := list_size me == 0

/-- The loop of `list_copy_to_array`: follow `next` until `NULL`; each round copies the
element to `arr + offset` and then does `offset += data_size` on the `int` offset. The result
lists the writes in order, each as the byte offset written at and the element written. -/
def copy_loop {α : Type} (m : Heap α) (data_size : Nat) :
    Nat → Addr → Int → Except Fault (List (Int × α))
  | 0, _, _ => .error .outOfFuel
  | fuel + 1, traverse, offset =>
    if traverse = 0 then .ok []
    else do
      let n ← load m traverse
      let rest ← copy_loop m data_size fuel n.next (wrap32 (offset + (data_size : Int)))
      pure ((offset, n.data) :: rest)

/-- The function `list_copy_to_array`; the result is what has been written to the array, as
byte offsets from `arr` with the element written there. -/
def list_copy_to_array {α : Type} (fuel : Nat) (me : ListObj α) :
    Except Fault (List (Int × α)) :=
  copy_loop me.mem me.data_size fuel me.head 0

/-- The loop `traverse = traverse->next`, run `k` times. -/
def walk_next {α : Type} (m : Heap α) : Nat → Addr → Except Fault Addr
  | 0, traverse => .ok traverse
  | k + 1, traverse => do
    let n ← load m traverse
    walk_next m k n.next

/-- The loop `traverse = traverse->prev`, run `k` times. -/
def walk_prev {α : Type} (m : Heap α) : Nat → Addr → Except Fault Addr
  | 0, traverse => .ok traverse
  | k + 1, traverse => do
    let n ← load m traverse
    walk_prev m k n.prev

/-- The function `list_get_node_from_head`: `i` runs from `0` while `i < index`. -/
def list_get_node_from_head {α : Type} (me : ListObj α) (index : Int) : Except Fault Addr :=
  walk_next me.mem index.toNat me.head

/-- The function `list_get_node_from_tail`: `i` runs down from `space - 1` while `i > index`. -/
def list_get_node_from_tail {α : Type} (me : ListObj α) (index : Int) : Except Fault Addr :=
  walk_prev me.mem (me.space - 1 - index).toNat me.tail

/-- The function `list_get_node_at`. -/
def list_get_node_at {α : Type} (me : ListObj α) (index : Int) : Except Fault Addr :=
  if index ≤ me.space.tdiv 2 then list_get_node_from_head me index
  else list_get_node_from_tail me index

/-- The function `list_add_first`. -/
def list_add_first {α : Type} (me : ListObj α) (data : α) (nodeAlloc : Option Addr)
    (dataAlloc : Bool) : Except Fault (Int × ListObj α) :=
  let traverse := me.head
  match nodeAlloc with
  | none => .ok (-ENOMEM, me)
  | some add =>
    if !dataAlloc then .ok (-ENOMEM, me)
    else do
      let m1 := store me.mem add { prev := 0, data := data, next := traverse }
      let m2 ← if traverse ≠ 0 then setPrev m1 traverse add else pure m1
      let tail := if me.tail = 0 then traverse else me.tail
      pure (0, { me with mem := m2, head := add, tail := tail, space := wrap32 (me.space + 1) })

/-- The function `list_add_last`. -/
def list_add_last {α : Type} (me : ListObj α) (data : α) (nodeAlloc : Option Addr)
    (dataAlloc : Bool) : Except Fault (Int × ListObj α) :=
  let traverse := me.tail
  match nodeAlloc with
  | none => .ok (-ENOMEM, me)
  | some add =>
    if !dataAlloc then .ok (-ENOMEM, me)
    else do
      let m1 := store me.mem add { prev := traverse, data := data, next := 0 }
      let m2 ← if traverse ≠ 0 then setNext m1 traverse add else pure m1
      pure (0, { me with mem := m2, tail := add, space := wrap32 (me.space + 1) })

/-- The function `list_add_at`. -/
def list_add_at {α : Type} (me : ListObj α) (index : Int) (data : α) (nodeAlloc : Option Addr)
    (dataAlloc : Bool) : Except Fault (Int × ListObj α) :=
  if index < 0 ∨ index > me.space then .ok (-EINVAL, me)
  else if index = 0 then list_add_first me data nodeAlloc dataAlloc
  else if index = me.space then list_add_last me data nodeAlloc dataAlloc
  else do
    let traverse ← list_get_node_at me index
    match nodeAlloc with
    | none => pure (-ENOMEM, me)
    | some add =>
      if !dataAlloc then pure (-ENOMEM, me)
      else do
        let t ← load me.mem traverse
        let m1 := store me.mem add { prev := t.prev, data := data, next := traverse }
        let t1 ← load m1 traverse
        let m2 ← setNext m1 t1.prev add
        let m3 ← setPrev m2 traverse add
        pure (0, { me with mem := m3, space := wrap32 (me.space + 1) })

/-- The function `list_is_illegal_input`. -/
def list_is_illegal_input {α : Type} (me : ListObj α) (index : Int) : Bool :=
  decide (index < 0) || decide (index ≥ me.space) || decide (me.space = 0)

/-- The function `list_remove_at`. -/
def list_remove_at {α : Type} (me : ListObj α) (index : Int) : Except Fault (Int × ListObj α) :=
  if list_is_illegal_input me index then .ok (-EINVAL, me)
  else do
    let traverse ← list_get_node_at me index
    let me1 ←
      if index = 0 then do
        let t ← load me.mem traverse
        let m1 ← setPrev me.mem t.next 0
        let t1 ← load m1 traverse
        pure { me with mem := m1, head := t1.next }
      else if index = me.space - 1 then do
        let t ← load me.mem traverse
        let m1 ← setNext me.mem t.prev 0
        let t1 ← load m1 traverse
        pure { me with mem := m1, tail := t1.prev }
      else do
        let t ← load me.mem traverse
        let m1 ← setNext me.mem t.prev t.next
        let t1 ← load m1 traverse
        let m2 ← setPrev m1 t1.next t1.prev
        pure { me with mem := m2 }
    let _ ← load me1.mem traverse
    pure (0, { me1 with mem := release me1.mem traverse, space := me1.space - 1 })

/-- The function `list_remove_first`. -/
def list_remove_first {α : Type} (me : ListObj α) : Except Fault (Int × ListObj α) :=
  list_remove_at me 0

/-- The function `list_remove_last`. -/
def list_remove_last {α : Type} (me : ListObj α) : Except Fault (Int × ListObj α) :=
  list_remove_at me (me.space - 1)

/-- The function `list_set_at`. -/
def list_set_at {α : Type} (me : ListObj α) (index : Int) (data : α) :
    Except Fault (Int × ListObj α) :=
  if list_is_illegal_input me index then .ok (-EINVAL, me)
  else do
    let traverse ← list_get_node_at me index
    let m1 ← setData me.mem traverse data
    pure (0, { me with mem := m1 })

/-- The function `list_set_first`. -/
def list_set_first {α : Type} (me : ListObj α) (data : α) : Except Fault (Int × ListObj α) :=
  list_set_at me 0 data

/-- The function `list_set_last`. -/
def list_set_last {α : Type} (me : ListObj α) (data : α) : Except Fault (Int × ListObj α) :=
  list_set_at me (me.space - 1) data

/-- The function `list_get_at`. The first argument is what the caller's buffer holds before
the call and the second component of the result is what it holds afterwards. -/
def list_get_at {α : Type} (data : α) (me : ListObj α) (index : Int) : Except Fault (Int × α) :=
  if list_is_illegal_input me index then .ok (-EINVAL, data)
  else do
    let traverse ← list_get_node_at me index
    let n ← load me.mem traverse
    pure (0, n.data)

/-- The function `list_get_first`. -/
def list_get_first {α : Type} (data : α) (me : ListObj α) : Except Fault (Int × α) :=
  list_get_at data me 0

/-- The function `list_get_last`. -/
def list_get_last {α : Type} (data : α) (me : ListObj α) : Except Fault (Int × α) :=
  list_get_at data me (me.space - 1)

/-- The address of the node at position `i` of a chain of addresses, `NULL` past its end. -/
def addrAt (as : List Addr) (i : Nat) : Addr := as.getD i 0

/-- The address a node at position `i` must hold in `prev`. -/
def prevAt (as : List Addr) (i : Nat) : Addr := if i = 0 then 0 else as.getD (i - 1) 0

/-- A well-formed list: the nodes at the distinct non-null addresses `as`, in this order, hold
the elements `xs`; `head` is the first and `tail` the last of them (both `NULL` when there is
none); each node's `next` is the following address (`NULL` for the last) and its `prev` the
preceding one (`NULL` for the first); `space` is the number of nodes. -/
structure WellFormed {α : Type} (me : ListObj α) (as : List Addr) (xs : List α) : Prop where
  len : as.length = xs.length
  space : me.space = (xs.length : Int)
  nodup : as.Nodup
  nonnull : ∀ a ∈ as, a ≠ 0
  head : me.head = addrAt as 0
  tail : me.tail = addrAt as (as.length - 1)
  cell : ∀ i x, xs[i]? = some x →
    me.mem (addrAt as i) = some { prev := prevAt as i, data := x, next := addrAt as (i + 1) }

/-- What `malloc` may hand out: a non-null address that holds no node. -/
def Fresh {α : Type} (me : ListObj α) (a : Addr) : Prop := a ≠ 0 ∧ me.mem a = none

/-- Insert `v` before position `k` of a list. -/
def ins {β : Type} (k : Nat) (v : β) (l : List β) : List β := l.take k ++ v :: l.drop k


/-- The value a call returned, when it returned. -/
def retCode {β : Type} (r : Except Fault (Int × β)) : Option Int :=
  match r with
  | .ok p => some p.1
  | .error _ => none

/-- The list `list_init` produces when its allocation succeeds. -/
def emptyList (α : Type) (data_size : Nat) : ListObj α :=
  { data_size := data_size, space := 0, head := 0, tail := 0, mem := fun _ => none }

/-- A list of one node at address `a` holding `x`, linked as a well-formed list. -/
def singletonList {α : Type} (data_size : Nat) (a : Addr) (x : α) : ListObj α :=
  { data_size := data_size, space := 1, head := a, tail := a,
    mem := store (fun _ => none) a { prev := 0, data := x, next := 0 } }

/-- A list of two nodes at addresses `1` and `2` holding `x` and `y`. -/
def pairList {α : Type} (data_size : Nat) (x y : α) : ListObj α :=
  { data_size := data_size, space := 2, head := 1, tail := 2,
    mem := store (store (fun _ => none) 1 { prev := 0, data := x, next := 2 }) 2
      { prev := 1, data := y, next := 0 } }

/-- The writes `list_copy_to_array` makes for the elements `l` when its `int` offset starts
at `offset`: each element at the current offset, which then grows by `data_size` as an
`int`. -/
def writesFrom {α : Type} (data_size : Nat) : Int → List α → List (Int × α)
  | _, [] => []
  | offset, x :: l => (offset, x) :: writesFrom data_size (wrap32 (offset + (data_size : Int))) l

/-- The array slots of the elements `l` from slot `i` on: the element of slot `j` lies
`j * data_size` bytes into the array. -/
def arraySlots {α : Type} (data_size : Nat) : Nat → List α → List (Int × α)
  | _, [] => []
  | i, x :: l => (((i * data_size : Nat) : Int), x) :: arraySlots data_size (i + 1) l

/-- A well-formed list of `n` nodes at the addresses `1, ..., n`, each holding `x`. -/
def chainList {α : Type} (data_size : Nat) (n : Nat) (x : α) : ListObj α :=
  { data_size := data_size, space := (n : Int), head := if n = 0 then 0 else 1, tail := n,
    mem := fun a =>
      if 1 ≤ a ∧ a ≤ n then some { prev := a - 1, data := x, next := if a = n then 0 else a + 1 }
      else none }


/-- The end of the list a traversal starts from. -/
inductive Side where
  | head
  | tail
  deriving DecidableEq, Repr

/-- The loop `traverse = traverse->next`, run `k` times, with the links it follows counted. -/
def walk_next_counted {α : Type} (m : Heap α) : Nat → Addr → Except Fault (Addr × Nat)
  | 0, traverse => .ok (traverse, 0)
  | k + 1, traverse => do
    let n ← load m traverse
    let r ← walk_next_counted m k n.next
    pure (r.1, r.2 + 1)

/-- The loop `traverse = traverse->prev`, run `k` times, with the links it follows counted. -/
def walk_prev_counted {α : Type} (m : Heap α) : Nat → Addr → Except Fault (Addr × Nat)
  | 0, traverse => .ok (traverse, 0)
  | k + 1, traverse => do
    let n ← load m traverse
    let r ← walk_prev_counted m k n.prev
    pure (r.1, r.2 + 1)

/-- The function `list_get_node_from_head`, returning with the node the number of links it
followed. -/
def list_get_node_from_head_counted {α : Type} (me : ListObj α) (index : Int) :
    Except Fault (Addr × Nat) :=
  walk_next_counted me.mem index.toNat me.head

/-- The function `list_get_node_from_tail`, returning with the node the number of links it
followed. -/
def list_get_node_from_tail_counted {α : Type} (me : ListObj α) (index : Int) :
    Except Fault (Addr × Nat) :=
  walk_prev_counted me.mem (me.space - 1 - index).toNat me.tail

/-- The function `list_get_node_at`, returning with the node the number of links it
followed. -/
def list_get_node_at_counted {α : Type} (me : ListObj α) (index : Int) :
    Except Fault (Addr × Nat) :=
  if index ≤ me.space.tdiv 2 then list_get_node_from_head_counted me index
  else list_get_node_from_tail_counted me index

/-- The end `list_get_node_at` starts from. -/
def list_get_node_at_side {α : Type} (me : ListObj α) (index : Int) : Side :=
  if index ≤ me.space.tdiv 2 then Side.head else Side.tail


/-!
## The multiset

Only the header `multiset.h` is among the sources: it declares the handle and the signatures
of the operations. What the operations do is taken from the specification: a search tree of
key-records, one per distinct key, each carrying its multiplicity and, as balance state, its
height; the handle carries the comparator and the running total.
-/

/-- Modelled from the spec: the tree of key-records that `multiset.c`, which is not among the
sources, builds. A record owns a copy of the key, its multiplicity, two child links and a
height as balance state. -/
inductive Tree (K : Type) where
  | nil : Tree K
  | node (left : Tree K) (key : K) (multiplicity : Nat) (height : Nat) (right : Tree K) : Tree K
  deriving DecidableEq, Repr

/-- Modelled from the spec: the handle `struct _multiset` of the missing `multiset.c`, with
the fixed key size, the comparator, the root of the tree and the running total of all
multiplicities. -/
structure MultisetObj (K : Type) where
  key_size : Nat
  comparator : K → K → Int
  root : Tree K
  total_count : Int

namespace Tree

/-- Modelled from the spec: the balance state of a subtree of the missing `multiset.c`, the
stored height, 0 for the empty tree. -/
def height {K : Type} : Tree K → Nat
  | nil => 0
  | node _ _ _ h _ => h

/-- Modelled from the spec: a record of the missing `multiset.c` with its height recomputed
from its children. -/
def mk {K : Type} (l : Tree K) (k : K) (m : Nat) (r : Tree K) : Tree K :=
  node l k m (max (height l) (height r) + 1) r

/-- Modelled from the spec: the in-order traversal of the records of the missing
`multiset.c`, each with its multiplicity. -/
def toList {K : Type} : Tree K → List (K × Nat)
  | nil => []
  | node l k m _ r => toList l ++ (k, m) :: toList r

/-- Modelled from the spec: the right rotation used by the rebalancing of the missing
`multiset.c`. -/
def rotateRight {K : Type} : Tree K → Tree K
  | node (node a x mx _ b) y my _ c => mk a x mx (mk b y my c)
  | t => t

/-- Modelled from the spec: the left rotation used by the rebalancing of the missing
`multiset.c`. -/
def rotateLeft {K : Type} : Tree K → Tree K
  | node a x mx _ (node b y my _ c) => mk (mk a x mx b) y my c
  | t => t

/-- Modelled from the spec: the left child of a record of the missing `multiset.c`. -/
def leftChild {K : Type} : Tree K → Tree K
  | nil => nil
  | node l _ _ _ _ => l

/-- Modelled from the spec: the right child of a record of the missing `multiset.c`. -/
def rightChild {K : Type} : Tree K → Tree K
  | nil => nil
  | node _ _ _ _ r => r

/-- Modelled from the spec: what the missing `multiset.c` does to an ancestor whose balance
an insertion or deletion below it may have violated: it restores, by rotations, that the
heights of the two children differ by at most one, and recomputes the height. -/
def rebalance {K : Type} (l : Tree K) (k : K) (m : Nat) (r : Tree K) : Tree K :=
  if height l > height r + 1 then
    let l1 := if height (rightChild l) > height (leftChild l) then rotateLeft l else l
    rotateRight (mk l1 k m r)
  else if height r > height l + 1 then
    let r1 := if height (leftChild r) > height (rightChild r) then rotateRight r else r
    rotateLeft (mk l k m r1)
  else mk l k m r

/-- Modelled from the spec: the search by comparator of the missing `multiset.c`; the
multiplicity of the equivalent record, when there is one. -/
def search {K : Type} (cmp : K → K → Int) (key : K) : Tree K → Option Nat
  | nil => none
  | node l k m _ r =>
    if cmp key k < 0 then search cmp key l
    else if cmp key k > 0 then search cmp key r
    else some m

/-- Modelled from the spec: the branch of `Put` of the missing `multiset.c` for a key whose
record exists: its multiplicity grows by one, no record is created and nothing is rotated. -/
def increment {K : Type} (cmp : K → K → Int) (key : K) : Tree K → Tree K
  | nil => nil
  | node l k m h r =>
    if cmp key k < 0 then node (increment cmp key l) k m h r
    else if cmp key k > 0 then node l k m h (increment cmp key r)
    else node l k (m + 1) h r

/-- Modelled from the spec: the branch of `RemoveOne` of the missing `multiset.c` for a
record of multiplicity above one: the multiplicity drops by one, the shape is unchanged. -/
def decrement {K : Type} (cmp : K → K → Int) (key : K) : Tree K → Tree K
  | nil => nil
  | node l k m h r =>
    if cmp key k < 0 then node (decrement cmp key l) k m h r
    else if cmp key k > 0 then node l k m h (decrement cmp key r)
    else node l k (m - 1) h r

/-- Modelled from the spec: the branch of `Put` of the missing `multiset.c` for a key with no
record: a new record of multiplicity 1 becomes a leaf at the position the comparator
dictates, and every ancestor is rebalanced on the way back. -/
def insert {K : Type} (cmp : K → K → Int) (key : K) : Tree K → Tree K
  | nil => node nil key 1 1 nil
  | node l k m _ r =>
    if cmp key k < 0 then rebalance (insert cmp key l) k m r
    else rebalance l k m (insert cmp key r)

/-- Modelled from the spec: the payload of the in-order successor, the leftmost record of a
right subtree whose root is given, in the missing `multiset.c`. -/
def minRecord {K : Type} : Tree K → K → Nat → K × Nat
  | nil, k, m => (k, m)
  | node l k1 m1 _ _, _, _ => minRecord l k1 m1

/-- Modelled from the spec: the deletion of the in-order successor from its original position
in the missing `multiset.c`, rebalancing its ancestors. -/
def deleteMin {K : Type} : Tree K → Tree K
  | nil => nil
  | node nil _ _ _ r => r
  | node (node ll lk lm lh lr) k m _ r => rebalance (deleteMin (node ll lk lm lh lr)) k m r

/-- Modelled from the spec: the structural deletion of the missing `multiset.c`: a record
with at most one child is spliced out and its child promoted; a record with two children
takes the payload of its in-order successor, which is then deleted from its position; every
ancestor is rebalanced. -/
def delete {K : Type} (cmp : K → K → Int) (key : K) : Tree K → Tree K
  | nil => nil
  | node l k m _ r =>
    if cmp key k < 0 then rebalance (delete cmp key l) k m r
    else if cmp key k > 0 then rebalance l k m (delete cmp key r)
    else
      match l, r with
      | nil, _ => r
      | _, nil => l
      | _, node rl rk rm rh rr =>
        let s := minRecord rl rk rm
        rebalance l s.1 s.2 (deleteMin (node rl rk rm rh rr))

end Tree

/-- Modelled from the spec: `multiset_init` of the missing `multiset.c`; `none` when the
handle cannot be allocated. -/
def multiset_init {K : Type} (allocated : Bool) (key_size : Nat) (comparator : K → K → Int) :
    Option (MultisetObj K) :=
  if allocated then
    some { key_size := key_size, comparator := comparator, root := Tree.nil, total_count := 0 }
  else none

/-- Modelled from the spec: `multiset_size` of the missing `multiset.c`, the running total. -/
def multiset_size {K : Type} (me : MultisetObj K) : Int := me.total_count

/-- Modelled from the spec: `multiset_is_empty` of the missing `multiset.c`. -/
def multiset_is_empty {K : Type} (me : MultisetObj K) : Bool := multiset_size me == 0

/-- Modelled from the spec: `multiset_put` of the missing `multiset.c`. The tree is searched;
an equivalent record has its multiplicity incremented; otherwise a record is allocated and
inserted, and when that allocation fails the call returns `-ENOMEM` and changes nothing. -/
def multiset_put {K : Type} (me : MultisetObj K) (key : K) (allocated : Bool) :
    Int × MultisetObj K :=
  match Tree.search me.comparator key me.root with
  | some _ =>
    (0, { me with root := Tree.increment me.comparator key me.root,
                  total_count := me.total_count + 1 })
  | none =>
    if allocated then
      (0, { me with root := Tree.insert me.comparator key me.root,
                    total_count := me.total_count + 1 })
    else (-ENOMEM, me)

/-- Modelled from the spec: `multiset_count` of the missing `multiset.c`: the multiplicity of
the equivalent record, 0 when there is none. -/
def multiset_count {K : Type} (me : MultisetObj K) (key : K) : Nat :=
  (Tree.search me.comparator key me.root).getD 0

/-- Modelled from the spec: `multiset_contains` of the missing `multiset.c`, defined as
`Count(key) > 0`. -/
def multiset_contains {K : Type} (me : MultisetObj K) (key : K) : Bool :=
  decide (multiset_count me key > 0)

/-- Modelled from the spec: `multiset_remove` of the missing `multiset.c`. An absent key
gives `false` and no change; a record of multiplicity above one is decremented; a record of
multiplicity one is deleted from the tree; the total drops by one in both cases. -/
def multiset_remove {K : Type} (me : MultisetObj K) (key : K) : Bool × MultisetObj K :=
  match Tree.search me.comparator key me.root with
  | none => (false, me)
  | some m =>
    if m > 1 then
      (true, { me with root := Tree.decrement me.comparator key me.root,
                       total_count := me.total_count - 1 })
    else
      (true, { me with root := Tree.delete me.comparator key me.root,
                       total_count := me.total_count - 1 })

/-- Modelled from the spec: `multiset_remove_all` of the missing `multiset.c`. An absent key
gives `false`; otherwise the whole multiplicity of the record is subtracted from the total
and the record is deleted from the tree. -/
def multiset_remove_all {K : Type} (me : MultisetObj K) (key : K) : Bool × MultisetObj K :=
  match Tree.search me.comparator key me.root with
  | none => (false, me)
  | some m =>
    (true, { me with root := Tree.delete me.comparator key me.root,
                     total_count := me.total_count - (m : Int) })

/-- Modelled from the spec: `multiset_clear` of the missing `multiset.c`. -/
def multiset_clear {K : Type} (me : MultisetObj K) : MultisetObj K :=
  { me with root := Tree.nil, total_count := 0 }

/-- The laws the spec demands of a comparator: it orders the keys strictly and totally up to
the equivalence `comparator(a, b) == 0`. -/
structure StrictTotalCmp {K : Type} (cmp : K → K → Int) : Prop where
  refl : ∀ a, cmp a a = 0
  flip : ∀ a b, cmp a b < 0 ↔ 0 < cmp b a
  trans : ∀ a b c, cmp a b < 0 → cmp b c < 0 → cmp a c < 0
  congr_left : ∀ a b c, cmp a b = 0 → (cmp a c < 0 ↔ cmp b c < 0)
  congr_right : ∀ a b c, cmp a b = 0 → (cmp c a < 0 ↔ cmp c b < 0)

/-- The keys of the records, in order. -/
def Tree.keys {K : Type} (t : Tree K) : List K := (Tree.toList t).map Prod.fst

/-- The multiplicities of the records equivalent to a key, added up. -/
def lcount {K : Type} (cmp : K → K → Int) (key : K) (l : List (K × Nat)) : Nat :=
  ((l.filter (fun p => decide (cmp key p.1 = 0))).map Prod.snd).sum

/-- The number of records equivalent to a key. -/
def records {K : Type} (me : MultisetObj K) (key : K) : Nat :=
  ((Tree.toList me.root).filter (fun p => decide (me.comparator key p.1 = 0))).length

/-- The multiplicities of a list of records, added up. -/
def msum {K : Type} (l : List (K × Nat)) : Int := (l.map (fun p => (p.2 : Int))).sum

/-- The invariants of the data model: the comparator is lawful, the in-order keys increase
strictly (so no two records are equivalent), every multiplicity is at least one, and the
total is the sum of the multiplicities. -/
structure MultisetInv {K : Type} (me : MultisetObj K) : Prop where
  cmp_ok : StrictTotalCmp me.comparator
  sorted : (Tree.keys me.root).Pairwise (fun a b => me.comparator a b < 0)
  positive : ∀ p ∈ Tree.toList me.root, 1 ≤ p.2
  total : me.total_count = msum (Tree.toList me.root)

/-- One call on the handle. -/
inductive Call (K : Type) where
  | put (key : K) (allocated : Bool)
  | remove (key : K)
  | remove_all (key : K)

/-- What a sequence of calls has added to and taken from a multiset. -/
structure Tally where
  puts : Nat
  removes : Nat
  removed_all : Nat
  deriving DecidableEq, Repr

/-- Make one call and book its outcome: a put that returned 0, a remove that returned true,
the multiplicity a remove_all that returned true took away. -/
def callStep {K : Type} (s : MultisetObj K × Tally) (c : Call K) : MultisetObj K × Tally :=
  match c with
  | .put key allocated =>
    let r := multiset_put s.1 key allocated
    (r.2, if r.1 = 0 then { s.2 with puts := s.2.puts + 1 } else s.2)
  | .remove key =>
    let r := multiset_remove s.1 key
    (r.2, if r.1 then { s.2 with removes := s.2.removes + 1 } else s.2)
  | .remove_all key =>
    let r := multiset_remove_all s.1 key
    (r.2, if r.1 then { s.2 with removed_all := s.2.removed_all + multiset_count s.1 key }
      else s.2)

/-- Run a sequence of calls from a multiset, starting the books at zero. -/
def runCalls {K : Type} (me : MultisetObj K) (cs : List (Call K)) : MultisetObj K × Tally :=
  cs.foldl callStep (me, { puts := 0, removes := 0, removed_all := 0 })

/-- The multiset `multiset_init` produces when its allocation succeeds. -/
def emptyMultiset {K : Type} (key_size : Nat) (comparator : K → K → Int) : MultisetObj K :=
  { key_size := key_size, comparator := comparator, root := Tree.nil, total_count := 0 }

/-- The numeric ascending comparator on integer keys. -/
def intCmp (a b : Int) : Int := a - b

/-- The multiset holding 1 once, 2 once and 3 twice, as four puts into an empty one leave
it. -/
def sampleMultiset : MultisetObj Int :=
  { key_size := 4, comparator := intCmp,
    root := Tree.node (Tree.node Tree.nil 1 1 1 Tree.nil) 2 1 2 (Tree.node Tree.nil 3 2 1 Tree.nil),
    total_count := 4 }

/-- The books of a run: the state satisfies the invariants under the comparator it was
created with and its total is what the calls so far have added and taken. -/
def Booked {K : Type} (cmp : K → K → Int) (s : MultisetObj K × Tally) : Prop :=
  MultisetInv s.1 ∧ s.1.comparator = cmp ∧
    s.1.total_count = (s.2.puts : Int) - (s.2.removes : Int) - (s.2.removed_all : Int)


/-! ## The list: traversal of a well-formed list -/

theorem load_ok {α : Type} {m : Heap α} {a : Addr} {n : Node α} (ha : a ≠ 0)
    (hm : m a = some n) : load m a = .ok n := by
  simp [load, ha, hm]

theorem store_same {α : Type} (m : Heap α) (a : Addr) (n : Node α) : store m a n a = some n := by
  simp [store]

theorem store_other {α : Type} (m : Heap α) {a b : Addr} (n : Node α) (h : b ≠ a) :
    store m a n b = m b := by
  simp [store, h]

theorem addrAt_of_lt {as : List Addr} {i : Nat} (h : i < as.length) : addrAt as i = as[i] := by
  simp [addrAt, List.getD_eq_getElem?_getD, List.getElem?_eq_getElem h]

theorem addrAt_of_ge {as : List Addr} {i : Nat} (h : as.length ≤ i) : addrAt as i = 0 := by
  simp [addrAt, List.getD_eq_getElem?_getD, List.getElem?_eq_none h]

theorem prevAt_succ (as : List Addr) (i : Nat) : prevAt as (i + 1) = addrAt as i := by
  simp [prevAt, addrAt]

theorem prevAt_zero (as : List Addr) : prevAt as 0 = 0 := by
  simp [prevAt]



theorem WellFormed.addr_ne_zero {α : Type} {me : ListObj α} {as : List Addr} {xs : List α}
    (wf : WellFormed me as xs) {i : Nat} (h : i < xs.length) :
    addrAt as i ≠ 0 := by
  have h1 : i < as.length := wf.len ▸ h
  rw [addrAt_of_lt h1]
  exact wf.nonnull _ (List.getElem_mem _)

theorem WellFormed.addr_inj {α : Type} {me : ListObj α} {as : List Addr} {xs : List α}
    (wf : WellFormed me as xs) {i j : Nat} (hi : i < xs.length)
    (hj : j < xs.length) (h : addrAt as i = addrAt as j) : i = j := by
  have h1 : i < as.length := wf.len ▸ hi
  have h2 : j < as.length := wf.len ▸ hj
  rw [addrAt_of_lt h1, addrAt_of_lt h2] at h
  exact (wf.nodup.getElem_inj_iff).1 h

theorem WellFormed.cell_lt {α : Type} {me : ListObj α} {as : List Addr} {xs : List α}
    (wf : WellFormed me as xs) {i : Nat} (h : i < xs.length) :
    me.mem (addrAt as i)
      = some { prev := prevAt as i, data := xs[i], next := addrAt as (i + 1) } :=
  wf.cell i xs[i] (List.getElem?_eq_getElem h)

theorem WellFormed.load_lt {α : Type} {me : ListObj α} {as : List Addr} {xs : List α}
    (wf : WellFormed me as xs) {i : Nat} (h : i < xs.length) :
    load me.mem (addrAt as i)
      = .ok { prev := prevAt as i, data := xs[i], next := addrAt as (i + 1) } :=
  load_ok (wf.addr_ne_zero h) (wf.cell_lt h)

theorem WellFormed.walk_next_eq {α : Type} {me : ListObj α} {as : List Addr} {xs : List α}
    (wf : WellFormed me as xs) :
    ∀ (k i : Nat), i + k ≤ xs.length →
      walk_next me.mem k (addrAt as i) = .ok (addrAt as (i + k))
  | 0, i, _ => by simp [walk_next]
  | k + 1, i, h => by
    have hi : i < xs.length := by omega
    have ih := walk_next_eq wf k (i + 1) (by omega)
    simp only [walk_next, wf.load_lt hi, bind, Except.bind]
    rw [ih]
    congr 2
    omega

theorem WellFormed.walk_prev_eq {α : Type} {me : ListObj α} {as : List Addr} {xs : List α}
    (wf : WellFormed me as xs) :
    ∀ (k i : Nat), k ≤ i → i < xs.length →
      walk_prev me.mem k (addrAt as i) = .ok (addrAt as (i - k))
  | 0, i, _, _ => by simp [walk_prev]
  | k + 1, i, h, hi => by
    obtain ⟨j, rfl⟩ : ∃ j, i = j + 1 := ⟨i - 1, by omega⟩
    have ih := walk_prev_eq wf k j (by omega) (by omega)
    simp only [walk_prev, wf.load_lt hi, bind, Except.bind, prevAt_succ]
    rw [ih]
    congr 2
    omega

theorem WellFormed.node_from_head {α : Type} {me : ListObj α} {as : List Addr} {xs : List α}
    (wf : WellFormed me as xs) {i : Nat} (h : i ≤ xs.length) :
    list_get_node_from_head me (i : Int) = .ok (addrAt as i) := by
  have := wf.walk_next_eq i 0 (by omega)
  simpa [list_get_node_from_head, wf.head] using this

theorem WellFormed.node_from_tail {α : Type} {me : ListObj α} {as : List Addr} {xs : List α}
    (wf : WellFormed me as xs) {i : Nat} (h : i < xs.length) :
    list_get_node_from_tail me (i : Int) = .ok (addrAt as i) := by
  have hk : (me.space - 1 - (i : Int)).toNat = xs.length - 1 - i := by
    rw [wf.space]; omega
  have := wf.walk_prev_eq (xs.length - 1 - i) (xs.length - 1) (by omega) (by omega)
  rw [list_get_node_from_tail, hk, wf.tail, wf.len, this]
  congr 2
  omega

theorem WellFormed.node_at {α : Type} {me : ListObj α} {as : List Addr} {xs : List α}
    (wf : WellFormed me as xs) {i : Nat} (h : i < xs.length) :
    list_get_node_at me (i : Int) = .ok (addrAt as i) := by
  unfold list_get_node_at
  split
  · exact wf.node_from_head (by omega)
  · exact wf.node_from_tail h

theorem WellFormed.not_illegal {α : Type} {me : ListObj α} {as : List Addr} {xs : List α}
    (wf : WellFormed me as xs) {i : Nat} (h : i < xs.length) :
    list_is_illegal_input me (i : Int) = false := by
  have h0 : xs.length ≠ 0 := by omega
  simp only [list_is_illegal_input, wf.space, Bool.or_eq_false_iff, decide_eq_false_iff_not]
  omega

theorem WellFormed.get_at {α : Type} {me : ListObj α} {as : List Addr} {xs : List α}
    (wf : WellFormed me as xs) (buf : α) {i : Nat} (h : i < xs.length) :
    list_get_at buf me (i : Int) = .ok (0, xs[i]) := by
  simp [list_get_at, wf.not_illegal h, wf.node_at h, wf.load_lt h, bind, Except.bind, pure,
    Except.pure]



/-! ## The list: positions after an insertion -/

theorem getElem?_ins {β : Type} {l : List β} {k : Nat} (v : β) (hk : k ≤ l.length) (j : Nat) :
    (ins k v l)[j]? = if j < k then l[j]? else if j = k then some v else l[j - 1]? := by
  unfold ins
  rw [List.getElem?_append, List.length_take, min_eq_left hk]
  by_cases h1 : j < k
  · simp [h1, List.getElem?_take]
  · by_cases h2 : j = k
    · simp [h2]
    · obtain ⟨m, rfl⟩ : ∃ m, j = k + (m + 1) := ⟨j - k - 1, by omega⟩
      simp [h1, h2, List.getElem?_drop]

theorem length_ins {β : Type} {l : List β} {k : Nat} (v : β) (hk : k ≤ l.length) :
    (ins k v l).length = l.length + 1 := by
  simp [ins, min_eq_left hk]
  omega

theorem addrAt_eq (as : List Addr) (i : Nat) : addrAt as i = (as[i]?).getD 0 := by
  simp [addrAt, List.getD_eq_getElem?_getD]

theorem addrAt_ins {as : List Addr} {k : Nat} (a : Addr) (hk : k ≤ as.length) (j : Nat) :
    addrAt (ins k a as) j
      = if j < k then addrAt as j else if j = k then a else addrAt as (j - 1) := by
  rw [addrAt_eq, getElem?_ins a hk]
  split_ifs <;> simp [addrAt_eq]

theorem prevAt_pos (as : List Addr) {i : Nat} (h : 0 < i) : prevAt as i = addrAt as (i - 1) := by
  have : i ≠ 0 := by omega
  simp [prevAt, addrAt, this]

theorem prevAt_ins {as : List Addr} {k : Nat} (a : Addr) (hk : k ≤ as.length) (j : Nat) :
    prevAt (ins k a as) j
      = if j ≤ k then prevAt as j else if j = k + 1 then a else addrAt as (j - 2) := by
  rcases Nat.eq_zero_or_pos j with rfl | hj
  · simp [prevAt_zero]
  · rw [prevAt_pos _ hj, addrAt_ins a hk]
    by_cases h1 : j ≤ k
    · have : j - 1 < k := by omega
      simp [h1, this, prevAt_pos _ hj]
    · by_cases h2 : j = k + 1
      · simp [h2]
      · have h3 : ¬ (j - 1 < k) := by omega
        have h4 : ¬ (j - 1 = k) := by omega
        have h5 : j - 1 - 1 = j - 2 := by omega
        simp [h1, h2, h3, h4, h5]


theorem WellFormed.fresh_not_mem {α : Type} {me : ListObj α} {as : List Addr} {xs : List α}
    (wf : WellFormed me as xs) {a : Addr} (hf : Fresh me a) {i : Nat} (h : i < xs.length) :
    addrAt as i ≠ a := by
  intro e
  have := wf.cell_lt h
  rw [e, hf.2] at this
  exact Option.noConfusion this

theorem WellFormed.insert {α : Type} {me me' : ListObj α} {as : List Addr} {xs : List α}
    (wf : WellFormed me as xs) {k : Nat} (hk : k ≤ xs.length) {a : Addr} (hf : Fresh me a)
    (d : α)
    (hspace : me'.space = me.space + 1)
    (hhead : me'.head = if k = 0 then a else me.head)
    (htail : me'.tail = if k = xs.length then a else me.tail)
    (h_new : me'.mem a = some { prev := prevAt as k, data := d, next := addrAt as k })
    (h_before : ∀ (h : k - 1 < xs.length), 0 < k → me'.mem (addrAt as (k - 1))
      = some { prev := prevAt as (k - 1), data := xs[k - 1], next := a })
    (h_after : ∀ (h : k < xs.length), me'.mem (addrAt as k)
      = some { prev := a, data := xs[k], next := addrAt as (k + 1) })
    (h_other : ∀ b, b ≠ a → b ≠ addrAt as (k - 1) → b ≠ addrAt as k → me'.mem b = me.mem b) :
    WellFormed me' (ins k a as) (ins k d xs) := by
  have hka : k ≤ as.length := wf.len ▸ hk
  have hnotin : a ∉ as := by
    intro hmem
    obtain ⟨i, hi, e⟩ := List.getElem_of_mem hmem
    have hi' : i < xs.length := wf.len ▸ hi
    exact wf.fresh_not_mem hf hi' (by rw [addrAt_of_lt hi, e])
  refine ⟨?_, ?_, ?_, ?_, ?_, ?_, ?_⟩
  · rw [length_ins _ hka, length_ins _ hk, wf.len]
  · rw [hspace, wf.space, length_ins _ hk]; push_cast; ring
  · unfold ins
    rw [List.nodup_middle, List.take_append_drop]
    exact List.nodup_cons.2 ⟨hnotin, wf.nodup⟩
  · intro b hb
    unfold ins at hb
    rw [List.mem_append, List.mem_cons] at hb
    rcases hb with hb | rfl | hb
    · exact wf.nonnull b (List.mem_of_mem_take hb)
    · exact hf.1
    · exact wf.nonnull b (List.mem_of_mem_drop hb)
  · rw [hhead, addrAt_ins a hka]
    rcases Nat.eq_zero_or_pos k with rfl | h0
    · simp
    · have : k ≠ 0 := by omega
      simp [h0, this, wf.head]
  · rw [htail, length_ins _ hka, addrAt_ins a hka, wf.len]
    by_cases h1 : k = xs.length
    · simp [h1]
    · have h2 : ¬ (xs.length < k) := by omega
      have h3 : ¬ (xs.length = k) := by omega
      simp [h1, h2, h3, wf.tail, wf.len]
  · intro j x hx
    rw [getElem?_ins d hk] at hx
    rw [addrAt_ins a hka, addrAt_ins a hka, prevAt_ins a hka]
    by_cases h1 : j < k
    · have hj : j < xs.length := by omega
      rw [if_pos h1, List.getElem?_eq_getElem hj] at hx
      cases Option.some.inj hx
      by_cases h2 : j + 1 = k
      · subst h2
        have := h_before (by simpa using hj) (by omega)
        simp only [Nat.add_sub_cancel] at this
        simp [this, h1]
      · have h3 : j + 1 < k := by omega
        have h4 : j ≤ k := by omega
        rw [if_pos h1, if_pos h3, if_pos h4, h_other, wf.cell_lt hj]
        · exact wf.fresh_not_mem hf hj
        · intro e
          have := wf.addr_inj hj (by omega) e
          omega
        · by_cases h5 : k < xs.length
          · intro e
            have := wf.addr_inj hj h5 e
            omega
          · rw [addrAt_of_ge (by rw [wf.len]; omega : as.length ≤ k)]
            exact wf.addr_ne_zero hj
    · rw [if_neg h1] at hx
      by_cases h2 : j = k
      · subst h2
        rw [if_pos rfl] at hx
        cases Option.some.inj hx
        simp [h_new]
      · rw [if_neg h2] at hx
        have hj : j - 1 < xs.length := by
          by_contra hc
          rw [List.getElem?_eq_none (by omega)] at hx
          exact Option.noConfusion hx
        rw [List.getElem?_eq_getElem hj] at hx
        cases Option.some.inj hx
        by_cases h3 : j = k + 1
        · subst h3
          have := h_after (by simpa using hj)
          have h4 : ¬ (k + 1 + 1 < k) := by omega
          have h5 : ¬ (k + 1 + 1 = k) := by omega
          simp [this, h4, h5]
        · have h4 : ¬ (j + 1 < k) := by omega
          have h5 : ¬ (j + 1 = k) := by omega
          have h6 : ¬ (j ≤ k) := by omega
          have h7 : j + 1 - 1 = j - 1 + 1 := by omega
          have h8 : 0 < j - 1 := by omega
          have h9 : j - 1 - 1 = j - 2 := by omega
          rw [if_neg h1, if_neg h2, if_neg h4, if_neg h5, if_neg h6, if_neg h3, h_other,
            wf.cell_lt hj, prevAt_pos _ h8, h7, h9]
          · exact wf.fresh_not_mem hf hj
          · intro e
            have := wf.addr_inj hj (by omega) e
            omega
          · intro e
            have := wf.addr_inj hj (by omega) e
            omega


theorem wrap32_of_range {x : Int} (h1 : -2147483648 ≤ x) (h2 : x < 2147483648) :
    wrap32 x = x := by
  unfold wrap32
  omega

theorem wrap32_succ {n : Nat} (h : (n : Int) < INT_MAX) : wrap32 ((n : Int) + 1) = (n : Int) + 1 := by
  unfold INT_MAX at h
  exact wrap32_of_range (by omega) (by omega)

theorem wrap32_int_max : wrap32 (INT_MAX + 1) = -2147483648 := by decide


theorem setPrev_ok {α : Type} {m : Heap α} {p : Addr} {n : Node α} (v : Addr) (hp : p ≠ 0)
    (hm : m p = some n) : setPrev m p v = .ok (store m p { n with prev := v }) := by
  simp [setPrev, load_ok hp hm, bind, Except.bind, pure, Except.pure]

theorem setNext_ok {α : Type} {m : Heap α} {p : Addr} {n : Node α} (v : Addr) (hp : p ≠ 0)
    (hm : m p = some n) : setNext m p v = .ok (store m p { n with next := v }) := by
  simp [setNext, load_ok hp hm, bind, Except.bind, pure, Except.pure]

theorem setData_ok {α : Type} {m : Heap α} {p : Addr} {n : Node α} (v : α) (hp : p ≠ 0)
    (hm : m p = some n) : setData m p v = .ok (store m p { n with data := v }) := by
  simp [setData, load_ok hp hm, bind, Except.bind, pure, Except.pure]

theorem ins_zero {β : Type} (v : β) (l : List β) : ins 0 v l = v :: l := by
  simp [ins]

theorem ins_length {β : Type} (v : β) (l : List β) : ins l.length v l = l ++ [v] := by
  simp [ins]

/-- On a well-formed list with at least one node `list_add_first` succeeds and, when the
counter does not overflow, the outcome is the well-formed list with the new node in front. -/
theorem WellFormed.add_first {α : Type} {me : ListObj α} {as : List Addr} {xs : List α}
    (wf : WellFormed me as xs) (hn : 0 < xs.length) {a : Addr} (hf : Fresh me a) (d : α) :
    ∃ me', list_add_first me d (some a) true = .ok (0, me') ∧
      me'.space = wrap32 (me.space + 1) ∧ me'.data_size = me.data_size ∧
      (me'.space = me.space + 1 → WellFormed me' (a :: as) (d :: xs)) := by
  have hh : me.head ≠ 0 := wf.head ▸ wf.addr_ne_zero hn
  have hha : me.head ≠ a := wf.head ▸ wf.fresh_not_mem hf hn
  have ht : me.tail ≠ 0 := by
    rw [wf.tail, wf.len]; exact wf.addr_ne_zero (by omega)
  have hc := wf.cell_lt hn
  have h1 : store me.mem a { prev := 0, data := d, next := me.head } me.head
      = some { prev := prevAt as 0, data := xs[0], next := addrAt as (0 + 1) } := by
    rw [store_other _ _ hha, wf.head, hc]
  refine ⟨{ me with
      mem := store (store me.mem a { prev := 0, data := d, next := me.head }) me.head
        { prev := a, data := xs[0], next := addrAt as (0 + 1) },
      head := a, space := wrap32 (me.space + 1) }, ?_, rfl, rfl, ?_⟩
  · simp only [list_add_first, Bool.not_true, Bool.false_eq_true, if_false, ne_eq, hh,
      not_false_eq_true, if_true, setPrev_ok a hh h1, ht, bind, Except.bind, pure, Except.pure]
  · intro hsp
    rw [← ins_zero a as, ← ins_zero d xs]
    refine wf.insert (Nat.zero_le _) hf d hsp (by simp) ?_ ?_ ?_ ?_ ?_
    · have : (0 : Nat) ≠ xs.length := by omega
      simp [this]
    · simp [store, Ne.symm hha, ← wf.head, prevAt_zero]
    · intro _ h; exact absurd h (by omega)
    · intro _
      simp only [store, wf.head]
      simp
    · intro b hb _ hb2
      simp only [store, wf.head]
      rw [if_neg hb2, if_neg hb]


/-- On a well-formed list with at least one node `list_add_last` succeeds and, when the
counter does not overflow, the outcome is the well-formed list with the new node at the
end. -/
theorem WellFormed.add_last {α : Type} {me : ListObj α} {as : List Addr} {xs : List α}
    (wf : WellFormed me as xs) (hn : 0 < xs.length) {a : Addr} (hf : Fresh me a) (d : α) :
    ∃ me', list_add_last me d (some a) true = .ok (0, me') ∧
      me'.space = wrap32 (me.space + 1) ∧
      (me'.space = me.space + 1 → WellFormed me' (as ++ [a]) (xs ++ [d])) := by
  have hl : xs.length - 1 < xs.length := by omega
  have ht : me.tail ≠ 0 := by
    rw [wf.tail, wf.len]; exact wf.addr_ne_zero hl
  have hta : me.tail ≠ a := by
    rw [wf.tail, wf.len]; exact wf.fresh_not_mem hf hl
  have hc := wf.cell_lt hl
  have hte : me.tail = addrAt as (xs.length - 1) := by rw [wf.tail, wf.len]
  have h1 : store me.mem a { prev := me.tail, data := d, next := 0 } me.tail
      = some ⟨prevAt as (xs.length - 1), xs[xs.length - 1], addrAt as (xs.length - 1 + 1)⟩ := by
    rw [store_other _ _ hta, hte, hc]
  refine ⟨{ me with
      mem := store (store me.mem a { prev := me.tail, data := d, next := 0 }) me.tail
        { prev := prevAt as (xs.length - 1), data := xs[xs.length - 1], next := a },
      tail := a, space := wrap32 (me.space + 1) }, ?_, rfl, ?_⟩
  · simp only [list_add_last, Bool.not_true, Bool.false_eq_true, if_false, ne_eq, ht,
      not_false_eq_true, if_true, setNext_ok a ht h1, bind, Except.bind, pure, Except.pure]
  · intro hsp
    have e1 : as ++ [a] = ins xs.length a as := by rw [← wf.len, ins_length]
    rw [e1, ← ins_length d xs]
    refine wf.insert (Nat.le_refl _) hf d hsp ?_ (by simp) ?_ ?_ ?_ ?_
    · have : xs.length ≠ 0 := by omega
      simp [this]
    · have e2 : addrAt as xs.length = 0 := addrAt_of_ge (by rw [wf.len])
      have e3 : prevAt as xs.length = me.tail := by rw [prevAt_pos _ hn, hte]
      simp [store, Ne.symm hta, e2, e3]
    · intro _ _
      simp [store, hte]
    · intro h; exact absurd h (by omega)
    · intro b hb hb1 _
      simp only [store, hte]
      rw [if_neg hb1, if_neg hb]

/-- On a well-formed list `list_add_at` at an inner position succeeds and, when the counter
does not overflow, the outcome is the well-formed list with the new node in front of the node
that was there. -/
theorem WellFormed.add_inner {α : Type} {me : ListObj α} {as : List Addr} {xs : List α}
    (wf : WellFormed me as xs) {k : Nat} (h0 : 0 < k) (hk : k < xs.length) {a : Addr}
    (hf : Fresh me a) (d : α) :
    ∃ me', list_add_at me (k : Int) d (some a) true = .ok (0, me') ∧
      me'.space = wrap32 (me.space + 1) ∧
      (me'.space = me.space + 1 → WellFormed me' (ins k a as) (ins k d xs)) := by
  have hp : k - 1 < xs.length := by omega
  have hcp := wf.cell_lt hp
  have hct := wf.cell_lt hk
  have hpt : addrAt as (k - 1) ≠ addrAt as k := by
    intro e
    have := wf.addr_inj hp hk e
    omega
  have hta : addrAt as k ≠ a := wf.fresh_not_mem hf hk
  have hpa : addrAt as (k - 1) ≠ a := wf.fresh_not_mem hf hp
  have ht0 : addrAt as k ≠ 0 := wf.addr_ne_zero hk
  have hp0 : addrAt as (k - 1) ≠ 0 := wf.addr_ne_zero hp
  have hkk : k - 1 + 1 = k := by omega
  rw [hkk] at hcp
  have g1 : ¬ ((k : Int) < 0 ∨ (k : Int) > me.space) := by rw [wf.space]; omega
  have g2 : ¬ ((k : Int) = 0) := by omega
  have g3 : ¬ ((k : Int) = me.space) := by rw [wf.space]; omega
  have l1 : store me.mem a { prev := prevAt as k, data := d, next := addrAt as k } (addrAt as k)
      = some { prev := prevAt as k, data := xs[k], next := addrAt as (k + 1) } := by
    rw [store_other _ _ hta, hct]
  have l2 : store me.mem a { prev := prevAt as k, data := d, next := addrAt as k }
        (addrAt as (k - 1))
      = some { prev := prevAt as (k - 1), data := xs[k - 1], next := addrAt as k } := by
    rw [store_other _ _ hpa, hcp]
  have l3 : store (store me.mem a { prev := prevAt as k, data := d, next := addrAt as k })
        (addrAt as (k - 1)) { prev := prevAt as (k - 1), data := xs[k - 1], next := a }
        (addrAt as k)
      = some { prev := prevAt as k, data := xs[k], next := addrAt as (k + 1) } := by
    rw [store_other _ _ (Ne.symm hpt), l1]
  refine ⟨{ me with
      mem := store (store (store me.mem a { prev := prevAt as k, data := d, next := addrAt as k })
          (addrAt as (k - 1)) { prev := prevAt as (k - 1), data := xs[k - 1], next := a })
        (addrAt as k) { prev := a, data := xs[k], next := addrAt as (k + 1) },
      space := wrap32 (me.space + 1) }, ?_, rfl, ?_⟩
  · have pk : prevAt as k = addrAt as (k - 1) := prevAt_pos _ h0
    simp only [list_add_at, g1, g2, g3, if_false, wf.node_at hk, Bool.not_true,
      Bool.false_eq_true, load_ok ht0 hct, load_ok ht0 l1, bind, Except.bind, pure, Except.pure]
    rw [pk] at l2 l3 ⊢
    simp only [setNext_ok a hp0 l2, setPrev_ok a ht0 l3]
  · intro hsp
    refine wf.insert (Nat.le_of_lt hk) hf d hsp ?_ ?_ ?_ ?_ ?_ ?_
    · have : k ≠ 0 := by omega
      simp [this]
    · have : k ≠ xs.length := by omega
      simp [this]
    · simp [store, Ne.symm hta, Ne.symm hpa]
    · intro _ _
      simp [store, hpt]
    · intro _
      simp [store]
    · intro b hb hb1 hb2
      simp only [store]
      rw [if_neg hb2, if_neg hb1, if_neg hb]

/-- On a well-formed list `list_set_at` at a valid index succeeds and the outcome is the
well-formed list on the same nodes with the element at that index replaced. -/
theorem WellFormed.set_at {α : Type} {me : ListObj α} {as : List Addr} {xs : List α}
    (wf : WellFormed me as xs) {k : Nat} (hk : k < xs.length) (d : α) :
    ∃ me', list_set_at me (k : Int) d = .ok (0, me') ∧ WellFormed me' as (xs.set k d) := by
  have ht0 : addrAt as k ≠ 0 := wf.addr_ne_zero hk
  have hct := wf.cell_lt hk
  refine ⟨{ me with
      mem := store me.mem (addrAt as k) ⟨prevAt as k, d, addrAt as (k + 1)⟩ }, ?_, ?_⟩
  · simp only [list_set_at, wf.not_illegal hk, Bool.false_eq_true, if_false, wf.node_at hk,
      setData_ok d ht0 hct, bind, Except.bind, pure, Except.pure]
  · refine ⟨?_, ?_, wf.nodup, wf.nonnull, wf.head, wf.tail, ?_⟩
    · rw [List.length_set, wf.len]
    · rw [List.length_set]; exact wf.space
    · intro j x hx
      rw [List.getElem?_set] at hx
      by_cases hjk : k = j
      · subst hjk
        rw [if_pos rfl, if_pos hk] at hx
        cases Option.some.inj hx
        simp [store]
      · rw [if_neg hjk] at hx
        have hj : j < xs.length := by
          by_contra hc
          rw [List.getElem?_eq_none (by omega)] at hx
          exact Option.noConfusion hx
        have hne : addrAt as j ≠ addrAt as k := fun e => hjk (wf.addr_inj hj hk e).symm
        show store me.mem _ _ _ = _
        rw [store_other _ _ hne]
        exact wf.cell j x hx


theorem list_init_eq (α : Type) (data_size : Nat) :
    list_init true data_size = some (emptyList α data_size) := rfl

theorem emptyList_wf (α : Type) (data_size : Nat) :
    WellFormed (emptyList α data_size) [] [] := by
  refine ⟨rfl, rfl, List.nodup_nil, ?_, rfl, rfl, ?_⟩
  · intro a ha; cases ha
  · intro i x h; simp at h

theorem singletonList_wf {α : Type} (data_size : Nat) {a : Addr} (ha : a ≠ 0) (x : α) :
    WellFormed (singletonList data_size a x) [a] [x] := by
  refine ⟨rfl, rfl, List.nodup_singleton a, ?_, rfl, rfl, ?_⟩
  · intro b hb
    rw [List.mem_singleton] at hb
    exact hb ▸ ha
  · intro i y h
    match i, h with
    | 0, h =>
      simp at h
      subst h
      simp [singletonList, addrAt, prevAt, store]
    | i + 1, h => simp at h

theorem pairList_wf {α : Type} (data_size : Nat) (x y : α) :
    WellFormed (pairList data_size x y) [1, 2] [x, y] := by
  refine ⟨rfl, rfl, by decide, by decide, rfl, rfl, ?_⟩
  intro i z h
  match i, h with
  | 0, h =>
    simp at h
    subst h
    simp [pairList, addrAt, prevAt, store]
  | 1, h =>
    simp at h
    subst h
    simp [pairList, addrAt, prevAt, store]
  | i + 2, h => simp at h

theorem pairList_fresh {α : Type} (data_size : Nat) (x y : α) :
    Fresh (pairList data_size x y) 3 := by
  simp [Fresh, pairList, store]

theorem WellFormed.eq_nil {α : Type} {me : ListObj α} {as : List Addr}
    (wf : WellFormed me as ([] : List α)) :
    as = [] ∧ me.space = 0 ∧ me.head = 0 ∧ me.tail = 0 := by
  have h : as = [] := List.length_eq_zero.1 wf.len
  subst h
  exact ⟨rfl, wf.space, wf.head, wf.tail⟩

/-- Reading a well-formed list into which one element has been inserted. -/
theorem WellFormed.get_at_ins {α : Type} {me : ListObj α} {as : List Addr} {xs : List α}
    {k : Nat} {a : Addr} {d : α} (wf : WellFormed me (ins k a as) (ins k d xs))
    (hk : k ≤ xs.length) (buf : α) :
    (∀ i x, i < k → xs[i]? = some x → list_get_at buf me (i : Int) = .ok (0, x)) ∧
    list_get_at buf me (k : Int) = .ok (0, d) ∧
    (∀ i x, k < i → xs[i - 1]? = some x → list_get_at buf me (i : Int) = .ok (0, x)) := by
  have hlen := length_ins d hk
  have key : ∀ (i : Nat) (x : α), (ins k d xs)[i]? = some x → list_get_at buf me (i : Int) = .ok (0, x) := by
    intro i x hx
    have hi : i < (ins k d xs).length := by
      by_contra hc
      rw [List.getElem?_eq_none (by omega)] at hx
      exact Option.noConfusion hx
    rw [wf.get_at buf hi]
    rw [List.getElem?_eq_getElem hi] at hx
    cases Option.some.inj hx
    rfl
  refine ⟨?_, ?_, ?_⟩
  · intro i x hi hx
    exact key i x (by rw [getElem?_ins d hk, if_pos hi, hx])
  · exact key k d (by rw [getElem?_ins d hk, if_neg (lt_irrefl k), if_pos rfl])
  · intro i x hi hx
    exact key i x (by
      rw [getElem?_ins d hk, if_neg (by omega : ¬ i < k), if_neg (by omega : ¬ i = k), hx])

/-- Following `next` from any node of a well-formed list copies the elements from there on,
each to the offset the `int` counter has reached. -/
theorem WellFormed.copy_loop_eq {α : Type} {me : ListObj α} {as : List Addr} {xs : List α}
    (wf : WellFormed me as xs) (ds : Nat) :
    ∀ (fuel i : Nat) (offset : Int), i ≤ xs.length → xs.length - i < fuel →
      copy_loop me.mem ds fuel (addrAt as i) offset = .ok (writesFrom ds offset (xs.drop i))
  | 0, i, _, _, h => absurd h (by omega)
  | fuel + 1, i, offset, hi, h => by
    rcases Nat.lt_or_ge i xs.length with hlt | hge
    · have ih := WellFormed.copy_loop_eq wf ds fuel (i + 1) (wrap32 (offset + (ds : Int)))
        (by omega) (by omega)
      simp only [copy_loop, wf.addr_ne_zero hlt, if_false, wf.load_lt hlt, bind, Except.bind, ih,
        pure, Except.pure]
      rw [List.drop_eq_getElem_cons hlt]
      rfl
    · have e : addrAt as i = 0 := addrAt_of_ge (by rw [wf.len]; exact hge)
      simp [copy_loop, e, List.drop_eq_nil_of_le hge, writesFrom]

theorem WellFormed.copy_to_array {α : Type} {me : ListObj α} {as : List Addr} {xs : List α}
    (wf : WellFormed me as xs) {fuel : Nat} (h : xs.length < fuel) :
    list_copy_to_array fuel me = .ok (writesFrom me.data_size 0 xs) := by
  have := wf.copy_loop_eq me.data_size fuel 0 0 (Nat.zero_le _) (by omega)
  simpa [list_copy_to_array, wf.head] using this

/-- While no offset written at reaches `2^31`, the writes fill the array slots in order. -/
theorem writesFrom_eq_arraySlots {α : Type} (ds : Nat) :
    ∀ (l : List α) (k : Nat), (k + l.length - 1) * ds < 2147483648 →
      writesFrom ds (((k * ds : Nat) : Int)) l = arraySlots ds k l
  | [], _, _ => rfl
  | x :: l, k, h => by
    cases l with
    | nil => simp [writesFrom, arraySlots]
    | cons y l =>
      have hle : (k + 1) * ds ≤ (k + (x :: y :: l).length - 1) * ds :=
        Nat.mul_le_mul_right ds (by simp)
      have hk : (k + 1) * ds < 2147483648 := lt_of_le_of_lt hle h
      have hw : wrap32 (((k * ds : Nat) : Int) + (ds : Int)) = (((k + 1) * ds : Nat) : Int) := by
        have e : ((k * ds : Nat) : Int) + (ds : Int) = (((k + 1) * ds : Nat) : Int) := by
          push_cast; ring
        rw [e]
        exact wrap32_of_range (by omega) (by omega)
      have ih := writesFrom_eq_arraySlots ds (y :: l) (k + 1) (by
        have : k + 1 + (y :: l).length - 1 = k + (x :: y :: l).length - 1 := by
          simp only [List.length_cons]; omega
        rw [this]; exact h)
      rw [writesFrom, arraySlots, hw, ih]

/-- On the empty list `list_add_first` leaves `tail` null; the element is still reachable
from `head`. -/
theorem add_first_empty {α : Type} {me : ListObj α} {as : List Addr}
    (wf : WellFormed me as ([] : List α)) {a : Addr} (hf : Fresh me a) (d : α) :
    ∃ me', list_add_first me d (some a) true = .ok (0, me') ∧ me'.space = 1 ∧
      me'.tail = 0 ∧ me'.data_size = me.data_size ∧
      (∀ buf, list_get_at buf me' 0 = .ok (0, d)) ∧
      (∀ fuel, 1 < fuel → list_copy_to_array fuel me' = .ok [(0, d)]) := by
  obtain ⟨_, hs, hh, ht⟩ := wf.eq_nil
  refine ⟨{ me with mem := store me.mem a ⟨0, d, 0⟩, head := a, tail := 0, space := 1 },
    ?_, rfl, rfl, rfl, ?_, ?_⟩
  · have w : wrap32 1 = 1 := by decide
    simp [list_add_first, hs, hh, ht, pure, Except.pure, bind, Except.bind, w]
  · intro buf
    have e : (1 : Int).tdiv 2 = 0 := by decide
    simp [list_get_at, list_is_illegal_input, list_get_node_at, list_get_node_from_head,
      walk_next, load, hf.1, store, pure, Except.pure, bind, Except.bind, e]
  · intro fuel hfuel
    obtain ⟨f, rfl⟩ : ∃ f, fuel = f + 2 := ⟨fuel - 2, by omega⟩
    simp [list_copy_to_array, copy_loop, load, hf.1, store, pure, Except.pure, bind,
      Except.bind]


/-- What `list_add_first` does to a well-formed list of fewer than `INT_MAX` elements. -/
theorem WellFormed.add_first_all {α : Type} {me : ListObj α} {as : List Addr} {xs : List α}
    (wf : WellFormed me as xs) (hb : (xs.length : Int) < INT_MAX) {a : Addr} (hf : Fresh me a)
    (d : α) :
    ∃ me', list_add_first me d (some a) true = .ok (0, me') ∧
      list_size me' = (xs.length : Int) + 1 ∧
      (∀ buf, list_get_at buf me' 0 = .ok (0, d)) ∧
      (∀ buf (i : Nat) x, 1 ≤ i → i ≤ xs.length → xs[i - 1]? = some x →
        list_get_at buf me' (i : Int) = .ok (0, x)) ∧
      (∀ fuel, xs.length + 1 < fuel → xs.length * me.data_size < 2147483648 →
        list_copy_to_array fuel me' = .ok (arraySlots me.data_size 0 (d :: xs))) := by
  rcases Nat.eq_zero_or_pos xs.length with h0 | hn
  · have hx : xs = [] := List.length_eq_zero.1 h0
    subst hx
    obtain ⟨me', hrun, hs, _, _, hget, hcopy⟩ := add_first_empty wf hf d
    refine ⟨me', hrun, by simpa [list_size] using hs, hget, ?_, ?_⟩
    · intro buf i x h1 h2
      simp at h2
      omega
    · intro fuel hfu _
      rw [hcopy fuel (by simpa using hfu)]
      simp [arraySlots]
  · obtain ⟨me', hrun, hsp, hds, hwf⟩ := wf.add_first hn hf d
    have hsp' : me'.space = me.space + 1 := by
      rw [hsp, wf.space]; exact wrap32_succ hb
    have wf' := hwf hsp'
    have wi : WellFormed me' (ins 0 a as) (ins 0 d xs) := by
      rw [ins_zero, ins_zero]; exact wf'
    refine ⟨me', hrun, ?_, ?_, ?_, ?_⟩
    · rw [list_size, wf'.space]; simp
    · intro buf
      exact (wi.get_at_ins (Nat.zero_le _) buf).2.1
    · intro buf i x h1 _ hx
      exact (wi.get_at_ins (Nat.zero_le _) buf).2.2 i x (by omega) hx
    · intro fuel hfu hpay
      rw [wf'.copy_to_array (by simpa using hfu), hds]
      have := writesFrom_eq_arraySlots me.data_size (d :: xs) 0 (by simpa using hpay)
      simpa using this

/-- What `list_add_at` does to a well-formed list of fewer than `INT_MAX` elements at every
index it accepts. -/
theorem WellFormed.add_at_all {α : Type} {me : ListObj α} {as : List Addr} {xs : List α}
    (wf : WellFormed me as xs) (hb : (xs.length : Int) < INT_MAX) {k : Nat}
    (hk : k ≤ xs.length) {a : Addr} (hf : Fresh me a) (d : α) :
    ∃ me', list_add_at me (k : Int) d (some a) true = .ok (0, me') ∧
      list_size me' = (xs.length : Int) + 1 ∧
      (∀ buf (i : Nat) x, i < k → xs[i]? = some x →
        list_get_at buf me' (i : Int) = .ok (0, x)) ∧
      (∀ buf, list_get_at buf me' (k : Int) = .ok (0, d)) ∧
      (∀ buf (i : Nat) x, k < i → i ≤ xs.length → xs[i - 1]? = some x →
        list_get_at buf me' (i : Int) = .ok (0, x)) := by
  have g1 : ¬ ((k : Int) < 0 ∨ (k : Int) > me.space) := by rw [wf.space]; omega
  rcases Nat.eq_zero_or_pos k with rfl | hpos
  · obtain ⟨me', hrun, hs, hg0, hgi, _⟩ := wf.add_first_all hb hf d
    have hs0 : ¬ me.space < 0 := by rw [wf.space]; omega
    refine ⟨me', ?_, hs, ?_, hg0, ?_⟩
    · simpa [list_add_at, hs0] using hrun
    · intro buf i x hi
      omega
    · intro buf i x hi hle hx
      exact hgi buf i x (by omega) hle hx
  · have key : ∃ me', list_add_at me (k : Int) d (some a) true = .ok (0, me') ∧
        WellFormed me' (ins k a as) (ins k d xs) := by
      have hw : wrap32 (me.space + 1) = me.space + 1 := by
        rw [wf.space]; exact wrap32_succ hb
      rcases Nat.lt_or_ge k xs.length with hlt | hge
      · obtain ⟨me', hrun, hsp, hwf⟩ := wf.add_inner hpos hlt hf d
        exact ⟨me', hrun, hwf (hsp.trans hw)⟩
      · have hkn : k = xs.length := by omega
        subst hkn
        obtain ⟨me', hrun, hsp, hwf⟩ := wf.add_last hpos hf d
        have wf' := hwf (hsp.trans hw)
        refine ⟨me', ?_, ?_⟩
        · have g2 : ¬ ((xs.length : Int) = 0) := by omega
          simpa [list_add_at, g1, g2, wf.space] using hrun
        · rw [ins_length]
          have := ins_length a as
          rw [wf.len] at this
          rw [this]
          exact wf'
    obtain ⟨me', hrun, wi⟩ := key
    refine ⟨me', hrun, ?_, ?_, ?_, ?_⟩
    · rw [list_size, wi.space, length_ins d hk]; simp
    · intro buf i x hi hx
      exact (wi.get_at_ins hk buf).1 i x hi hx
    · intro buf
      exact (wi.get_at_ins hk buf).2.1
    · intro buf i x hi _ hx
      exact (wi.get_at_ins hk buf).2.2 i x hi hx


theorem addrAt_range (n i : Nat) :
    addrAt (List.range' 1 n) i = if i < n then i + 1 else 0 := by
  by_cases h : i < n
  · rw [addrAt_eq, List.getElem?_range' 1 1 h, if_pos h]
    show 1 + 1 * i = i + 1
    omega
  · rw [if_neg h]
    exact addrAt_of_ge (by rw [List.length_range']; omega)

/-- The chain of `n` nodes at the addresses `1, ..., n` is a well-formed list. -/
theorem chainList_wf {α : Type} (data_size n : Nat) (x : α) :
    WellFormed (chainList data_size n x) (List.range' 1 n) (List.replicate n x) := by
  refine ⟨?_, ?_, List.nodup_range' 1 n, ?_, ?_, ?_, ?_⟩
  · rw [List.length_range', List.length_replicate]
  · rw [List.length_replicate]; rfl
  · intro a ha
    rw [List.mem_range'_1] at ha
    exact Nat.ne_of_gt ha.1
  · rw [addrAt_range]
    rcases Nat.eq_zero_or_pos n with rfl | h
    · rfl
    · have : n ≠ 0 := by omega
      simp [chainList, this, h]
  · rw [List.length_range', addrAt_range]
    rcases Nat.eq_zero_or_pos n with rfl | h
    · rfl
    · have h1 : n - 1 < n := by omega
      have h2 : n - 1 + 1 = n := by omega
      simp [chainList, h1, h2]
  · intro i y hy
    rw [List.getElem?_replicate] at hy
    by_cases hi : i < n
    · rw [if_pos hi] at hy
      cases Option.some.inj hy
      have hp : prevAt (List.range' 1 n) i = i := by
        rcases Nat.eq_zero_or_pos i with rfl | h0
        · exact prevAt_zero _
        · rw [prevAt_pos _ h0, addrAt_range, if_pos (by omega)]
          exact Nat.sub_add_cancel h0
      rw [hp, addrAt_range, addrAt_range, if_pos hi]
      have hm : 1 ≤ i + 1 ∧ i + 1 ≤ n := by omega
      show (if 1 ≤ i + 1 ∧ i + 1 ≤ n then _ else _) = _
      rw [if_pos hm]
      by_cases hl : i + 1 < n
      · have : ¬ (i + 1 = n) := by omega
        simp [hl, this]
      · have : i + 1 = n := by omega
        subst this
        simp
    · rw [if_neg hi] at hy
      exact Option.noConfusion hy

theorem chainList_fresh {α : Type} (data_size n : Nat) (x : α) :
    Fresh (chainList data_size n x) (n + 1) := by
  refine ⟨Nat.succ_ne_zero n, ?_⟩
  show (if 1 ≤ n + 1 ∧ n + 1 ≤ n then _ else _) = _
  rw [if_neg (by omega)]

/-- Once the counter is negative every index is rejected. -/
theorem list_get_at_negative_space {α : Type} (buf : α) (me : ListObj α) (index : Int)
    (h : me.space < 0) (hi : 0 ≤ index) : list_get_at buf me index = .ok (-EINVAL, buf) := by
  have : list_is_illegal_input me index = true := by
    simp only [list_is_illegal_input, Bool.or_eq_true, decide_eq_true_eq]
    omega
  simp [list_get_at, this]


/-! ## The list: positions after a removal -/

theorem addrAt_eraseIdx (as : List Addr) (k j : Nat) :
    addrAt (as.eraseIdx k) j = if j < k then addrAt as j else addrAt as (j + 1) := by
  rw [addrAt_eq, List.getElem?_eraseIdx]
  split_ifs <;> simp [addrAt_eq]

theorem prevAt_eraseIdx (as : List Addr) (k j : Nat) :
    prevAt (as.eraseIdx k) j
      = if j ≤ k then prevAt as j else addrAt as j := by
  rcases Nat.eq_zero_or_pos j with rfl | hj
  · simp [prevAt_zero]
  · rw [prevAt_pos _ hj, addrAt_eraseIdx]
    by_cases h1 : j ≤ k
    · have : j - 1 < k := by omega
      simp [h1, this, prevAt_pos _ hj]
    · have h2 : ¬ (j - 1 < k) := by omega
      have h3 : j - 1 + 1 = j := by omega
      simp [h1, h2, h3]

/-- Unlinking the node at position `k` of a well-formed list of at least two nodes leaves
the well-formed list without it. -/
theorem WellFormed.erase {α : Type} {me me' : ListObj α} {as : List Addr} {xs : List α}
    (wf : WellFormed me as xs) {k : Nat} (hk : k < xs.length) (hn : 2 ≤ xs.length)
    (hspace : me'.space = me.space - 1)
    (hhead : me'.head = if k = 0 then addrAt as 1 else me.head)
    (htail : me'.tail = if k + 1 = xs.length then addrAt as (k - 1) else me.tail)
    (h_before : ∀ (h : k - 1 < xs.length), 0 < k → me'.mem (addrAt as (k - 1))
      = some { prev := prevAt as (k - 1), data := xs[k - 1], next := addrAt as (k + 1) })
    (h_after : ∀ (h : k + 1 < xs.length), me'.mem (addrAt as (k + 1))
      = some { prev := prevAt as k, data := xs[k + 1], next := addrAt as (k + 2) })
    (h_other : ∀ b, b ≠ addrAt as k → b ≠ addrAt as (k - 1) → b ≠ addrAt as (k + 1) →
      me'.mem b = me.mem b) :
    WellFormed me' (as.eraseIdx k) (xs.eraseIdx k) := by
  have hka : k < as.length := wf.len ▸ hk
  have la : (as.eraseIdx k).length = as.length - 1 := by
    rw [List.length_eraseIdx, if_pos hka]
  have lx : (xs.eraseIdx k).length = xs.length - 1 := by
    rw [List.length_eraseIdx, if_pos hk]
  refine ⟨?_, ?_, ?_, ?_, ?_, ?_, ?_⟩
  · rw [la, lx, wf.len]
  · rw [hspace, wf.space, lx]; omega
  · exact List.Nodup.sublist (List.eraseIdx_sublist as k) wf.nodup
  · intro b hb
    exact wf.nonnull b ((List.eraseIdx_sublist as k).subset hb)
  · rw [hhead, addrAt_eraseIdx]
    rcases Nat.eq_zero_or_pos k with rfl | h0
    · simp
    · have : k ≠ 0 := by omega
      simp [h0, this, wf.head]
  · rw [htail, la, addrAt_eraseIdx, wf.len]
    by_cases h1 : k + 1 = xs.length
    · have h2 : xs.length - 1 - 1 < k := by omega
      have h3 : xs.length - 1 - 1 = k - 1 := by omega
      have h4 : 0 < k := by omega
      simp [h1, h2, h3, h4]
    · have h2 : ¬ (xs.length - 1 - 1 < k) := by omega
      have h3 : xs.length - 1 - 1 + 1 = xs.length - 1 := by omega
      simp [h1, h2, h3, wf.tail, wf.len]
  · intro j x hx
    rw [List.getElem?_eraseIdx] at hx
    rw [addrAt_eraseIdx, addrAt_eraseIdx, prevAt_eraseIdx]
    by_cases h1 : j < k
    · have hj : j < xs.length := by omega
      rw [if_pos h1, List.getElem?_eq_getElem hj] at hx
      cases Option.some.inj hx
      have h4 : j ≤ k := by omega
      by_cases h2 : j + 1 = k
      · subst h2
        have := h_before (by simpa using hj) (by omega)
        simp only [Nat.add_sub_cancel] at this
        simp [this, h1]
      · have h3 : j + 1 < k := by omega
        rw [if_pos h1, if_pos h3, if_pos h4, h_other, wf.cell_lt hj]
        · intro e
          have := wf.addr_inj hj hk e
          omega
        · intro e
          have := wf.addr_inj hj (by omega) e
          omega
        · by_cases h5 : k + 1 < xs.length
          · intro e
            have := wf.addr_inj hj h5 e
            omega
          · rw [addrAt_of_ge (by rw [wf.len]; omega : as.length ≤ k + 1)]
            exact wf.addr_ne_zero hj
    · rw [if_neg h1] at hx
      have hj : j + 1 < xs.length := by
        by_contra hc
        rw [List.getElem?_eq_none (by omega)] at hx
        exact Option.noConfusion hx
      rw [List.getElem?_eq_getElem hj] at hx
      cases Option.some.inj hx
      have h2 : ¬ (j + 1 < k) := by omega
      by_cases h3 : j = k
      · subst h3
        have := h_after hj
        simp [this]
      · have h4 : ¬ (j ≤ k) := by omega
        have h5 : prevAt as (j + 1) = addrAt as j := prevAt_succ as j
        rw [if_neg h1, if_neg h2, if_neg h4, h_other, wf.cell_lt hj, h5]
        · intro e
          have := wf.addr_inj hj hk e
          omega
        · intro e
          have := wf.addr_inj hj (by omega) e
          omega
        · intro e
          have := wf.addr_inj hj (by omega) e
          omega


theorem release_other {α : Type} (m : Heap α) {a b : Addr} (h : b ≠ a) :
    release m a b = m b := by
  simp [release, h]

/-- On a well-formed list of at least two nodes `list_remove_at` at a valid index succeeds
and the outcome is the well-formed list without the node at that index. -/
theorem WellFormed.remove_at {α : Type} {me : ListObj α} {as : List Addr} {xs : List α}
    (wf : WellFormed me as xs) {k : Nat} (hk : k < xs.length) (hn : 2 ≤ xs.length) :
    ∃ me', list_remove_at me (k : Int) = .ok (0, me') ∧
      WellFormed me' (as.eraseIdx k) (xs.eraseIdx k) := by
  have ht0 : addrAt as k ≠ 0 := wf.addr_ne_zero hk
  have hct := wf.cell_lt hk
  have hlt := load_ok ht0 hct
  rcases Nat.eq_zero_or_pos k with rfl | hpos
  · -- the first node
    have h1 : 1 < xs.length := by omega
    have hc1 := wf.cell_lt h1
    have h10 : addrAt as 1 ≠ 0 := wf.addr_ne_zero h1
    have hne : addrAt as 0 ≠ addrAt as 1 := fun e => absurd (wf.addr_inj hk h1 e) (by omega)
    have l1 : store me.mem (addrAt as 1) ⟨0, xs[1], addrAt as (1 + 1)⟩ (addrAt as 0)
        = some ⟨prevAt as 0, xs[0], addrAt as (0 + 1)⟩ := by
      rw [store_other _ _ hne, hct]
    refine ⟨{ me with
        mem := release (store me.mem (addrAt as 1) ⟨0, xs[1], addrAt as (1 + 1)⟩) (addrAt as 0),
        head := addrAt as 1, space := me.space - 1 }, ?_, ?_⟩
    · have g : list_is_illegal_input me ((0 : Nat) : Int) = false := wf.not_illegal hk
      have gn := wf.node_at hk
      simp only [Nat.cast_zero] at g gn
      simp only [list_remove_at, Nat.cast_zero, g, gn, Bool.false_eq_true, if_false, if_true,
        hlt, setPrev_ok 0 h10 hc1, load_ok ht0 l1, bind, Except.bind, pure, Except.pure]
    · refine wf.erase hk hn rfl (by simp) ?_ ?_ ?_ ?_
      · have : ¬ (0 + 1 = xs.length) := by omega
        simp [this]
      · intro _ h; exact absurd h (by omega)
      · intro _
        show release _ _ _ = _
        rw [release_other _ (Ne.symm hne)]
        simp [store, prevAt_zero]
      · intro b hb _ hb2
        show release _ _ _ = _
        rw [release_other _ hb, store_other _ _ hb2]
  · have hp : k - 1 < xs.length := by omega
    have hcp := wf.cell_lt hp
    have hp0 : addrAt as (k - 1) ≠ 0 := wf.addr_ne_zero hp
    have hkk : k - 1 + 1 = k := by omega
    rw [hkk] at hcp
    have hpt : addrAt as (k - 1) ≠ addrAt as k :=
      fun e => absurd (wf.addr_inj hp hk e) (by omega)
    have pk : prevAt as k = addrAt as (k - 1) := prevAt_pos _ hpos
    have g := wf.not_illegal hk
    have gn := wf.node_at hk
    have g0 : ¬ ((k : Int) = 0) := by omega
    rcases Nat.lt_or_ge (k + 1) xs.length with hlast | hlast
    · -- an inner node
      have hcn := wf.cell_lt hlast
      have hn0 : addrAt as (k + 1) ≠ 0 := wf.addr_ne_zero hlast
      have hnt : addrAt as (k + 1) ≠ addrAt as k :=
        fun e => absurd (wf.addr_inj hlast hk e) (by omega)
      have hnp : addrAt as (k + 1) ≠ addrAt as (k - 1) :=
        fun e => absurd (wf.addr_inj hlast hp e) (by omega)
      have g1 : ¬ ((k : Int) = me.space - 1) := by rw [wf.space]; omega
      have l1 : store me.mem (addrAt as (k - 1))
            ⟨prevAt as (k - 1), xs[k - 1], addrAt as (k + 1)⟩ (addrAt as k)
          = some ⟨prevAt as k, xs[k], addrAt as (k + 1)⟩ := by
        rw [store_other _ _ (Ne.symm hpt), hct]
      have l2 : store me.mem (addrAt as (k - 1))
            ⟨prevAt as (k - 1), xs[k - 1], addrAt as (k + 1)⟩ (addrAt as (k + 1))
          = some ⟨prevAt as (k + 1), xs[k + 1], addrAt as (k + 1 + 1)⟩ := by
        rw [store_other _ _ hnp, hcn]
      have l3 : store (store me.mem (addrAt as (k - 1))
            ⟨prevAt as (k - 1), xs[k - 1], addrAt as (k + 1)⟩) (addrAt as (k + 1))
            ⟨prevAt as k, xs[k + 1], addrAt as (k + 1 + 1)⟩ (addrAt as k)
          = some ⟨prevAt as k, xs[k], addrAt as (k + 1)⟩ := by
        rw [store_other _ _ (Ne.symm hnt), l1]
      refine ⟨{ me with
          mem := release (store (store me.mem (addrAt as (k - 1))
            ⟨prevAt as (k - 1), xs[k - 1], addrAt as (k + 1)⟩) (addrAt as (k + 1))
            ⟨prevAt as k, xs[k + 1], addrAt as (k + 1 + 1)⟩) (addrAt as k),
          space := me.space - 1 }, ?_, ?_⟩
      · simp only [list_remove_at, g, gn, g0, g1, Bool.false_eq_true, if_false, hlt,
          bind, Except.bind, pure, Except.pure]
        rw [pk] at l1 l3 ⊢
        simp only [setNext_ok (addrAt as (k + 1)) hp0 hcp, load_ok ht0 l1,
          setPrev_ok (addrAt as (k - 1)) hn0 l2, load_ok ht0 l3]
      · refine wf.erase hk hn rfl ?_ ?_ ?_ ?_ ?_
        · have : k ≠ 0 := by omega
          simp [this]
        · have : ¬ (k + 1 = xs.length) := by omega
          simp [this]
        · intro _ _
          show release _ _ _ = _
          rw [release_other _ hpt, store_other _ _ (Ne.symm hnp)]
          simp [store]
        · intro _
          show release _ _ _ = _
          rw [release_other _ hnt]
          simp [store]
        · intro b hb hb1 hb2
          show release _ _ _ = _
          rw [release_other _ hb, store_other _ _ hb2, store_other _ _ hb1]
    · -- the last node
      have hkl : k + 1 = xs.length := by omega
      have g1 : (k : Int) = me.space - 1 := by rw [wf.space]; omega
      have hz : addrAt as (k + 1) = 0 := addrAt_of_ge (by rw [wf.len]; omega)
      have l1 : store me.mem (addrAt as (k - 1)) ⟨prevAt as (k - 1), xs[k - 1], 0⟩ (addrAt as k)
          = some ⟨prevAt as k, xs[k], addrAt as (k + 1)⟩ := by
        rw [store_other _ _ (Ne.symm hpt), hct]
      refine ⟨{ me with
          mem := release (store me.mem (addrAt as (k - 1))
            ⟨prevAt as (k - 1), xs[k - 1], 0⟩) (addrAt as k),
          tail := addrAt as (k - 1), space := me.space - 1 }, ?_, ?_⟩
      · simp only [list_remove_at, g, gn, g0, Bool.false_eq_true, if_false, hlt,
          bind, Except.bind, pure, Except.pure]
        rw [if_pos g1]
        rw [pk] at l1 ⊢
        simp only [setNext_ok 0 hp0 hcp, load_ok ht0 l1]
      · refine wf.erase hk hn rfl ?_ ?_ ?_ ?_ ?_
        · have : k ≠ 0 := by omega
          simp [this]
        · simp [hkl]
        · intro _ _
          show release _ _ _ = _
          rw [release_other _ hpt, hz]
          simp [store]
        · intro h; exact absurd h (by omega)
        · intro b hb hb1 _
          show release _ _ _ = _
          rw [release_other _ hb, store_other _ _ hb1]


/-- C2, the part the code keeps: on a well-formed list of at least two elements
`list_remove_at` at a valid index returns 0, the size drops by one, the elements before the
index stay and those after it move down by one. -/
theorem list_remove_at_two_or_more {α : Type} {me : ListObj α} {as : List Addr} {xs : List α}
    (wf : WellFormed me as xs) {k : Nat} (hk : k < xs.length) (hn : 2 ≤ xs.length) :
    ∃ me', list_remove_at me (k : Int) = .ok (0, me') ∧
      list_size me' = (xs.length : Int) - 1 ∧
      (∀ buf (i : Nat) x, i < k → xs[i]? = some x →
        list_get_at buf me' (i : Int) = .ok (0, x)) ∧
      (∀ buf (i : Nat) x, k ≤ i → xs[i + 1]? = some x →
        list_get_at buf me' (i : Int) = .ok (0, x)) := by
  obtain ⟨me', hrun, wf'⟩ := wf.remove_at hk hn
  have lx : (xs.eraseIdx k).length = xs.length - 1 := by
    rw [List.length_eraseIdx, if_pos hk]
  have key : ∀ buf (i : Nat) (x : α), (xs.eraseIdx k)[i]? = some x →
      list_get_at buf me' (i : Int) = .ok (0, x) := by
    intro buf i x hx
    have hi : i < (xs.eraseIdx k).length := by
      by_contra hc
      rw [List.getElem?_eq_none (by omega)] at hx
      exact Option.noConfusion hx
    rw [wf'.get_at buf hi]
    rw [List.getElem?_eq_getElem hi] at hx
    cases Option.some.inj hx
    rfl
  refine ⟨me', hrun, ?_, ?_, ?_⟩
  · rw [list_size, wf'.space, lx]; omega
  · intro buf i x hi hx
    exact key buf i x (by rw [List.getElem?_eraseIdx, if_pos hi, hx])
  · intro buf i x hi hx
    exact key buf i x (by rw [List.getElem?_eraseIdx, if_neg (by omega), hx])


/-- Two `list_add_first` and one `list_remove_last` from the empty list give a well-formed
list of one element, on which `list_remove_first` reads through a null pointer. -/
theorem list_remove_first_reached {α : Type} (data_size : Nat) (x y : α) :
    ∃ s1 s2 s3, list_add_first (emptyList α data_size) x (some 1) true = .ok (0, s1) ∧
      list_add_first s1 y (some 2) true = .ok (0, s2) ∧
      list_remove_last s2 = .ok (0, s3) ∧
      WellFormed s3 [2] [y] ∧
      list_remove_first s3 = .error .nullDeref := by
  refine ⟨_, _, _, rfl, rfl, rfl, ?_, rfl⟩
  refine ⟨rfl, rfl, List.nodup_singleton 2, by decide, rfl, rfl, ?_⟩
  intro i z h
  match i, h with
  | 0, h =>
    simp at h
    subst h
    rfl
  | i + 1, h => simp at h


/-! ## The list: adding at the end, removing -/

/-- C1, the part the code keeps: on a well-formed list that already holds an element and
fewer than `INT_MAX` of them, `list_add_last` returns 0, the size grows by one, every old
element stays at its index and the new element is the one at index `n`, which
`list_get_last` yields. -/
theorem list_add_last_nonempty {α : Type} {me : ListObj α} {as : List Addr} {xs : List α}
    (wf : WellFormed me as xs) (hn : 0 < xs.length) (hb : (xs.length : Int) < INT_MAX)
    {a : Addr} (hf : Fresh me a) (d : α) :
    ∃ me', list_add_last me d (some a) true = .ok (0, me') ∧
      list_size me' = (xs.length : Int) + 1 ∧
      (∀ buf (i : Nat) x, xs[i]? = some x → list_get_at buf me' (i : Int) = .ok (0, x)) ∧
      (∀ buf, list_get_at buf me' (xs.length : Int) = .ok (0, d)) ∧
      (∀ buf, list_get_last buf me' = .ok (0, d)) := by
  obtain ⟨me', hrun, hsp, hwf⟩ := wf.add_last hn hf d
  have hsz : me'.space = (xs.length : Int) + 1 := by
    rw [hsp, wf.space]; exact wrap32_succ hb
  have wf' := hwf (by rw [hsz, wf.space])
  have wi : WellFormed me' (ins xs.length a as) (ins xs.length d xs) := by
    rw [ins_length]
    have := ins_length a as
    rw [wf.len] at this
    rw [this]
    exact wf'
  refine ⟨me', hrun, hsz, ?_, ?_, ?_⟩
  · intro buf i x hx
    have hi : i < xs.length := by
      by_contra hc
      rw [List.getElem?_eq_none (by omega)] at hx
      exact Option.noConfusion hx
    exact (wi.get_at_ins (Nat.le_refl _) buf).1 i x hi hx
  · intro buf
    exact (wi.get_at_ins (Nat.le_refl _) buf).2.1
  · intro buf
    have := (wi.get_at_ins (Nat.le_refl _) buf).2.1
    simpa [list_get_last, hsz] using this

/-- C1, where the code departs from it: `list_add_last` on the empty list returns 0 and
counts one element but leaves `head` null, so `list_get_at` at index 0, `list_get_first` and
`list_get_last` all read through the null pointer instead of yielding the element. -/
theorem list_add_last_empty_faults {α : Type} (data_size : Nat) (d buf : α) (a : Addr) :
    list_init true data_size = some (emptyList α data_size) ∧
    WellFormed (emptyList α data_size) [] [] ∧
    ∃ me', list_add_last (emptyList α data_size) d (some a) true = .ok (0, me') ∧
      list_size me' = 1 ∧ me'.head = 0 ∧
      list_get_at buf me' 0 = .error .nullDeref ∧
      list_get_first buf me' = .error .nullDeref ∧
      list_get_last buf me' = .error .nullDeref := by
  have e : (1 : Int).tdiv 2 = 0 := by decide
  have w : wrap32 1 = 1 := by decide
  refine ⟨rfl, emptyList_wf α data_size, { emptyList α data_size with
    mem := store (fun _ => none) a ⟨0, d, 0⟩, tail := a, space := 1 }, ?_, rfl, rfl, ?_, ?_, ?_⟩
  · simp [list_add_last, emptyList, pure, Except.pure, bind, Except.bind, w]
  · simp [list_get_at, list_is_illegal_input, list_get_node_at, list_get_node_from_head,
      walk_next, load, emptyList, bind, Except.bind, e]
  · simp [list_get_first, list_get_at, list_is_illegal_input, list_get_node_at,
      list_get_node_from_head, walk_next, load, emptyList, bind, Except.bind, e]
  · simp [list_get_last, list_get_at, list_is_illegal_input, list_get_node_at,
      list_get_node_from_head, walk_next, load, emptyList, bind, Except.bind, e]

/-- C2, where the code departs from it: on a well-formed list of one element
`list_remove_at` at index 0, `list_remove_first` and `list_remove_last` read through the null
`next` of the only node and return nothing; such a list is what two `list_add_first` and one
`list_remove_last` leave of the empty list. -/
theorem list_remove_single_faults {α : Type} (data_size : Nat) (x : α) :
    WellFormed (singletonList data_size 1 x) [1] [x] ∧
    list_remove_at (singletonList data_size 1 x) 0 = .error .nullDeref ∧
    list_remove_first (singletonList data_size 1 x) = .error .nullDeref ∧
    list_remove_last (singletonList data_size 1 x) = .error .nullDeref ∧
    (∃ s1 s2 s3, list_add_first (emptyList α data_size) x (some 1) true = .ok (0, s1) ∧
      list_add_first s1 x (some 2) true = .ok (0, s2) ∧
      list_remove_last s2 = .ok (0, s3) ∧
      WellFormed s3 [2] [x] ∧
      list_remove_first s3 = .error .nullDeref) := by
  have e : (1 : Int).tdiv 2 = 0 := by decide
  have h : list_remove_at (singletonList data_size 1 x) 0 = .error .nullDeref := by
    simp [list_remove_at, list_is_illegal_input, list_get_node_at, list_get_node_from_head,
      walk_next, load, setPrev, singletonList, store, bind, Except.bind, e]
  refine ⟨singletonList_wf data_size (by decide) x, h, h, ?_,
    list_remove_first_reached data_size x x⟩
  have : (singletonList data_size 1 x).space - 1 = 0 := by simp [singletonList]
  rw [list_remove_last, this]
  exact h


/-! ## The list: adding in front and at an index, overwriting -/

/-- C3 as stated fails where an `int` overflows. On a well-formed list of `INT_MAX`
elements `list_add_first` returns 0 and leaves `space` at `-2147483648`, not `n + 1`, after
which `list_get_at` at index 0 returns `-EINVAL`. On a list of one element of `2^31` bytes
`list_copy_to_array` after `list_add_first` writes the old element at byte offset
`-2147483648`, not at its slot `2^31` bytes into the array. -/
theorem list_add_first_overflow :
    (WellFormed (chainList 4 2147483647 (7 : Nat)) (List.range' 1 2147483647)
        (List.replicate 2147483647 7) ∧
      Fresh (chainList 4 2147483647 (7 : Nat)) (2147483647 + 1) ∧
      ∃ me', list_add_first (chainList 4 2147483647 (7 : Nat)) 5 (some (2147483647 + 1)) true
          = .ok (0, me') ∧
        list_size me' = -2147483648 ∧
        list_size me' ≠ ((List.replicate 2147483647 (7 : Nat)).length : Int) + 1 ∧
        list_get_at 9 me' 0 = .ok (-EINVAL, 9)) ∧
    (WellFormed (singletonList 2147483648 1 (7 : Nat)) [1] [7] ∧
      Fresh (singletonList 2147483648 1 (7 : Nat)) 2 ∧
      ∃ me', list_add_first (singletonList 2147483648 1 (7 : Nat)) 5 (some 2) true
          = .ok (0, me') ∧
        list_copy_to_array 3 me' = .ok [(0, 5), (-2147483648, 7)] ∧
        arraySlots 2147483648 0 [5, 7] = [(0, 5), (2147483648, 7)]) := by
  constructor
  · have wf := chainList_wf 4 2147483647 (7 : Nat)
    have hf := chainList_fresh 4 2147483647 (7 : Nat)
    have hn : 0 < (List.replicate 2147483647 (7 : Nat)).length := by
      rw [List.length_replicate]; decide
    obtain ⟨me', hrun, hsp, _, _⟩ := wf.add_first hn hf 5
    have hs : me'.space = -2147483648 := by
      rw [hsp]
      exact wrap32_int_max
    refine ⟨wf, hf, me', hrun, hs, ?_, ?_⟩
    · rw [list_size, hs, List.length_replicate]
      decide
    · exact list_get_at_negative_space 9 me' 0 (by rw [hs]; decide) (le_refl 0)
  · refine ⟨singletonList_wf 2147483648 (by decide) 7, ?_, _, rfl, rfl, rfl⟩
    exact ⟨by decide, rfl⟩

/-- C3 as amended: on every well-formed list holding `xs` with `n < INT_MAX` (the empty one
included), when both allocations succeed `list_add_first` returns 0, `list_size` becomes
`n + 1`, and `list_get_at` yields the new element at index 0 and the old element `i - 1` at
every index `1 ≤ i ≤ n`; when moreover `n * data_size < 2^31`, `list_copy_to_array` writes
the new element to slot 0 of the array and the old element `i - 1` to slot `i`. -/
theorem list_add_first_spec {α : Type} {me : ListObj α} {as : List Addr} {xs : List α}
    (wf : WellFormed me as xs) (hb : (xs.length : Int) < INT_MAX) {a : Addr} (hf : Fresh me a)
    (d : α) :
    ∃ me', list_add_first me d (some a) true = .ok (0, me') ∧
      list_size me' = (xs.length : Int) + 1 ∧
      (∀ buf, list_get_at buf me' 0 = .ok (0, d)) ∧
      (∀ buf (i : Nat) x, 1 ≤ i → i ≤ xs.length → xs[i - 1]? = some x →
        list_get_at buf me' (i : Int) = .ok (0, x)) ∧
      (∀ fuel, xs.length + 1 < fuel → xs.length * me.data_size < 2147483648 →
        list_copy_to_array fuel me' = .ok (arraySlots me.data_size 0 (d :: xs))) :=
  wf.add_first_all hb hf d

/-- C3 as amended, at a list of two elements. -/
theorem list_add_first_spec_witness :
    WellFormed (pairList 4 10 20) [1, 2] [10, 20] ∧
    ((([10, 20] : List Nat).length : Int) < INT_MAX) ∧ Fresh (pairList 4 10 20) 3 ∧
    ∃ me', list_add_first (pairList 4 10 20) 5 (some 3) true = .ok (0, me') ∧
      list_size me' = (([10, 20] : List Nat).length : Int) + 1 ∧
      (∀ buf, list_get_at buf me' 0 = .ok (0, 5)) ∧
      (∀ buf (i : Nat) x, 1 ≤ i → i ≤ ([10, 20] : List Nat).length →
        ([10, 20] : List Nat)[i - 1]? = some x → list_get_at buf me' (i : Int) = .ok (0, x)) ∧
      (∀ fuel, ([10, 20] : List Nat).length + 1 < fuel →
        ([10, 20] : List Nat).length * (pairList 4 10 20).data_size < 2147483648 →
        list_copy_to_array fuel me'
          = .ok (arraySlots (pairList 4 10 20).data_size 0 (5 :: [10, 20]))) :=
  ⟨pairList_wf 4 10 20, by decide, pairList_fresh 4 10 20,
    list_add_first_spec (pairList_wf 4 10 20) (by decide) (pairList_fresh 4 10 20) 5⟩

/-- C4 as stated fails where the `int` counter overflows: on a well-formed list of `INT_MAX`
elements `list_add_at` at index 1 returns 0 and leaves `space` at `-2147483648`, not `n + 1`,
after which `list_get_at` at index 1 returns `-EINVAL` instead of yielding the new element. -/
theorem list_add_at_overflow :
    WellFormed (chainList 4 2147483647 (7 : Nat)) (List.range' 1 2147483647)
      (List.replicate 2147483647 7) ∧
    Fresh (chainList 4 2147483647 (7 : Nat)) (2147483647 + 1) ∧
    ∃ me', list_add_at (chainList 4 2147483647 (7 : Nat)) ((1 : Nat) : Int) 5
        (some (2147483647 + 1)) true = .ok (0, me') ∧
      list_size me' = -2147483648 ∧
      list_size me' ≠ ((List.replicate 2147483647 (7 : Nat)).length : Int) + 1 ∧
      list_get_at 9 me' ((1 : Nat) : Int) = .ok (-EINVAL, 9) := by
  have wf := chainList_wf 4 2147483647 (7 : Nat)
  have hf := chainList_fresh 4 2147483647 (7 : Nat)
  have hk : 1 < (List.replicate 2147483647 (7 : Nat)).length := by
    rw [List.length_replicate]; decide
  obtain ⟨me', hrun, hsp, _⟩ := wf.add_inner (by decide : 0 < 1) hk hf 5
  have hs : me'.space = -2147483648 := by
    rw [hsp]
    exact wrap32_int_max
  refine ⟨wf, hf, me', hrun, hs, ?_, ?_⟩
  · rw [list_size, hs, List.length_replicate]
    decide
  · exact list_get_at_negative_space 9 me' _ (by rw [hs]; decide) (by decide)

/-- C4 as amended: on every well-formed list holding `xs` with `n < INT_MAX`, for every index
`0 ≤ k ≤ n`, when both allocations succeed `list_add_at` returns 0, `list_size` becomes
`n + 1`, and `list_get_at` yields the old element `i` at every `i < k`, the new element at
`k`, and the old element `i - 1` at every `k < i ≤ n`. -/
theorem list_add_at_spec {α : Type} {me : ListObj α} {as : List Addr} {xs : List α}
    (wf : WellFormed me as xs) (hb : (xs.length : Int) < INT_MAX) {k : Nat}
    (hk : k ≤ xs.length) {a : Addr} (hf : Fresh me a) (d : α) :
    ∃ me', list_add_at me (k : Int) d (some a) true = .ok (0, me') ∧
      list_size me' = (xs.length : Int) + 1 ∧
      (∀ buf (i : Nat) x, i < k → xs[i]? = some x →
        list_get_at buf me' (i : Int) = .ok (0, x)) ∧
      (∀ buf, list_get_at buf me' (k : Int) = .ok (0, d)) ∧
      (∀ buf (i : Nat) x, k < i → i ≤ xs.length → xs[i - 1]? = some x →
        list_get_at buf me' (i : Int) = .ok (0, x)) :=
  wf.add_at_all hb hk hf d

/-- C4 as amended, at a list of two elements, inserting between them. -/
theorem list_add_at_spec_witness :
    WellFormed (pairList 4 10 20) [1, 2] [10, 20] ∧
    ((([10, 20] : List Nat).length : Int) < INT_MAX) ∧ 1 ≤ ([10, 20] : List Nat).length ∧
    Fresh (pairList 4 10 20) 3 ∧
    ∃ me', list_add_at (pairList 4 10 20) ((1 : Nat) : Int) 5 (some 3) true = .ok (0, me') ∧
      list_size me' = (([10, 20] : List Nat).length : Int) + 1 ∧
      (∀ buf (i : Nat) x, i < 1 → ([10, 20] : List Nat)[i]? = some x →
        list_get_at buf me' (i : Int) = .ok (0, x)) ∧
      (∀ buf, list_get_at buf me' ((1 : Nat) : Int) = .ok (0, 5)) ∧
      (∀ buf (i : Nat) x, 1 < i → i ≤ ([10, 20] : List Nat).length →
        ([10, 20] : List Nat)[i - 1]? = some x → list_get_at buf me' (i : Int) = .ok (0, x)) :=
  ⟨pairList_wf 4 10 20, by decide, by decide, pairList_fresh 4 10 20,
    list_add_at_spec (pairList_wf 4 10 20) (by decide) (by decide) (pairList_fresh 4 10 20) 5⟩

/-- C7: on every well-formed list holding `xs` and every index `k < n`, `list_set_at`
returns 0, after which `list_get_at` yields the new element at `k` and the old element at
every other index, and `list_size` is still `n`. -/
theorem list_set_at_get_at {α : Type} {me : ListObj α} {as : List Addr} {xs : List α}
    (wf : WellFormed me as xs) {k : Nat} (hk : k < xs.length) (d : α) :
    ∃ me', list_set_at me (k : Int) d = .ok (0, me') ∧
      (∀ buf, list_get_at buf me' (k : Int) = .ok (0, d)) ∧
      (∀ buf (j : Nat) x, j ≠ k → xs[j]? = some x →
        list_get_at buf me' (j : Int) = .ok (0, x)) ∧
      list_size me' = (xs.length : Int) := by
  obtain ⟨me', hrun, wf'⟩ := wf.set_at hk d
  have hlen : (xs.set k d).length = xs.length := List.length_set _ _ _
  refine ⟨me', hrun, ?_, ?_, ?_⟩
  · intro buf
    have hk' : k < (xs.set k d).length := by omega
    rw [wf'.get_at buf hk']
    simp
  · intro buf j x hj hx
    have hjl : j < xs.length := by
      by_contra hc
      rw [List.getElem?_eq_none (by omega)] at hx
      exact Option.noConfusion hx
    have hj' : j < (xs.set k d).length := by omega
    rw [wf'.get_at buf hj']
    rw [List.getElem?_eq_getElem hjl] at hx
    cases Option.some.inj hx
    simp [List.getElem_set, Ne.symm hj]
  · rw [list_size, wf'.space, hlen]

/-- C7 at a list of two elements, overwriting the second. -/
theorem list_set_at_get_at_witness :
    WellFormed (pairList 4 10 20) [1, 2] [10, 20] ∧ 1 < ([10, 20] : List Nat).length ∧
    ∃ me', list_set_at (pairList 4 10 20) ((1 : Nat) : Int) 5 = .ok (0, me') ∧
      (∀ buf, list_get_at buf me' ((1 : Nat) : Int) = .ok (0, 5)) ∧
      (∀ buf (j : Nat) x, j ≠ 1 → ([10, 20] : List Nat)[j]? = some x →
        list_get_at buf me' (j : Int) = .ok (0, x)) ∧
      list_size me' = (([10, 20] : List Nat).length : Int) :=
  ⟨pairList_wf 4 10 20, by decide, list_set_at_get_at (pairList_wf 4 10 20) (by decide) 5⟩


/-! ## The list: rejected indices -/

theorem retCode_bind_zero {β γ : Type} (x : Except Fault γ) (f : γ → Except Fault (Int × β))
    (hf : ∀ v, retCode (f v) = some 0 ∨ retCode (f v) = none) :
    retCode (x >>= f) = some 0 ∨ retCode (x >>= f) = none := by
  cases x with
  | error e => right; rfl
  | ok v => exact hf v

/-- Past its index check `list_remove_at` returns 0 if it returns at all. -/
theorem list_remove_at_code {α : Type} (me : ListObj α) (index : Int)
    (h : list_is_illegal_input me index = false) :
    retCode (list_remove_at me index) = some 0 ∨ retCode (list_remove_at me index) = none := by
  unfold list_remove_at
  rw [h]
  simp only [Bool.false_eq_true, if_false]
  refine retCode_bind_zero _ _ (fun t => ?_)
  split_ifs <;>
    (repeat (refine retCode_bind_zero _ _ (fun _ => ?_))) <;>
    exact Or.inl rfl

theorem WellFormed.illegal_iff {α : Type} {me : ListObj α} {as : List Addr} {xs : List α}
    (wf : WellFormed me as xs) (index : Int) :
    list_is_illegal_input me index = true ↔ (index < 0 ∨ index ≥ (xs.length : Int)) := by
  simp only [list_is_illegal_input, wf.space, Bool.or_eq_true, decide_eq_true_eq]
  omega

theorem WellFormed.get_at_illegal {α : Type} {me : ListObj α} {as : List Addr} {xs : List α}
    (wf : WellFormed me as xs) {index : Int} (h : index < 0 ∨ index ≥ (xs.length : Int))
    (buf : α) : list_get_at buf me index = .ok (-EINVAL, buf) := by
  simp [list_get_at, (wf.illegal_iff index).2 h]

theorem WellFormed.set_at_illegal {α : Type} {me : ListObj α} {as : List Addr} {xs : List α}
    (wf : WellFormed me as xs) {index : Int} (h : index < 0 ∨ index ≥ (xs.length : Int))
    (d : α) : list_set_at me index d = .ok (-EINVAL, me) := by
  simp [list_set_at, (wf.illegal_iff index).2 h]

theorem WellFormed.remove_at_illegal {α : Type} {me : ListObj α} {as : List Addr}
    {xs : List α} (wf : WellFormed me as xs) {index : Int}
    (h : index < 0 ∨ index ≥ (xs.length : Int)) :
    list_remove_at me index = .ok (-EINVAL, me) := by
  simp [list_remove_at, (wf.illegal_iff index).2 h]

theorem neg_EINVAL_ne_zero : (0 : Int) ≠ -EINVAL := by decide

/-- C5: on every well-formed list of `n` elements and every integer index, `list_get_at`,
`list_set_at` and `list_remove_at` return `-EINVAL` exactly when `index < 0` or `index ≥ n`,
and then the list and the caller's buffer are as before; `list_get_at` and `list_set_at`
return 0 at every index `0 ≤ index < n`; on the empty list the six first/last functions
return `-EINVAL` and change nothing. -/
theorem list_illegal_index_spec {α : Type} {me : ListObj α} {as : List Addr} {xs : List α}
    (wf : WellFormed me as xs) (index : Int) (buf d : α) :
    (retCode (list_get_at buf me index) = some (-EINVAL)
      ↔ (index < 0 ∨ index ≥ (xs.length : Int))) ∧
    (retCode (list_set_at me index d) = some (-EINVAL)
      ↔ (index < 0 ∨ index ≥ (xs.length : Int))) ∧
    (retCode (list_remove_at me index) = some (-EINVAL)
      ↔ (index < 0 ∨ index ≥ (xs.length : Int))) ∧
    ((index < 0 ∨ index ≥ (xs.length : Int)) →
      list_get_at buf me index = .ok (-EINVAL, buf) ∧
      list_set_at me index d = .ok (-EINVAL, me) ∧
      list_remove_at me index = .ok (-EINVAL, me)) ∧
    ((0 ≤ index ∧ index < (xs.length : Int)) →
      retCode (list_get_at buf me index) = some 0 ∧
      retCode (list_set_at me index d) = some 0) ∧
    (xs = [] →
      list_get_first buf me = .ok (-EINVAL, buf) ∧
      list_get_last buf me = .ok (-EINVAL, buf) ∧
      list_set_first me d = .ok (-EINVAL, me) ∧
      list_set_last me d = .ok (-EINVAL, me) ∧
      list_remove_first me = .ok (-EINVAL, me) ∧
      list_remove_last me = .ok (-EINVAL, me)) := by
  have inr : ¬ (index < 0 ∨ index ≥ (xs.length : Int)) →
      ∃ k : Nat, index = (k : Int) ∧ k < xs.length := by
    intro h
    exact ⟨index.toNat, by omega, by omega⟩
  refine ⟨⟨?_, ?_⟩, ⟨?_, ?_⟩, ⟨?_, ?_⟩, ?_, ?_, ?_⟩
  · intro h
    by_contra hc
    obtain ⟨k, rfl, hk⟩ := inr hc
    rw [wf.get_at buf hk] at h
    exact neg_EINVAL_ne_zero (Option.some.inj h)
  · intro h
    rw [wf.get_at_illegal h]; rfl
  · intro h
    by_contra hc
    obtain ⟨k, rfl, hk⟩ := inr hc
    obtain ⟨me', hrun, _⟩ := wf.set_at hk d
    rw [hrun] at h
    exact neg_EINVAL_ne_zero (Option.some.inj h)
  · intro h
    rw [wf.set_at_illegal h]; rfl
  · intro h
    by_contra hc
    have hill : list_is_illegal_input me index = false := by
      cases hb : list_is_illegal_input me index
      · rfl
      · exact absurd ((wf.illegal_iff index).1 hb) hc
    rcases list_remove_at_code me index hill with h0 | h0
    · rw [h0] at h
      exact neg_EINVAL_ne_zero (Option.some.inj h)
    · rw [h0] at h
      exact Option.noConfusion h
  · intro h
    rw [wf.remove_at_illegal h]; rfl
  · intro h
    exact ⟨wf.get_at_illegal h buf, wf.set_at_illegal h d, wf.remove_at_illegal h⟩
  · rintro ⟨h1, h2⟩
    obtain ⟨k, rfl, hk⟩ := inr (by omega)
    obtain ⟨me', hrun, _⟩ := wf.set_at hk d
    rw [wf.get_at buf hk, hrun]
    exact ⟨rfl, rfl⟩
  · intro hx
    subst hx
    have z : (0 : Int) < 0 ∨ (0 : Int) ≥ (([] : List α).length : Int) := by simp
    have l : me.space - 1 < 0 ∨ me.space - 1 ≥ (([] : List α).length : Int) := by
      rw [wf.space]; simp
    exact ⟨wf.get_at_illegal z buf, wf.get_at_illegal l buf, wf.set_at_illegal z d,
      wf.set_at_illegal l d, wf.remove_at_illegal z, wf.remove_at_illegal l⟩

/-- C5 at a list of two elements and the index 5. -/
theorem list_illegal_index_spec_witness :
    WellFormed (pairList 4 10 20) [1, 2] [10, 20] ∧
    (retCode (list_get_at 0 (pairList 4 10 20) 5) = some (-EINVAL)
      ↔ ((5 : Int) < 0 ∨ (5 : Int) ≥ (([10, 20] : List Nat).length : Int))) ∧
    (retCode (list_set_at (pairList 4 10 20) 5 7) = some (-EINVAL)
      ↔ ((5 : Int) < 0 ∨ (5 : Int) ≥ (([10, 20] : List Nat).length : Int))) ∧
    (retCode (list_remove_at (pairList 4 10 20) 5) = some (-EINVAL)
      ↔ ((5 : Int) < 0 ∨ (5 : Int) ≥ (([10, 20] : List Nat).length : Int))) ∧
    (((5 : Int) < 0 ∨ (5 : Int) ≥ (([10, 20] : List Nat).length : Int)) →
      list_get_at 0 (pairList 4 10 20) 5 = .ok (-EINVAL, 0) ∧
      list_set_at (pairList 4 10 20) 5 7 = .ok (-EINVAL, pairList 4 10 20) ∧
      list_remove_at (pairList 4 10 20) 5 = .ok (-EINVAL, pairList 4 10 20)) ∧
    ((0 ≤ (5 : Int) ∧ (5 : Int) < (([10, 20] : List Nat).length : Int)) →
      retCode (list_get_at 0 (pairList 4 10 20) 5) = some 0 ∧
      retCode (list_set_at (pairList 4 10 20) 5 7) = some 0) ∧
    (([10, 20] : List Nat) = [] →
      list_get_first 0 (pairList 4 10 20) = .ok (-EINVAL, 0) ∧
      list_get_last 0 (pairList 4 10 20) = .ok (-EINVAL, 0) ∧
      list_set_first (pairList 4 10 20) 7 = .ok (-EINVAL, pairList 4 10 20) ∧
      list_set_last (pairList 4 10 20) 7 = .ok (-EINVAL, pairList 4 10 20) ∧
      list_remove_first (pairList 4 10 20) = .ok (-EINVAL, pairList 4 10 20) ∧
      list_remove_last (pairList 4 10 20) = .ok (-EINVAL, pairList 4 10 20)) :=
  ⟨pairList_wf 4 10 20, list_illegal_index_spec (pairList_wf 4 10 20) 5 0 7⟩


theorem retCode_bind_ne {β γ : Type} (x : Except Fault γ) (f : γ → Except Fault (Int × β))
    (hf : ∀ v, retCode (f v) ≠ some (-EINVAL)) : retCode (x >>= f) ≠ some (-EINVAL) := by
  cases x with
  | error e => intro h; exact Option.noConfusion h
  | ok v => exact hf v

theorem retCode_enomem_ne {β : Type} (s : β) :
    retCode (Except.ok (-ENOMEM, s) : Except Fault (Int × β)) ≠ some (-EINVAL) := by
  simp [retCode, ENOMEM, EINVAL]

theorem retCode_zero_ne {β : Type} (s : β) :
    retCode (Except.ok (0, s) : Except Fault (Int × β)) ≠ some (-EINVAL) := by
  simp [retCode, EINVAL]

/-- The function `list_add_first` never returns `-EINVAL`. -/
theorem list_add_first_code {α : Type} (me : ListObj α) (d : α) (nodeAlloc : Option Addr)
    (dataAlloc : Bool) :
    retCode (list_add_first me d nodeAlloc dataAlloc) ≠ some (-EINVAL) := by
  unfold list_add_first
  cases nodeAlloc with
  | none => exact retCode_enomem_ne me
  | some add =>
    cases dataAlloc with
    | false => exact retCode_enomem_ne me
    | true =>
      simp only [Bool.not_true, Bool.false_eq_true, if_false]
      split_ifs <;>
        (repeat (refine retCode_bind_ne _ _ (fun _ => ?_))) <;>
        exact retCode_zero_ne _

/-- The function `list_add_last` never returns `-EINVAL`. -/
theorem list_add_last_code {α : Type} (me : ListObj α) (d : α) (nodeAlloc : Option Addr)
    (dataAlloc : Bool) :
    retCode (list_add_last me d nodeAlloc dataAlloc) ≠ some (-EINVAL) := by
  unfold list_add_last
  cases nodeAlloc with
  | none => exact retCode_enomem_ne me
  | some add =>
    cases dataAlloc with
    | false => exact retCode_enomem_ne me
    | true =>
      simp only [Bool.not_true, Bool.false_eq_true, if_false]
      split_ifs <;>
        (repeat (refine retCode_bind_ne _ _ (fun _ => ?_))) <;>
        exact retCode_zero_ne _

/-- Past its index check `list_add_at` never returns `-EINVAL`. -/
theorem list_add_at_code {α : Type} (me : ListObj α) (index : Int) (d : α)
    (nodeAlloc : Option Addr) (dataAlloc : Bool) (h : ¬ (index < 0 ∨ index > me.space)) :
    retCode (list_add_at me index d nodeAlloc dataAlloc) ≠ some (-EINVAL) := by
  by_cases h0 : index = 0
  · unfold list_add_at
    rw [if_neg h, if_pos h0]
    exact list_add_first_code me d nodeAlloc dataAlloc
  by_cases hs : index = me.space
  · unfold list_add_at
    rw [if_neg h, if_neg h0, if_pos hs]
    exact list_add_last_code me d nodeAlloc dataAlloc
  unfold list_add_at
  rw [if_neg h, if_neg h0, if_neg hs]
  refine retCode_bind_ne _ _ (fun t => ?_)
  cases nodeAlloc with
  | none => exact retCode_enomem_ne me
  | some add =>
    cases dataAlloc with
    | false => exact retCode_enomem_ne me
    | true =>
      simp only [Bool.not_true, Bool.false_eq_true, if_false]
      repeat (refine retCode_bind_ne _ _ (fun _ => ?_))
      exact retCode_zero_ne _

/-- The index check of `list_add_at`, on every list whatever its shape: `-EINVAL` is returned
exactly when `index < 0` or `index > space`, whatever the allocator would have answered, and
then the list is returned as it was. -/
theorem list_add_at_einval_iff {α : Type} (me : ListObj α) (index : Int) (d : α)
    (nodeAlloc : Option Addr) (dataAlloc : Bool) :
    (retCode (list_add_at me index d nodeAlloc dataAlloc) = some (-EINVAL)
      ↔ (index < 0 ∨ index > list_size me)) ∧
    ((index < 0 ∨ index > list_size me) →
      list_add_at me index d nodeAlloc dataAlloc = .ok (-EINVAL, me)) := by
  have out : (index < 0 ∨ index > list_size me) →
      list_add_at me index d nodeAlloc dataAlloc = .ok (-EINVAL, me) := by
    intro h
    have h' : index < 0 ∨ index > me.space := h
    simp [list_add_at, h']
  refine ⟨⟨?_, ?_⟩, out⟩
  · intro h
    by_contra hc
    exact list_add_at_code me index d nodeAlloc dataAlloc hc h
  · intro h
    rw [out h]; rfl

/-- C6, the part the code keeps on well-formed lists: with fewer than `INT_MAX` elements,
`list_add_at` at `index = n` returns 0 and the new element is read back at index `n` behind
the old ones. -/
theorem list_add_at_end_well_formed {α : Type} {me : ListObj α} {as : List Addr}
    {xs : List α} (wf : WellFormed me as xs) (hb : (xs.length : Int) < INT_MAX) {a : Addr}
    (hf : Fresh me a) (d : α) :
    ∃ me', list_add_at me (xs.length : Int) d (some a) true = .ok (0, me') ∧
      list_size me' = (xs.length : Int) + 1 ∧
      (∀ buf (i : Nat) x, xs[i]? = some x → list_get_at buf me' (i : Int) = .ok (0, x)) ∧
      (∀ buf, list_get_at buf me' (xs.length : Int) = .ok (0, d)) := by
  obtain ⟨me', hrun, hs, hlt, hk, _⟩ := wf.add_at_all hb (Nat.le_refl xs.length) hf d
  refine ⟨me', hrun, hs, ?_, hk⟩
  intro buf i x hx
  have hi : i < xs.length := by
    by_contra hc
    rw [List.getElem?_eq_none (by omega)] at hx
    exact Option.noConfusion hx
  exact hlt buf i x hi hx

/-- C6: on every list `list_add_at` returns `-EINVAL` if and only if `index < 0` or
`index > n`, whatever the allocator would have answered, and then the list is returned as
it was. Where the code departs from the claim: on the list of one element that
`list_add_at` at index 0 makes of the empty list, `list_add_at` at `index = n = 1` is
accepted, returns 0 and counts two elements, but appends nothing that can be reached:
`list_get_at` at index 1 and `list_get_last` read through a null pointer and
`list_copy_to_array` copies the first element only. -/
theorem list_add_at_append_lost {α : Type} (data_size : Nat) (d1 d2 buf : α) :
    (∀ (me : ListObj α) (index : Int) (d : α) nodeAlloc dataAlloc,
      retCode (list_add_at me index d nodeAlloc dataAlloc) = some (-EINVAL)
        ↔ (index < 0 ∨ index > list_size me)) ∧
    (∀ (me : ListObj α) (index : Int) (d : α) nodeAlloc dataAlloc,
      (index < 0 ∨ index > list_size me) →
      list_add_at me index d nodeAlloc dataAlloc = .ok (-EINVAL, me)) ∧
    (list_init true data_size = some (emptyList α data_size) ∧
      ∃ s1 s2, list_add_at (emptyList α data_size) 0 d1 (some 1) true = .ok (0, s1) ∧
        list_size s1 = 1 ∧
        list_get_at buf s1 0 = .ok (0, d1) ∧
        s1.tail = 0 ∧
        list_add_at s1 1 d2 (some 2) true = .ok (0, s2) ∧
        list_size s2 = 2 ∧
        list_get_at buf s2 0 = .ok (0, d1) ∧
        list_get_at buf s2 1 = .error .nullDeref ∧
        list_get_last buf s2 = .error .nullDeref ∧
        list_copy_to_array 3 s2 = .ok [(0, d1)]) := by
  refine ⟨fun me index d na da => (list_add_at_einval_iff me index d na da).1,
    fun me index d na da => (list_add_at_einval_iff me index d na da).2, rfl, ?_⟩
  exact ⟨_, _, rfl, rfl, rfl, rfl, rfl, rfl, rfl, rfl, rfl, rfl⟩


/-! ## The list: which end a lookup starts from -/

theorem walk_next_counted_fst {α : Type} (m : Heap α) :
    ∀ (k : Nat) (t : Addr), (walk_next_counted m k t).map Prod.fst = walk_next m k t
  | 0, t => rfl
  | k + 1, t => by
    have ih := walk_next_counted_fst m k
    simp only [walk_next_counted, walk_next]
    cases hl : load m t with
    | error e => rfl
    | ok n =>
      simp only [bind, Except.bind]
      rw [← ih n.next]
      cases walk_next_counted m k n.next <;> rfl

theorem walk_prev_counted_fst {α : Type} (m : Heap α) :
    ∀ (k : Nat) (t : Addr), (walk_prev_counted m k t).map Prod.fst = walk_prev m k t
  | 0, t => rfl
  | k + 1, t => by
    have ih := walk_prev_counted_fst m k
    simp only [walk_prev_counted, walk_prev]
    cases hl : load m t with
    | error e => rfl
    | ok n =>
      simp only [bind, Except.bind]
      rw [← ih n.prev]
      cases walk_prev_counted m k n.prev <;> rfl

/-- Forgetting the count gives back `list_get_node_at`. -/
theorem list_get_node_at_counted_fst {α : Type} (me : ListObj α) (index : Int) :
    (list_get_node_at_counted me index).map Prod.fst = list_get_node_at me index := by
  unfold list_get_node_at_counted list_get_node_at
  split_ifs
  · exact walk_next_counted_fst _ _ _
  · exact walk_prev_counted_fst _ _ _

theorem WellFormed.walk_next_counted_eq {α : Type} {me : ListObj α} {as : List Addr}
    {xs : List α} (wf : WellFormed me as xs) :
    ∀ (k i : Nat), i + k ≤ xs.length →
      walk_next_counted me.mem k (addrAt as i) = .ok (addrAt as (i + k), k)
  | 0, i, _ => by simp [walk_next_counted]
  | k + 1, i, h => by
    have hi : i < xs.length := by omega
    have ih := WellFormed.walk_next_counted_eq wf k (i + 1) (by omega)
    simp only [walk_next_counted, wf.load_lt hi, bind, Except.bind, ih, pure, Except.pure]
    congr 3
    omega

theorem WellFormed.walk_prev_counted_eq {α : Type} {me : ListObj α} {as : List Addr}
    {xs : List α} (wf : WellFormed me as xs) :
    ∀ (k i : Nat), k ≤ i → i < xs.length →
      walk_prev_counted me.mem k (addrAt as i) = .ok (addrAt as (i - k), k)
  | 0, i, _, _ => by simp [walk_prev_counted]
  | k + 1, i, h, hi => by
    obtain ⟨j, rfl⟩ : ∃ j, i = j + 1 := ⟨i - 1, by omega⟩
    have ih := WellFormed.walk_prev_counted_eq wf k j (by omega) (by omega)
    simp only [walk_prev_counted, wf.load_lt hi, bind, Except.bind, prevAt_succ, ih, pure,
      Except.pure]
    congr 3
    omega

theorem WellFormed.node_from_head_counted {α : Type} {me : ListObj α} {as : List Addr}
    {xs : List α} (wf : WellFormed me as xs) {i : Nat} (h : i ≤ xs.length) :
    list_get_node_from_head_counted me (i : Int) = .ok (addrAt as i, i) := by
  have := wf.walk_next_counted_eq i 0 (by omega)
  simpa [list_get_node_from_head_counted, wf.head] using this

theorem WellFormed.node_from_tail_counted {α : Type} {me : ListObj α} {as : List Addr}
    {xs : List α} (wf : WellFormed me as xs) {i : Nat} (h : i < xs.length) :
    list_get_node_from_tail_counted me (i : Int)
      = .ok (addrAt as i, xs.length - 1 - i) := by
  have hk : (me.space - 1 - (i : Int)).toNat = xs.length - 1 - i := by
    rw [wf.space]; omega
  have := wf.walk_prev_counted_eq (xs.length - 1 - i) (xs.length - 1) (by omega) (by omega)
  rw [list_get_node_from_tail_counted, hk, wf.tail, wf.len, this]
  congr 3
  omega

theorem WellFormed.half {α : Type} {me : ListObj α} {as : List Addr} {xs : List α}
    (wf : WellFormed me as xs) (i : Nat) :
    ((i : Int) ≤ me.space.tdiv 2) ↔ i ≤ xs.length / 2 := by
  rw [wf.space, Int.tdiv_eq_ediv (by omega) (by omega)]
  omega


/-- C13: on every well-formed list of `n` elements and every index `i < n`,
`list_get_node_from_head` and `list_get_node_from_tail` return the same node, the `i`-th in
head-to-tail order, which holds the `i`-th element; `list_get_node_at` returns that node
whichever branch it takes, and the node is not null. -/
theorem list_get_node_same {α : Type} {me : ListObj α} {as : List Addr} {xs : List α}
    (wf : WellFormed me as xs) {i : Nat} (h : i < xs.length) :
    list_get_node_from_head me (i : Int) = .ok (addrAt as i) ∧
    list_get_node_from_tail me (i : Int) = .ok (addrAt as i) ∧
    list_get_node_at me (i : Int) = .ok (addrAt as i) ∧
    as[i]? = some (addrAt as i) ∧
    addrAt as i ≠ 0 ∧
    (∃ n, me.mem (addrAt as i) = some n ∧ xs[i]? = some n.data) := by
  have hi : i < as.length := wf.len ▸ h
  refine ⟨wf.node_from_head (by omega), wf.node_from_tail h, wf.node_at h, ?_,
    wf.addr_ne_zero h, _, wf.cell_lt h, ?_⟩
  · rw [addrAt_of_lt hi, List.getElem?_eq_getElem hi]
  · exact List.getElem?_eq_getElem h

/-- C13 at a list of two elements and its second node. -/
theorem list_get_node_same_witness :
    WellFormed (pairList 4 10 20) [1, 2] [10, 20] ∧ 1 < ([10, 20] : List Nat).length ∧
    list_get_node_from_head (pairList 4 10 20) ((1 : Nat) : Int) = .ok (addrAt [1, 2] 1) ∧
    list_get_node_from_tail (pairList 4 10 20) ((1 : Nat) : Int) = .ok (addrAt [1, 2] 1) ∧
    list_get_node_at (pairList 4 10 20) ((1 : Nat) : Int) = .ok (addrAt [1, 2] 1) ∧
    ([1, 2] : List Addr)[1]? = some (addrAt [1, 2] 1) ∧
    addrAt [1, 2] 1 ≠ 0 ∧
    (∃ n, (pairList 4 10 20).mem (addrAt [1, 2] 1) = some n ∧
      ([10, 20] : List Nat)[1]? = some n.data) :=
  ⟨pairList_wf 4 10 20, by decide, list_get_node_same (pairList_wf 4 10 20) (by decide)⟩

/-- C14 as stated fails on a list of two elements at index 1: `list_get_node_at` starts from
the head although the tail is nearer (`1 ≤ 2 - 1 - 1` is false) and follows one link where
`min(1, 2 - 1 - 1)` is zero. -/
theorem list_get_node_at_midpoint :
    WellFormed (pairList 4 (10 : Nat) 20) [1, 2] [10, 20] ∧
    list_get_node_at_side (pairList 4 (10 : Nat) 20) 1 = Side.head ∧
    ¬ ((1 : Int) ≤ 2 - 1 - 1) ∧
    list_get_node_at_counted (pairList 4 (10 : Nat) 20) 1 = .ok (2, 1) ∧
    (1 : Nat) ≠ min 1 (2 - 1 - 1) :=
  ⟨pairList_wf 4 10 20, by decide, by decide, rfl, by decide⟩

/-- C14 as amended: on every well-formed list of `n` elements and every index `i < n`,
`list_get_node_at` starts from the head exactly when `i ≤ n / 2` (integer division) and from
the tail otherwise; it follows `i` links in the first case and `n - 1 - i` in the second,
which is `min(i, n - 1 - i)` unless `n` is even and `i = n / 2`, where it is one more. -/
theorem list_get_node_at_links {α : Type} {me : ListObj α} {as : List Addr} {xs : List α}
    (wf : WellFormed me as xs) {i : Nat} (h : i < xs.length) :
    (list_get_node_at_side me (i : Int) = Side.head ↔ i ≤ xs.length / 2) ∧
    (list_get_node_at_side me (i : Int) = Side.tail ↔ xs.length / 2 < i) ∧
    list_get_node_at_counted me (i : Int)
      = .ok (addrAt as i, if i ≤ xs.length / 2 then i else xs.length - 1 - i) ∧
    (2 * i ≠ xs.length →
      list_get_node_at_counted me (i : Int) = .ok (addrAt as i, min i (xs.length - 1 - i))) ∧
    (2 * i = xs.length →
      list_get_node_at_counted me (i : Int)
        = .ok (addrAt as i, min i (xs.length - 1 - i) + 1)) := by
  have hh := wf.half i
  have hc : list_get_node_at_counted me (i : Int)
      = .ok (addrAt as i, if i ≤ xs.length / 2 then i else xs.length - 1 - i) := by
    unfold list_get_node_at_counted
    by_cases hb : i ≤ xs.length / 2
    · rw [if_pos (hh.2 hb), if_pos hb]
      exact wf.node_from_head_counted (by omega)
    · rw [if_neg (fun hx => hb (hh.1 hx)), if_neg hb]
      exact wf.node_from_tail_counted h
  refine ⟨?_, ?_, hc, ?_, ?_⟩
  · unfold list_get_node_at_side
    by_cases hb : i ≤ xs.length / 2
    · rw [if_pos (hh.2 hb)]
      exact ⟨fun _ => hb, fun _ => rfl⟩
    · rw [if_neg (fun hx => hb (hh.1 hx))]
      exact ⟨fun e => (by cases e), fun e => absurd e hb⟩
  · unfold list_get_node_at_side
    by_cases hb : i ≤ xs.length / 2
    · rw [if_pos (hh.2 hb)]
      exact ⟨fun e => (by cases e), fun e => absurd hb (by omega)⟩
    · rw [if_neg (fun hx => hb (hh.1 hx))]
      exact ⟨fun _ => (by omega), fun _ => rfl⟩
  · intro hne
    rw [hc]
    congr 2
    by_cases hb : i ≤ xs.length / 2
    · rw [if_pos hb]; omega
    · rw [if_neg hb]; omega
  · intro he
    rw [hc]
    congr 2
    have hb : i ≤ xs.length / 2 := by omega
    rw [if_pos hb]
    omega

/-- C14 as amended, at a list of two elements and index 1. -/
theorem list_get_node_at_links_witness :
    WellFormed (pairList 4 10 20) [1, 2] [10, 20] ∧ 1 < ([10, 20] : List Nat).length ∧
    (list_get_node_at_side (pairList 4 10 20) ((1 : Nat) : Int) = Side.head
      ↔ 1 ≤ ([10, 20] : List Nat).length / 2) ∧
    (list_get_node_at_side (pairList 4 10 20) ((1 : Nat) : Int) = Side.tail
      ↔ ([10, 20] : List Nat).length / 2 < 1) ∧
    list_get_node_at_counted (pairList 4 10 20) ((1 : Nat) : Int)
      = .ok (addrAt [1, 2] 1, if 1 ≤ ([10, 20] : List Nat).length / 2 then 1
          else ([10, 20] : List Nat).length - 1 - 1) ∧
    (2 * 1 ≠ ([10, 20] : List Nat).length →
      list_get_node_at_counted (pairList 4 10 20) ((1 : Nat) : Int)
        = .ok (addrAt [1, 2] 1, min 1 (([10, 20] : List Nat).length - 1 - 1))) ∧
    (2 * 1 = ([10, 20] : List Nat).length →
      list_get_node_at_counted (pairList 4 10 20) ((1 : Nat) : Int)
        = .ok (addrAt [1, 2] 1, min 1 (([10, 20] : List Nat).length - 1 - 1) + 1)) :=
  ⟨pairList_wf 4 10 20, by decide, list_get_node_at_links (pairList_wf 4 10 20) (by decide)⟩


/-! ## The multiset: the tree and its in-order list -/

theorem Tree.toList_mk {K : Type} (l : Tree K) (k : K) (m : Nat) (r : Tree K) :
    (Tree.mk l k m r).toList = l.toList ++ (k, m) :: r.toList := rfl

theorem Tree.toList_rotateRight {K : Type} (t : Tree K) : t.rotateRight.toList = t.toList := by
  cases t with
  | nil => rfl
  | node l k m h r =>
    cases l with
    | nil => rfl
    | node a x mx hx b => simp [Tree.rotateRight, Tree.mk, Tree.toList]

theorem Tree.toList_rotateLeft {K : Type} (t : Tree K) : t.rotateLeft.toList = t.toList := by
  cases t with
  | nil => rfl
  | node l k m h r =>
    cases r with
    | nil => rfl
    | node b y my hy c => simp [Tree.rotateLeft, Tree.mk, Tree.toList]

/-- Rebalancing rearranges records without changing their in-order sequence. -/
theorem Tree.toList_rebalance {K : Type} (l : Tree K) (k : K) (m : Nat) (r : Tree K) :
    (Tree.rebalance l k m r).toList = l.toList ++ (k, m) :: r.toList := by
  unfold Tree.rebalance
  split_ifs <;>
    simp [Tree.toList_rotateRight, Tree.toList_rotateLeft, Tree.toList_mk]

theorem lcount_nil {K : Type} (cmp : K → K → Int) (key : K) : lcount cmp key [] = 0 := rfl

theorem lcount_append {K : Type} (cmp : K → K → Int) (key : K) (l1 l2 : List (K × Nat)) :
    lcount cmp key (l1 ++ l2) = lcount cmp key l1 + lcount cmp key l2 := by
  simp [lcount]

theorem lcount_cons {K : Type} (cmp : K → K → Int) (key : K) (p : K × Nat)
    (l : List (K × Nat)) :
    lcount cmp key (p :: l) = (if cmp key p.1 = 0 then p.2 else 0) + lcount cmp key l := by
  by_cases h : cmp key p.1 = 0 <;> simp [lcount, List.filter_cons, h]

theorem lcount_eq_zero {K : Type} (cmp : K → K → Int) (key : K) (l : List (K × Nat))
    (h : ∀ x ∈ l.map Prod.fst, cmp key x ≠ 0) : lcount cmp key l = 0 := by
  induction l with
  | nil => rfl
  | cons p l ih =>
    rw [lcount_cons, if_neg (h p.1 (by simp)), ih (fun x hx => h x (by simp at hx ⊢; right; exact hx))]



theorem StrictTotalCmp.eq_symm {K : Type} {cmp : K → K → Int}
    (hc : StrictTotalCmp cmp) {a b : K} (h : cmp a b = 0) : cmp b a = 0 := by
  have h1 := hc.flip a b
  have h2 := hc.flip b a
  omega

theorem StrictTotalCmp.eq_trans {K : Type} {cmp : K → K → Int}
    (hc : StrictTotalCmp cmp) {a b c : K} (h1 : cmp a b = 0) (h2 : cmp b c = 0) :
    cmp a c = 0 := by
  have e1 := hc.congr_left a b c h1
  have e2 := hc.congr_right a b c h1
  have f1 := hc.flip c a
  have f2 := hc.flip c b
  have f3 := hc.flip a c
  omega

theorem StrictTotalCmp.eq_congr {K : Type} {cmp : K → K → Int}
    (hc : StrictTotalCmp cmp) {a b : K} (c : K) (h : cmp a b = 0) :
    cmp c a = 0 ↔ cmp c b = 0 :=
  ⟨fun h1 => hc.eq_trans h1 h, fun h1 => hc.eq_trans h1 (hc.eq_symm h)⟩

theorem StrictTotalCmp.gt_ne {K : Type} {cmp : K → K → Int}
    (hc : StrictTotalCmp cmp) {a b : K} (h : cmp a b < 0) : cmp b a ≠ 0 := by
  have := (hc.flip a b).1 h
  omega

theorem StrictTotalCmp.gt_of_not {K : Type} {cmp : K → K → Int}
    (hc : StrictTotalCmp cmp) {a b : K} (h1 : ¬ cmp a b < 0) (h2 : cmp a b ≠ 0) :
    cmp b a < 0 := by
  have := hc.flip b a
  omega



theorem Tree.keys_node {K : Type} (l : Tree K) (k : K) (m h : Nat) (r : Tree K) :
    (Tree.node l k m h r).keys = l.keys ++ k :: r.keys := by
  simp [Tree.keys, Tree.toList]

theorem Tree.keys_nil {K : Type} : (Tree.nil : Tree K).keys = [] := rfl

theorem Tree.sorted_node_elim {K : Type} {cmp : K → K → Int} {l r : Tree K} {k : K}
    {m h : Nat} (hs : (Tree.node l k m h r).keys.Pairwise (fun a b => cmp a b < 0)) :
    l.keys.Pairwise (fun a b => cmp a b < 0) ∧ r.keys.Pairwise (fun a b => cmp a b < 0) ∧
      (∀ x ∈ l.keys, cmp x k < 0) ∧ (∀ y ∈ r.keys, cmp k y < 0) := by
  rw [Tree.keys_node, List.pairwise_append, List.pairwise_cons] at hs
  obtain ⟨h1, ⟨h2, h3⟩, h4⟩ := hs
  exact ⟨h1, h3, fun x hx => h4 x hx k (by simp), h2⟩

theorem sorted_join {K : Type} {cmp : K → K → Int} (hc : StrictTotalCmp cmp) {l r : List K}
    {k : K} (h1 : l.Pairwise (fun a b => cmp a b < 0)) (h2 : r.Pairwise (fun a b => cmp a b < 0))
    (h3 : ∀ x ∈ l, cmp x k < 0) (h4 : ∀ y ∈ r, cmp k y < 0) :
    (l ++ k :: r).Pairwise (fun a b => cmp a b < 0) := by
  rw [List.pairwise_append, List.pairwise_cons]
  refine ⟨h1, ⟨h4, h2⟩, ?_⟩
  intro x hx y hy
  rw [List.mem_cons] at hy
  rcases hy with rfl | hy
  · exact h3 x hx
  · exact hc.trans x k y (h3 x hx) (h4 y hy)

/-- Where a search for `key` passes a record, everything on the side it leaves behind is
not equivalent to `key`. -/
theorem Tree.sides {K : Type} {cmp : K → K → Int} (hc : StrictTotalCmp cmp) {l r : Tree K}
    {k : K} {m h : Nat} (hs : (Tree.node l k m h r).keys.Pairwise (fun a b => cmp a b < 0))
    (key : K) :
    (cmp key k < 0 → ∀ y ∈ k :: r.keys, cmp key y < 0) ∧
    (0 < cmp key k → ∀ x ∈ l.keys ++ [k], cmp x key < 0) ∧
    (cmp key k = 0 → (∀ x ∈ l.keys, cmp x key < 0) ∧ (∀ y ∈ r.keys, cmp key y < 0)) := by
  obtain ⟨_, _, hl, hr⟩ := Tree.sorted_node_elim hs
  refine ⟨?_, ?_, ?_⟩
  · intro hlt y hy
    rw [List.mem_cons] at hy
    rcases hy with rfl | hy
    · exact hlt
    · exact hc.trans key k y hlt (hr y hy)
  · intro hgt x hx
    have hk : cmp k key < 0 := (hc.flip k key).2 hgt
    rw [List.mem_append, List.mem_singleton] at hx
    rcases hx with hx | rfl
    · exact hc.trans x k key (hl x hx) hk
    · exact hk
  · intro heq
    have hk : cmp k key = 0 := hc.eq_symm heq
    exact ⟨fun x hx => (hc.congr_right k key x hk).1 (hl x hx),
      fun y hy => (hc.congr_left k key y hk).1 (hr y hy)⟩


theorem lt_imp_ne_all {K : Type} {cmp : K → K → Int} {key : K} {l : List K}
    (h : ∀ y ∈ l, cmp key y < 0) : ∀ y ∈ l, cmp key y ≠ 0 :=
  fun y hy => by have := h y hy; omega

theorem gt_imp_ne_all {K : Type} {cmp : K → K → Int} (hc : StrictTotalCmp cmp) {key : K}
    {l : List K} (h : ∀ x ∈ l, cmp x key < 0) : ∀ x ∈ l, cmp key x ≠ 0 :=
  fun x hx => hc.gt_ne (h x hx)

theorem Tree.toList_node {K : Type} (l : Tree K) (k : K) (m h : Nat) (r : Tree K) :
    (Tree.node l k m h r).toList = l.toList ++ (k, m) :: r.toList := rfl

/-- A failed search means no record is equivalent to the key. -/
theorem Tree.search_none {K : Type} {cmp : K → K → Int} (hc : StrictTotalCmp cmp) (key : K) :
    ∀ (t : Tree K), t.keys.Pairwise (fun a b => cmp a b < 0) → Tree.search cmp key t = none →
      ∀ x ∈ t.keys, cmp key x ≠ 0
  | .nil, _, _ => by intro x hx; cases hx
  | .node l k m h r, hs, hn => by
    obtain ⟨sl, sr, _, _⟩ := Tree.sorted_node_elim hs
    obtain ⟨s1, s2, _⟩ := Tree.sides hc hs key
    intro x hx
    rw [Tree.keys_node, List.mem_append] at hx
    unfold Tree.search at hn
    by_cases h1 : cmp key k < 0
    · rw [if_pos h1] at hn
      rcases hx with hx | hx
      · exact Tree.search_none hc key l sl hn x hx
      · exact lt_imp_ne_all (s1 h1) x hx
    · rw [if_neg h1] at hn
      by_cases h2 : 0 < cmp key k
      · rw [if_pos h2] at hn
        rcases hx with hx | hx
        · exact gt_imp_ne_all hc (s2 h2) x (List.mem_append_left _ hx)
        · rw [List.mem_cons] at hx
          rcases hx with rfl | hx
          · omega
          · exact Tree.search_none hc key r sr hn x hx
      · rw [if_neg (by simpa using h2)] at hn
        exact Option.noConfusion hn

/-- A successful search returns the multiplicity of the one record equivalent to the key. -/
theorem Tree.search_some {K : Type} {cmp : K → K → Int} (hc : StrictTotalCmp cmp) (key : K)
    (n : Nat) :
    ∀ (t : Tree K), t.keys.Pairwise (fun a b => cmp a b < 0) → Tree.search cmp key t = some n →
      lcount cmp key t.toList = n ∧ ∃ k, (k, n) ∈ t.toList ∧ cmp key k = 0
  | .nil, _, hn => by simp [Tree.search] at hn
  | .node l k m h r, hs, hn => by
    obtain ⟨sl, sr, _, _⟩ := Tree.sorted_node_elim hs
    obtain ⟨s1, s2, s3⟩ := Tree.sides hc hs key
    unfold Tree.search at hn
    rw [Tree.toList_node, lcount_append, lcount_cons]
    by_cases h1 : cmp key k < 0
    · rw [if_pos h1] at hn
      obtain ⟨e, k1, hk1, hk2⟩ := Tree.search_some hc key n l sl hn
      have hz : lcount cmp key r.toList = 0 :=
        lcount_eq_zero cmp key _ (lt_imp_ne_all (fun y hy => s1 h1 y (List.mem_cons_of_mem _ hy)))
      have hk : cmp key k ≠ 0 := by omega
      refine ⟨by simp [e, hz, hk], k1, ?_, hk2⟩
      exact List.mem_append_left _ hk1
    · rw [if_neg h1] at hn
      by_cases h2 : 0 < cmp key k
      · rw [if_pos h2] at hn
        obtain ⟨e, k1, hk1, hk2⟩ := Tree.search_some hc key n r sr hn
        have hz : lcount cmp key l.toList = 0 :=
          lcount_eq_zero cmp key _
            (gt_imp_ne_all hc (fun x hx => s2 h2 x (List.mem_append_left _ hx)))
        have hk : cmp key k ≠ 0 := by omega
        refine ⟨by simp [e, hz, hk], k1, ?_, hk2⟩
        exact List.mem_append_right _ (List.mem_cons_of_mem _ hk1)
      · rw [if_neg (by simpa using h2)] at hn
        have hk : cmp key k = 0 := by omega
        cases Option.some.inj hn
        have hzl : lcount cmp key l.toList = 0 :=
          lcount_eq_zero cmp key _ (gt_imp_ne_all hc (s3 hk).1)
        have hzr : lcount cmp key r.toList = 0 :=
          lcount_eq_zero cmp key _ (lt_imp_ne_all (s3 hk).2)
        refine ⟨by simp [hzl, hzr, hk], k, ?_, hk⟩
        exact List.mem_append_right _ (List.mem_cons_self _ _)

/-- On an ordered tree the search counts what the in-order list holds for the key. -/
theorem Tree.search_getD {K : Type} {cmp : K → K → Int} (hc : StrictTotalCmp cmp) (key : K)
    (t : Tree K) (hs : t.keys.Pairwise (fun a b => cmp a b < 0)) :
    (Tree.search cmp key t).getD 0 = lcount cmp key t.toList := by
  cases hn : Tree.search cmp key t with
  | none =>
    rw [lcount_eq_zero cmp key _ (Tree.search_none hc key t hs hn)]
    rfl
  | some n =>
    rw [(Tree.search_some hc key n t hs hn).1]
    rfl


/-- Incrementing touches exactly the record the search finds. -/
theorem Tree.increment_split {K : Type} (cmp : K → K → Int) (key : K) (n : Nat) :
    ∀ (t : Tree K), Tree.search cmp key t = some n →
      ∃ l1 k l2, t.toList = l1 ++ (k, n) :: l2 ∧ cmp key k = 0 ∧
        (Tree.increment cmp key t).toList = l1 ++ (k, n + 1) :: l2
  | .nil, hn => by simp [Tree.search] at hn
  | .node l k m h r, hn => by
    unfold Tree.search at hn
    unfold Tree.increment
    by_cases h1 : cmp key k < 0
    · rw [if_pos h1] at hn
      obtain ⟨l1, k1, l2, e1, e2, e3⟩ := Tree.increment_split cmp key n l hn
      refine ⟨l1, k1, l2 ++ (k, m) :: r.toList, ?_, e2, ?_⟩
      · simp [Tree.toList, e1]
      · simp [h1, Tree.toList, e3]
    · rw [if_neg h1] at hn
      by_cases h2 : 0 < cmp key k
      · rw [if_pos h2] at hn
        obtain ⟨l1, k1, l2, e1, e2, e3⟩ := Tree.increment_split cmp key n r hn
        refine ⟨l.toList ++ (k, m) :: l1, k1, l2, ?_, e2, ?_⟩
        · simp [Tree.toList, e1]
        · simp [h1, h2, Tree.toList, e3]
      · rw [if_neg (by simpa using h2)] at hn
        cases Option.some.inj hn
        refine ⟨l.toList, k, r.toList, rfl, by omega, ?_⟩
        have h2' : ¬ cmp key k > 0 := by simpa using h2
        simp [h1, h2', Tree.toList]

/-- Decrementing touches exactly the record the search finds. -/
theorem Tree.decrement_split {K : Type} (cmp : K → K → Int) (key : K) (n : Nat) :
    ∀ (t : Tree K), Tree.search cmp key t = some n →
      ∃ l1 k l2, t.toList = l1 ++ (k, n) :: l2 ∧ cmp key k = 0 ∧
        (Tree.decrement cmp key t).toList = l1 ++ (k, n - 1) :: l2
  | .nil, hn => by simp [Tree.search] at hn
  | .node l k m h r, hn => by
    unfold Tree.search at hn
    unfold Tree.decrement
    by_cases h1 : cmp key k < 0
    · rw [if_pos h1] at hn
      obtain ⟨l1, k1, l2, e1, e2, e3⟩ := Tree.decrement_split cmp key n l hn
      refine ⟨l1, k1, l2 ++ (k, m) :: r.toList, ?_, e2, ?_⟩
      · simp [Tree.toList, e1]
      · simp [h1, Tree.toList, e3]
    · rw [if_neg h1] at hn
      by_cases h2 : 0 < cmp key k
      · rw [if_pos h2] at hn
        obtain ⟨l1, k1, l2, e1, e2, e3⟩ := Tree.decrement_split cmp key n r hn
        refine ⟨l.toList ++ (k, m) :: l1, k1, l2, ?_, e2, ?_⟩
        · simp [Tree.toList, e1]
        · simp [h1, h2, Tree.toList, e3]
      · rw [if_neg (by simpa using h2)] at hn
        cases Option.some.inj hn
        refine ⟨l.toList, k, r.toList, rfl, by omega, ?_⟩
        have h2' : ¬ cmp key k > 0 := by simpa using h2
        simp [h1, h2', Tree.toList]

/-- Inserting a key with no record puts one new record of multiplicity 1 between the
smaller and the larger keys. -/
theorem Tree.insert_split {K : Type} {cmp : K → K → Int} (hc : StrictTotalCmp cmp) (key : K) :
    ∀ (t : Tree K), t.keys.Pairwise (fun a b => cmp a b < 0) → Tree.search cmp key t = none →
      ∃ l1 l2, t.toList = l1 ++ l2 ∧ (Tree.insert cmp key t).toList = l1 ++ (key, 1) :: l2 ∧
        (∀ x ∈ l1.map Prod.fst, cmp x key < 0) ∧ (∀ y ∈ l2.map Prod.fst, cmp key y < 0)
  | .nil, _, _ => ⟨[], [], rfl, rfl, by simp, by simp⟩
  | .node l k m h r, hs, hn => by
    obtain ⟨sl, sr, _, _⟩ := Tree.sorted_node_elim hs
    obtain ⟨s1, s2, _⟩ := Tree.sides hc hs key
    unfold Tree.search at hn
    unfold Tree.insert
    by_cases h1 : cmp key k < 0
    · rw [if_pos h1] at hn
      obtain ⟨l1, l2, e1, e2, e3, e4⟩ := Tree.insert_split hc key l sl hn
      refine ⟨l1, l2 ++ (k, m) :: r.toList, ?_, ?_, e3, ?_⟩
      · simp [Tree.toList, e1]
      · simp [h1, Tree.toList_rebalance, e2]
      · intro y hy
        rw [List.map_append, List.mem_append] at hy
        rcases hy with hy | hy
        · exact e4 y hy
        · exact s1 h1 y (by simpa [Tree.keys] using hy)
    · rw [if_neg h1] at hn
      by_cases h2 : 0 < cmp key k
      · rw [if_pos h2] at hn
        obtain ⟨l1, l2, e1, e2, e3, e4⟩ := Tree.insert_split hc key r sr hn
        refine ⟨l.toList ++ (k, m) :: l1, l2, ?_, ?_, ?_, e4⟩
        · simp [Tree.toList, e1]
        · simp [h1, Tree.toList_rebalance, e2]
        · intro x hx
          rw [List.map_append, List.mem_append] at hx
          rcases hx with hx | hx
          · exact s2 h2 x (List.mem_append_left _ (by simpa [Tree.keys] using hx))
          · rw [List.map_cons, List.mem_cons] at hx
            rcases hx with rfl | hx
            · exact s2 h2 _ (by simp)
            · exact e3 x hx
      · rw [if_neg (by simpa using h2)] at hn
        exact Option.noConfusion hn

theorem Tree.minRecord_deleteMin {K : Type} :
    ∀ (l : Tree K) (k : K) (m h : Nat) (r : Tree K),
      Tree.minRecord l k m :: (Tree.deleteMin (Tree.node l k m h r)).toList
        = (Tree.node l k m h r).toList
  | .nil, k, m, h, r => by simp [Tree.minRecord, Tree.deleteMin, Tree.toList]
  | .node ll lk lm lh lr, k, m, h, r => by
    have ih := Tree.minRecord_deleteMin ll lk lm lh lr
    simp only [Tree.minRecord, Tree.deleteMin, Tree.toList_rebalance, Tree.toList_node] at ih ⊢
    rw [← List.cons_append, ih]

theorem filter_eq_self_of {K : Type} (cmp : K → K → Int) (key : K) (l : List (K × Nat))
    (h : ∀ x ∈ l.map Prod.fst, cmp key x ≠ 0) :
    l.filter (fun p => decide (cmp key p.1 ≠ 0)) = l := by
  rw [List.filter_eq_self]
  intro p hp
  have := h p.1 (List.mem_map_of_mem _ hp)
  simpa using this

/-- Deleting a key removes the records equivalent to it and nothing else. -/
theorem Tree.delete_toList {K : Type} {cmp : K → K → Int} (hc : StrictTotalCmp cmp) (key : K) :
    ∀ (t : Tree K), t.keys.Pairwise (fun a b => cmp a b < 0) →
      (Tree.delete cmp key t).toList = t.toList.filter (fun p => decide (cmp key p.1 ≠ 0))
  | .nil, _ => rfl
  | .node l k m h r, hs => by
    obtain ⟨sl, sr, _, _⟩ := Tree.sorted_node_elim hs
    obtain ⟨s1, s2, s3⟩ := Tree.sides hc hs key
    rw [Tree.toList_node, List.filter_append, List.filter_cons]
    unfold Tree.delete
    by_cases h1 : cmp key k < 0
    · have hk : cmp key k ≠ 0 := by omega
      have hr : r.toList.filter (fun p => decide (cmp key p.1 ≠ 0)) = r.toList :=
        filter_eq_self_of cmp key _
          (lt_imp_ne_all (fun y hy => s1 h1 y (List.mem_cons_of_mem _ hy)))
      simp only [if_pos h1, Tree.toList_rebalance, Tree.delete_toList hc key l sl, hr]
      simp [hk]
    · by_cases h2 : 0 < cmp key k
      · have hk : cmp key k ≠ 0 := by omega
        have hl : l.toList.filter (fun p => decide (cmp key p.1 ≠ 0)) = l.toList :=
          filter_eq_self_of cmp key _
            (gt_imp_ne_all hc (fun x hx => s2 h2 x (List.mem_append_left _ hx)))
        simp only [if_neg h1, if_pos (show cmp key k > 0 from h2), Tree.toList_rebalance,
          Tree.delete_toList hc key r sr, hl]
        simp [hk]
      · have hk : cmp key k = 0 := by omega
        have hl : l.toList.filter (fun p => decide (cmp key p.1 ≠ 0)) = l.toList :=
          filter_eq_self_of cmp key _ (gt_imp_ne_all hc (s3 hk).1)
        have hr : r.toList.filter (fun p => decide (cmp key p.1 ≠ 0)) = r.toList :=
          filter_eq_self_of cmp key _ (lt_imp_ne_all (s3 hk).2)
        rw [if_neg h1, if_neg (show ¬ cmp key k > 0 from h2), hl, hr]
        simp only [hk, ne_eq, not_true_eq_false, decide_False, Bool.false_eq_true, if_false]
        cases l with
        | nil => simp [Tree.toList]
        | node ll lk lm lh lr =>
          cases r with
          | nil => simp [Tree.toList]
          | node rl rk rm rh rr =>
            simp only [Tree.toList_rebalance]
            rw [Tree.minRecord_deleteMin]


theorem msum_nil {K : Type} : msum ([] : List (K × Nat)) = 0 := rfl

theorem msum_append {K : Type} (l1 l2 : List (K × Nat)) :
    msum (l1 ++ l2) = msum l1 + msum l2 := by
  simp [msum]

theorem msum_cons {K : Type} (p : K × Nat) (l : List (K × Nat)) :
    msum (p :: l) = (p.2 : Int) + msum l := by
  simp [msum]

theorem lcount_congr {K : Type} {cmp : K → K → Int} (hc : StrictTotalCmp cmp) {a b : K}
    (h : cmp a b = 0) (l : List (K × Nat)) : lcount cmp a l = lcount cmp b l := by
  have e : ∀ p : K × Nat, decide (cmp a p.1 = 0) = decide (cmp b p.1 = 0) := by
    intro p
    have : cmp a p.1 = 0 ↔ cmp b p.1 = 0 :=
      ⟨fun h1 => hc.eq_trans (hc.eq_symm h) h1, fun h1 => hc.eq_trans h h1⟩
    simp [this]
  simp only [lcount, e]

/-- Filtering out the records of one key empties its count and keeps every other. -/
theorem lcount_filter_ne {K : Type} {cmp : K → K → Int} (hc : StrictTotalCmp cmp)
    (key key' : K) (l : List (K × Nat)) :
    lcount cmp key' (l.filter (fun p => decide (cmp key p.1 ≠ 0)))
      = if cmp key' key = 0 then 0 else lcount cmp key' l := by
  induction l with
  | nil => simp [lcount]
  | cons p l ih =>
    rw [List.filter_cons, lcount_cons]
    simp only [ne_eq, decide_not] at ih ⊢
    by_cases hk : cmp key p.1 = 0
    · have : cmp key' p.1 = 0 ↔ cmp key' key = 0 := (hc.eq_congr key' hk).symm
      by_cases h2 : cmp key' key = 0
      · simp [hk, ih, h2]
      · have h3 : ¬ cmp key' p.1 = 0 := fun h => h2 (this.1 h)
        simp [hk, ih, h2, h3]
    · by_cases h2 : cmp key' key = 0
      · have h3 : ¬ cmp key' p.1 = 0 := fun h => hk (hc.eq_trans (hc.eq_symm h2) h)
        simp [hk, ih, h2, h3, lcount_cons]
      · simp [hk, ih, h2, lcount_cons]

theorem msum_filter_ne {K : Type} (cmp : K → K → Int) (key : K) (l : List (K × Nat)) :
    msum (l.filter (fun p => decide (cmp key p.1 ≠ 0))) = msum l - (lcount cmp key l : Int) := by
  induction l with
  | nil => simp [msum, lcount]
  | cons p l ih =>
    rw [List.filter_cons, lcount_cons, msum_cons]
    simp only [ne_eq, decide_not] at ih ⊢
    by_cases hk : cmp key p.1 = 0
    · simp [hk, ih]
    · simp [hk, ih, msum_cons]; ring

theorem sorted_filter {K : Type} (cmp : K → K → Int) (q : K × Nat → Bool) (l : List (K × Nat))
    (h : (l.map Prod.fst).Pairwise (fun a b => cmp a b < 0)) :
    ((l.filter q).map Prod.fst).Pairwise (fun a b => cmp a b < 0) :=
  List.Pairwise.sublist ((List.filter_sublist l).map Prod.fst) h

/-- In an ordered list the record equivalent to a key is the only one. -/
theorem records_split {K : Type} {cmp : K → K → Int} (hc : StrictTotalCmp cmp) {key k : K}
    {n : Nat} {l1 l2 : List (K × Nat)}
    (hs : ((l1 ++ (k, n) :: l2).map Prod.fst).Pairwise (fun a b => cmp a b < 0))
    (hk : cmp key k = 0) :
    ((l1 ++ (k, n) :: l2).filter (fun p => decide (cmp key p.1 = 0))).length = 1 ∧
      lcount cmp key (l1 ++ (k, n) :: l2) = n := by
  rw [List.map_append, List.map_cons, List.pairwise_append, List.pairwise_cons] at hs
  obtain ⟨_, ⟨h2, _⟩, h4⟩ := hs
  have hkk : cmp k key = 0 := hc.eq_symm hk
  have n1 : ∀ x ∈ l1.map Prod.fst, cmp key x ≠ 0 := by
    intro x hx
    have : cmp x key < 0 := (hc.congr_right k key x hkk).1 (h4 x hx k (by simp))
    exact hc.gt_ne this
  have n2 : ∀ y ∈ l2.map Prod.fst, cmp key y ≠ 0 := by
    intro y hy
    have : cmp key y < 0 := (hc.congr_left k key y hkk).1 (h2 y hy)
    omega
  have f1 : l1.filter (fun p => decide (cmp key p.1 = 0)) = [] := by
    rw [List.filter_eq_nil_iff]
    intro p hp
    simpa using n1 p.1 (List.mem_map_of_mem _ hp)
  have f2 : l2.filter (fun p => decide (cmp key p.1 = 0)) = [] := by
    rw [List.filter_eq_nil_iff]
    intro p hp
    simpa using n2 p.1 (List.mem_map_of_mem _ hp)
  constructor
  · rw [List.filter_append, List.filter_cons, f1, f2]
    simp [hk]
  · rw [lcount_append, lcount_cons, lcount_eq_zero cmp key l1 n1, lcount_eq_zero cmp key l2 n2]
    simp [hk]

/-- In an ordered list each record counts its own multiplicity. -/
theorem lcount_self {K : Type} {cmp : K → K → Int} (hc : StrictTotalCmp cmp)
    {l : List (K × Nat)} (hs : (l.map Prod.fst).Pairwise (fun a b => cmp a b < 0))
    {p : K × Nat} (hp : p ∈ l) : lcount cmp p.1 l = p.2 := by
  obtain ⟨l1, l2, rfl⟩ := List.append_of_mem hp
  exact (records_split hc hs (hc.refl p.1)).2

theorem msum_eq_sum_lcount {K : Type} {cmp : K → K → Int} (hc : StrictTotalCmp cmp)
    {l : List (K × Nat)} (hs : (l.map Prod.fst).Pairwise (fun a b => cmp a b < 0)) :
    ((l.map Prod.fst).map (fun k => (lcount cmp k l : Int))).sum = msum l := by
  rw [List.map_map, msum]
  congr 1
  apply List.map_congr_left
  intro p hp
  simp [lcount_self hc hs hp]


/-! ## The multiset: what each operation does under the invariants -/

theorem MultisetInv.count_eq {K : Type} {me : MultisetObj K} (inv : MultisetInv me) (key : K) :
    multiset_count me key = lcount me.comparator key me.root.toList :=
  Tree.search_getD inv.cmp_ok key me.root inv.sorted

theorem MultisetInv.search_pos {K : Type} {me : MultisetObj K} (inv : MultisetInv me) {key : K}
    {n : Nat} (h : Tree.search me.comparator key me.root = some n) : 1 ≤ n := by
  obtain ⟨_, k, hk, _⟩ := Tree.search_some inv.cmp_ok key n me.root inv.sorted h
  exact inv.positive (k, n) hk

theorem MultisetInv.count_of_search {K : Type} {me : MultisetObj K} {key : K} {n : Nat}
    (h : Tree.search me.comparator key me.root = some n) : multiset_count me key = n := by
  simp [multiset_count, h]

theorem MultisetInv.search_of_count_zero {K : Type} {me : MultisetObj K} (inv : MultisetInv me)
    {key : K} (h : multiset_count me key = 0) :
    Tree.search me.comparator key me.root = none := by
  cases hs : Tree.search me.comparator key me.root with
  | none => rfl
  | some n =>
    have h1 := inv.search_pos hs
    have h2 := MultisetInv.count_of_search hs
    omega

theorem MultisetInv.search_of_count_pos {K : Type} {me : MultisetObj K} {key : K}
    (h : 0 < multiset_count me key) :
    Tree.search me.comparator key me.root = some (multiset_count me key) := by
  cases hs : Tree.search me.comparator key me.root with
  | none => simp [multiset_count, hs] at h
  | some n => simp [multiset_count, hs]

/-- What a put that goes through does to a multiset that satisfies the invariants. -/
theorem MultisetInv.put_effect {K : Type} {me : MultisetObj K} (inv : MultisetInv me) (key : K)
    (allocated : Bool) (h : allocated = true ∨ 0 < multiset_count me key) :
    ∃ me', multiset_put me key allocated = (0, me') ∧ MultisetInv me' ∧
      me'.comparator = me.comparator ∧ me'.total_count = me.total_count + 1 ∧
      (∀ key', multiset_count me' key'
        = multiset_count me key' + if me.comparator key' key = 0 then 1 else 0) ∧
      records me' key = 1 := by
  have hc := inv.cmp_ok
  cases hs : Tree.search me.comparator key me.root with
  | some n =>
    obtain ⟨l1, k, l2, e1, ek, e2⟩ := Tree.increment_split me.comparator key n me.root hs
    have hsorted : ((l1 ++ (k, n + 1) :: l2).map Prod.fst).Pairwise
        (fun a b => me.comparator a b < 0) := by
      have := inv.sorted
      rw [Tree.keys, e1] at this
      simpa using this
    have inv' : MultisetInv { me with
        root := Tree.increment me.comparator key me.root,
        total_count := me.total_count + 1 } := by
      refine ⟨hc, ?_, ?_, ?_⟩
      · show (Tree.keys (Tree.increment me.comparator key me.root)).Pairwise _
        rw [Tree.keys, e2]
        exact hsorted
      · intro p hp
        have hp' : p ∈ l1 ++ (k, n + 1) :: l2 := e2 ▸ hp
        rw [List.mem_append, List.mem_cons] at hp'
        rcases hp' with hp' | rfl | hp'
        · exact inv.positive p (e1 ▸ List.mem_append_left _ hp')
        · exact Nat.succ_le_succ (Nat.zero_le _)
        · exact inv.positive p (e1 ▸ List.mem_append_right _ (List.mem_cons_of_mem _ hp'))
      · show me.total_count + 1 = msum (Tree.increment me.comparator key me.root).toList
        rw [e2, inv.total, e1]
        simp [msum_append, msum_cons]
        ring
    refine ⟨_, by simp [multiset_put, hs], inv', rfl, rfl, ?_, ?_⟩
    · intro key'
      rw [inv'.count_eq, inv.count_eq]
      show lcount me.comparator key' (Tree.increment me.comparator key me.root).toList = _
      rw [e2, e1]
      have hiff : me.comparator key' k = 0 ↔ me.comparator key' key = 0 :=
        (hc.eq_congr key' ek).symm
      by_cases hk : me.comparator key' key = 0
      · simp [lcount_append, lcount_cons, hk, hiff.2 hk]
        omega
      · have hk' : ¬ me.comparator key' k = 0 := fun h => hk (hiff.1 h)
        simp [lcount_append, lcount_cons, hk, hk']
    · show ((Tree.increment me.comparator key me.root).toList.filter _).length = 1
      rw [e2]
      exact (records_split hc hsorted ek).1
  | none =>
    have ha : allocated = true := by
      rcases h with h | h
      · exact h
      · simp [multiset_count, hs] at h
    obtain ⟨l1, l2, e1, e2, b1, b2⟩ := Tree.insert_split hc key me.root inv.sorted hs
    have hold : ((l1 ++ l2).map Prod.fst).Pairwise (fun a b => me.comparator a b < 0) := by
      have := inv.sorted
      rw [Tree.keys, e1] at this
      exact this
    rw [List.map_append, List.pairwise_append] at hold
    have hsorted : ((l1 ++ (key, 1) :: l2).map Prod.fst).Pairwise
        (fun a b => me.comparator a b < 0) := by
      rw [List.map_append, List.map_cons]
      exact sorted_join hc hold.1 hold.2.1 b1 b2
    have inv' : MultisetInv { me with
        root := Tree.insert me.comparator key me.root,
        total_count := me.total_count + 1 } := by
      refine ⟨hc, ?_, ?_, ?_⟩
      · show (Tree.keys (Tree.insert me.comparator key me.root)).Pairwise _
        rw [Tree.keys, e2]
        exact hsorted
      · intro p hp
        have hp' : p ∈ l1 ++ (key, 1) :: l2 := e2 ▸ hp
        rw [List.mem_append, List.mem_cons] at hp'
        rcases hp' with hp' | rfl | hp'
        · exact inv.positive p (e1 ▸ List.mem_append_left _ hp')
        · exact Nat.le_refl 1
        · exact inv.positive p (e1 ▸ List.mem_append_right _ hp')
      · show me.total_count + 1 = msum (Tree.insert me.comparator key me.root).toList
        rw [e2, inv.total, e1]
        simp [msum_append, msum_cons]
        ring
    refine ⟨_, by simp [multiset_put, hs, ha], inv', rfl, rfl, ?_, ?_⟩
    · intro key'
      rw [inv'.count_eq, inv.count_eq]
      show lcount me.comparator key' (Tree.insert me.comparator key me.root).toList = _
      rw [e2, e1]
      by_cases hk : me.comparator key' key = 0
      · simp [lcount_append, lcount_cons, hk]
        omega
      · simp [lcount_append, lcount_cons, hk]
    · show ((Tree.insert me.comparator key me.root).toList.filter _).length = 1
      rw [e2]
      exact (records_split hc hsorted (hc.refl key)).1

/-- A put that needs a record and gets none returns `-ENOMEM` and changes nothing. -/
theorem MultisetInv.put_fail {K : Type} {me : MultisetObj K} (inv : MultisetInv me) (key : K)
    (h : multiset_count me key = 0) : multiset_put me key false = (-ENOMEM, me) := by
  simp [multiset_put, inv.search_of_count_zero h]


/-- Deleting the record of a key keeps the invariants when the total drops by its
multiplicity. -/
theorem MultisetInv.delete_inv {K : Type} {me : MultisetObj K} (inv : MultisetInv me) (key : K)
    {c : Int} (hcnt : c = me.total_count - (multiset_count me key : Int)) :
    MultisetInv { me with root := Tree.delete me.comparator key me.root, total_count := c } ∧
    ∀ key', multiset_count { me with root := Tree.delete me.comparator key me.root,
                                     total_count := c } key'
      = if me.comparator key' key = 0 then 0 else multiset_count me key' := by
  have hc := inv.cmp_ok
  have e := Tree.delete_toList hc key me.root inv.sorted
  have inv' : MultisetInv { me with
      root := Tree.delete me.comparator key me.root, total_count := c } := by
    refine ⟨hc, ?_, ?_, ?_⟩
    · show (Tree.keys (Tree.delete me.comparator key me.root)).Pairwise _
      rw [Tree.keys, e]
      exact sorted_filter _ _ _ inv.sorted
    · intro p hp
      have hp' : p ∈ me.root.toList.filter (fun p => decide (me.comparator key p.1 ≠ 0)) :=
        e ▸ hp
      exact inv.positive p (List.mem_of_mem_filter hp')
    · show c = msum (Tree.delete me.comparator key me.root).toList
      rw [e, msum_filter_ne, hcnt, inv.total, inv.count_eq]
  refine ⟨inv', ?_⟩
  intro key'
  rw [inv'.count_eq, inv.count_eq]
  show lcount me.comparator key' (Tree.delete me.comparator key me.root).toList = _
  rw [e, lcount_filter_ne hc]

/-- What a remove of a key that is present does to a multiset that satisfies the
invariants. -/
theorem MultisetInv.remove_effect {K : Type} {me : MultisetObj K} (inv : MultisetInv me)
    (key : K) (h : 0 < multiset_count me key) :
    ∃ me', multiset_remove me key = (true, me') ∧ MultisetInv me' ∧
      me'.comparator = me.comparator ∧ me'.total_count = me.total_count - 1 ∧
      (∀ key', multiset_count me' key' + (if me.comparator key' key = 0 then 1 else 0)
        = multiset_count me key') := by
  have hc := inv.cmp_ok
  have hs := MultisetInv.search_of_count_pos h
  generalize hn : multiset_count me key = n at hs h
  by_cases hgt : n > 1
  · obtain ⟨l1, k, l2, e1, ek, e2⟩ := Tree.decrement_split me.comparator key n me.root hs
    have hsorted : ((l1 ++ (k, n - 1) :: l2).map Prod.fst).Pairwise
        (fun a b => me.comparator a b < 0) := by
      have := inv.sorted
      rw [Tree.keys, e1] at this
      simpa using this
    have inv' : MultisetInv { me with
        root := Tree.decrement me.comparator key me.root,
        total_count := me.total_count - 1 } := by
      refine ⟨hc, ?_, ?_, ?_⟩
      · show (Tree.keys (Tree.decrement me.comparator key me.root)).Pairwise _
        rw [Tree.keys, e2]
        exact hsorted
      · intro p hp
        have hp' : p ∈ l1 ++ (k, n - 1) :: l2 := e2 ▸ hp
        rw [List.mem_append, List.mem_cons] at hp'
        rcases hp' with hp' | rfl | hp'
        · exact inv.positive p (e1 ▸ List.mem_append_left _ hp')
        · show 1 ≤ n - 1
          omega
        · exact inv.positive p (e1 ▸ List.mem_append_right _ (List.mem_cons_of_mem _ hp'))
      · show me.total_count - 1 = msum (Tree.decrement me.comparator key me.root).toList
        rw [e2, inv.total, e1]
        simp only [msum_append, msum_cons]
        have : ((n - 1 : Nat) : Int) = (n : Int) - 1 := by omega
        rw [this]
        ring
    refine ⟨_, by simp [multiset_remove, hs, hgt], inv', rfl, rfl, ?_⟩
    intro key'
    rw [inv'.count_eq, inv.count_eq]
    show lcount me.comparator key' (Tree.decrement me.comparator key me.root).toList + _ = _
    rw [e2, e1]
    have hiff : me.comparator key' k = 0 ↔ me.comparator key' key = 0 :=
      (hc.eq_congr key' ek).symm
    by_cases hk : me.comparator key' key = 0
    · simp [lcount_append, lcount_cons, hk, hiff.2 hk]
      omega
    · have hk' : ¬ me.comparator key' k = 0 := fun h => hk (hiff.1 h)
      simp [lcount_append, lcount_cons, hk, hk']
  · have hn1 : n = 1 := by omega
    have hcnt : me.total_count - 1 = me.total_count - (multiset_count me key : Int) := by
      rw [hn, hn1]; rfl
    obtain ⟨inv', hcount⟩ := inv.delete_inv key hcnt
    refine ⟨_, by simp [multiset_remove, hs, hgt], inv', rfl, rfl, ?_⟩
    intro key'
    rw [hcount key']
    by_cases hk : me.comparator key' key = 0
    · have : multiset_count me key' = multiset_count me key := by
        rw [inv.count_eq, inv.count_eq, lcount_congr hc hk]
      simp [hk, this, hn, hn1]
    · simp [hk]

/-- A remove of an absent key returns false and changes nothing. -/
theorem MultisetInv.remove_absent {K : Type} {me : MultisetObj K} (inv : MultisetInv me)
    (key : K) (h : multiset_count me key = 0) : multiset_remove me key = (false, me) := by
  simp [multiset_remove, inv.search_of_count_zero h]

/-- What a remove_all of a key that is present does to a multiset that satisfies the
invariants. -/
theorem MultisetInv.remove_all_effect {K : Type} {me : MultisetObj K} (inv : MultisetInv me)
    (key : K) (h : 0 < multiset_count me key) :
    ∃ me', multiset_remove_all me key = (true, me') ∧ MultisetInv me' ∧
      me'.comparator = me.comparator ∧
      me'.total_count = me.total_count - (multiset_count me key : Int) ∧
      (∀ key', multiset_count me' key'
        = if me.comparator key' key = 0 then 0 else multiset_count me key') := by
  have hs := MultisetInv.search_of_count_pos h
  obtain ⟨inv', hcount⟩ := inv.delete_inv key (rfl : me.total_count
    - (multiset_count me key : Int) = me.total_count - (multiset_count me key : Int))
  exact ⟨_, by simp [multiset_remove_all, hs], inv', rfl, rfl, hcount⟩

/-- A remove_all of an absent key returns false and changes nothing. -/
theorem MultisetInv.remove_all_absent {K : Type} {me : MultisetObj K} (inv : MultisetInv me)
    (key : K) (h : multiset_count me key = 0) : multiset_remove_all me key = (false, me) := by
  simp [multiset_remove_all, inv.search_of_count_zero h]

theorem emptyMultiset_inv {K : Type} (key_size : Nat) {cmp : K → K → Int}
    (hc : StrictTotalCmp cmp) : MultisetInv (emptyMultiset key_size cmp) :=
  ⟨hc, List.Pairwise.nil, fun p hp => (by cases hp), rfl⟩

theorem intCmp_ok : StrictTotalCmp intCmp := by
  refine ⟨?_, ?_, ?_, ?_, ?_⟩ <;> intros <;> simp only [intCmp] at * <;> omega


theorem sampleMultiset_inv : MultisetInv sampleMultiset := by
  refine ⟨intCmp_ok, ?_, ?_, ?_⟩
  · simp [sampleMultiset, Tree.keys, Tree.toList, intCmp]
  · intro p hp
    simp [sampleMultiset, Tree.toList] at hp
    rcases hp with rfl | rfl | rfl <;> simp
  · simp [sampleMultiset, Tree.toList, msum]

theorem sampleMultiset_run :
    (runCalls (emptyMultiset 4 intCmp)
      [.put 3 true, .put 1 true, .put 3 true, .put 2 true]).1.root = sampleMultiset.root := by
  decide


/-! ## The multiset: runs of calls -/

theorem neg_ENOMEM_ne_zero : ¬ (-ENOMEM = (0 : Int)) := by decide

/-- One call keeps the books. -/
theorem callStep_booked {K : Type} {cmp : K → K → Int} {s : MultisetObj K × Tally}
    (hb : Booked cmp s) (c : Call K) : Booked cmp (callStep s c) := by
  obtain ⟨inv, hcmp, htot⟩ := hb
  cases c with
  | put key allocated =>
    by_cases h : allocated = true ∨ 0 < multiset_count s.1 key
    · obtain ⟨me', hrun, inv', hc', ht', _⟩ := inv.put_effect key allocated h
      refine ⟨?_, ?_, ?_⟩
      · simpa [callStep, hrun] using inv'
      · simpa [callStep, hrun, hc'] using hcmp
      · simp only [callStep, hrun, if_true, ht', htot]
        push_cast
        ring
    · have ha : allocated = false := by
        cases allocated
        · rfl
        · exact absurd (Or.inl rfl) h
      have hz : multiset_count s.1 key = 0 := by omega
      have hrun := inv.put_fail key hz
      subst ha
      refine ⟨?_, ?_, ?_⟩
      · simpa [callStep, hrun] using inv
      · simpa [callStep, hrun] using hcmp
      · simpa [callStep, hrun, neg_ENOMEM_ne_zero] using htot
  | remove key =>
    by_cases h : 0 < multiset_count s.1 key
    · obtain ⟨me', hrun, inv', hc', ht', _⟩ := inv.remove_effect key h
      refine ⟨?_, ?_, ?_⟩
      · simpa [callStep, hrun] using inv'
      · simpa [callStep, hrun, hc'] using hcmp
      · simp only [callStep, hrun, if_true, ht', htot]
        push_cast
        ring
    · have hrun := inv.remove_absent key (by omega)
      refine ⟨?_, ?_, ?_⟩
      · simpa [callStep, hrun] using inv
      · simpa [callStep, hrun] using hcmp
      · simpa [callStep, hrun] using htot
  | remove_all key =>
    by_cases h : 0 < multiset_count s.1 key
    · obtain ⟨me', hrun, inv', hc', ht', _⟩ := inv.remove_all_effect key h
      refine ⟨?_, ?_, ?_⟩
      · simpa [callStep, hrun] using inv'
      · simpa [callStep, hrun, hc'] using hcmp
      · simp only [callStep, hrun, if_true, ht', htot]
        push_cast
        ring
    · have hrun := inv.remove_all_absent key (by omega)
      refine ⟨?_, ?_, ?_⟩
      · simpa [callStep, hrun] using inv
      · simpa [callStep, hrun] using hcmp
      · simpa [callStep, hrun] using htot

theorem foldl_booked {K : Type} {cmp : K → K → Int} (cs : List (Call K)) :
    ∀ (s : MultisetObj K × Tally), Booked cmp s → Booked cmp (cs.foldl callStep s) := by
  induction cs with
  | nil => intro s hb; exact hb
  | cons c cs ih => intro s hb; exact ih _ (callStep_booked hb c)

/-- Every run from the empty multiset keeps the books. -/
theorem runCalls_booked {K : Type} (key_size : Nat) {cmp : K → K → Int}
    (hc : StrictTotalCmp cmp) (cs : List (Call K)) :
    Booked cmp (runCalls (emptyMultiset key_size cmp) cs) :=
  foldl_booked cs _ ⟨emptyMultiset_inv key_size hc, rfl, rfl⟩

/-- Under the invariants the total is the sum of the counts of the stored keys. -/
theorem MultisetInv.size_eq_sum {K : Type} {me : MultisetObj K} (inv : MultisetInv me) :
    multiset_size me = ((Tree.keys me.root).map (fun k => (multiset_count me k : Int))).sum := by
  have h := msum_eq_sum_lcount inv.cmp_ok inv.sorted
  rw [multiset_size, inv.total, ← h]
  congr 1
  apply List.map_congr_left
  intro k _
  rw [inv.count_eq]

/-- One call that is not a put of an equivalent key leaves a count of zero at zero. -/
theorem callStep_count_zero {K : Type} {cmp : K → K → Int} {s : MultisetObj K × Tally}
    (hb : Booked cmp s) (k : K) (hz : multiset_count s.1 k = 0) (c : Call K)
    (hc : ∀ key allocated, c = Call.put key allocated → cmp k key ≠ 0) :
    multiset_count (callStep s c).1 k = 0 := by
  obtain ⟨inv, hcmp, _⟩ := hb
  cases c with
  | put key allocated =>
    have hne : ¬ s.1.comparator k key = 0 := by rw [hcmp]; exact hc key allocated rfl
    by_cases h : allocated = true ∨ 0 < multiset_count s.1 key
    · obtain ⟨me', hrun, _, _, _, hcount, _⟩ := inv.put_effect key allocated h
      simp only [callStep, hrun, hcount k, hz, if_neg hne]
    · have ha : allocated = false := by
        cases allocated
        · rfl
        · exact absurd (Or.inl rfl) h
      have hrun := inv.put_fail key (by omega)
      subst ha
      simpa [callStep, hrun] using hz
  | remove key =>
    by_cases h : 0 < multiset_count s.1 key
    · obtain ⟨me', hrun, _, _, _, hcount⟩ := inv.remove_effect key h
      have := hcount k
      simp only [callStep, hrun]
      omega
    · have hrun := inv.remove_absent key (by omega)
      simpa [callStep, hrun] using hz
  | remove_all key =>
    by_cases h : 0 < multiset_count s.1 key
    · obtain ⟨me', hrun, _, _, _, hcount⟩ := inv.remove_all_effect key h
      simp only [callStep, hrun, hcount k, hz, ite_self]
    · have hrun := inv.remove_all_absent key (by omega)
      simpa [callStep, hrun] using hz

theorem foldl_count_zero {K : Type} {cmp : K → K → Int} (k : K) (cs : List (Call K)) :
    ∀ (s : MultisetObj K × Tally), Booked cmp s → multiset_count s.1 k = 0 →
      (∀ key allocated, Call.put key allocated ∈ cs → cmp k key ≠ 0) →
      multiset_count (cs.foldl callStep s).1 k = 0 := by
  induction cs with
  | nil => intro s _ hz _; exact hz
  | cons c cs ih =>
    intro s hb hz hc
    refine ih _ (callStep_booked hb c) ?_ (fun key a hm => hc key a (List.mem_cons_of_mem _ hm))
    exact callStep_count_zero hb k hz c
      (fun key a e => hc key a (e ▸ List.mem_cons_self _ _))

/-- A key that no put of the run was equivalent to has count zero. -/
theorem runCalls_never_put {K : Type} (key_size : Nat) {cmp : K → K → Int}
    (hc : StrictTotalCmp cmp) (k : K) (cs : List (Call K))
    (h : ∀ key allocated, Call.put key allocated ∈ cs → cmp k key ≠ 0) :
    multiset_count (runCalls (emptyMultiset key_size cmp) cs).1 k = 0 :=
  foldl_count_zero k cs _ ⟨emptyMultiset_inv key_size hc, rfl, rfl⟩ rfl h


/-! ## The multiset: size, put and remove -/

/-- C8: after every sequence of put, remove and remove_all calls on a multiset created by
`multiset_init` under a lawful comparator, `multiset_size` is the number of puts that
returned 0, minus one for each remove that returned true, minus the multiplicity taken by
each remove_all that returned true; and it is the sum of `multiset_count` over the keys
stored. -/
theorem multiset_size_accounting {K : Type} (key_size : Nat) {cmp : K → K → Int}
    (hc : StrictTotalCmp cmp) (cs : List (Call K)) :
    multiset_init true key_size cmp = some (emptyMultiset key_size cmp) ∧
    multiset_size (runCalls (emptyMultiset key_size cmp) cs).1
      = ((runCalls (emptyMultiset key_size cmp) cs).2.puts : Int)
        - ((runCalls (emptyMultiset key_size cmp) cs).2.removes : Int)
        - ((runCalls (emptyMultiset key_size cmp) cs).2.removed_all : Int) ∧
    multiset_size (runCalls (emptyMultiset key_size cmp) cs).1
      = ((Tree.keys (runCalls (emptyMultiset key_size cmp) cs).1.root).map
          (fun k => (multiset_count (runCalls (emptyMultiset key_size cmp) cs).1 k : Int))).sum := by
  obtain ⟨inv, _, htot⟩ := runCalls_booked key_size hc cs
  exact ⟨rfl, htot, inv.size_eq_sum⟩

/-- C8 at integer keys and the calls of the scenario. -/
theorem multiset_size_accounting_witness :
    StrictTotalCmp intCmp ∧
    multiset_init true 4 intCmp = some (emptyMultiset 4 intCmp) ∧
    multiset_size (runCalls (emptyMultiset 4 intCmp)
        [.put 3 true, .put 1 true, .put 3 true, .put 2 false, .remove 3, .remove_all 3]).1
      = ((runCalls (emptyMultiset 4 intCmp)
          [.put 3 true, .put 1 true, .put 3 true, .put 2 false, .remove 3,
            .remove_all 3]).2.puts : Int)
        - ((runCalls (emptyMultiset 4 intCmp)
          [.put 3 true, .put 1 true, .put 3 true, .put 2 false, .remove 3,
            .remove_all 3]).2.removes : Int)
        - ((runCalls (emptyMultiset 4 intCmp)
          [.put 3 true, .put 1 true, .put 3 true, .put 2 false, .remove 3,
            .remove_all 3]).2.removed_all : Int) ∧
    multiset_size (runCalls (emptyMultiset 4 intCmp)
        [.put 3 true, .put 1 true, .put 3 true, .put 2 false, .remove 3, .remove_all 3]).1
      = ((Tree.keys (runCalls (emptyMultiset 4 intCmp)
          [.put 3 true, .put 1 true, .put 3 true, .put 2 false, .remove 3,
            .remove_all 3]).1.root).map
          (fun k => (multiset_count (runCalls (emptyMultiset 4 intCmp)
            [.put 3 true, .put 1 true, .put 3 true, .put 2 false, .remove 3,
              .remove_all 3]).1 k : Int))).sum :=
  ⟨intCmp_ok, multiset_size_accounting 4 intCmp_ok
    [.put 3 true, .put 1 true, .put 3 true, .put 2 false, .remove 3, .remove_all 3]⟩

/-- C9: on every multiset that satisfies the invariants, a put of `k` that returns 0 raises
`multiset_count` of `k` by exactly one, leaves the count of every key not equivalent to `k`
as it was and leaves exactly one record for `k`; a put with a successful allocation always
returns 0; two puts of a key the multiset does not contain give count 2 with one record;
and a key to which no put of a run from `multiset_init` was equivalent has count 0 and is
not contained. -/
theorem multiset_put_count {K : Type} {me me' : MultisetObj K} (inv : MultisetInv me) (k : K)
    (allocated : Bool) (hput : multiset_put me k allocated = (0, me')) :
    multiset_count me' k = multiset_count me k + 1 ∧
    (∀ k', me.comparator k' k ≠ 0 → multiset_count me' k' = multiset_count me k') ∧
    records me' k = 1 ∧
    (multiset_put me k true).1 = 0 ∧
    (multiset_count me k = 0 → ∃ m1 m2, multiset_put me k true = (0, m1) ∧
      multiset_put m1 k true = (0, m2) ∧ multiset_count m2 k = 2 ∧ records m2 k = 1) ∧
    (∀ (key_size : Nat) (cs : List (Call K)),
      (∀ key a, Call.put key a ∈ cs → me.comparator k key ≠ 0) →
      multiset_count (runCalls (emptyMultiset key_size me.comparator) cs).1 k = 0 ∧
      multiset_contains (runCalls (emptyMultiset key_size me.comparator) cs).1 k = false) := by
  have hc := inv.cmp_ok
  have hok : allocated = true ∨ 0 < multiset_count me k := by
    by_contra hcon
    have ha : allocated = false := by
      cases allocated
      · rfl
      · exact absurd (Or.inl rfl) hcon
    have hz : multiset_count me k = 0 := by omega
    have hf := inv.put_fail k hz
    rw [ha, hf] at hput
    exact neg_ENOMEM_ne_zero (congrArg Prod.fst hput)
  obtain ⟨m, hrun, _, _, _, hcount, hrec⟩ := inv.put_effect k allocated hok
  have hm : m = me' := by
    rw [hrun] at hput
    exact congrArg Prod.snd hput
  subst hm
  obtain ⟨m1, hrun1, inv1, hc1, _, hcount1, _⟩ := inv.put_effect k true (Or.inl rfl)
  refine ⟨?_, ?_, hrec, ?_, ?_, ?_⟩
  · rw [hcount k, if_pos (hc.refl k)]
  · intro k' hk'
    rw [hcount k', if_neg hk', Nat.add_zero]
  · rw [hrun1]
  · intro hz
    obtain ⟨m2, hrun2, _, _, _, hcount2, hrec2⟩ := inv1.put_effect k true (Or.inl rfl)
    refine ⟨m1, m2, hrun1, hrun2, ?_, hrec2⟩
    rw [hcount2 k, hc1, hcount1 k, if_pos (hc.refl k), hz]
  · intro key_size cs hcs
    have h0 := runCalls_never_put key_size hc k cs hcs
    exact ⟨h0, by simp [multiset_contains, h0]⟩

/-- C9 at the sample multiset and a second put of the key 3. -/
theorem multiset_put_count_witness :
    MultisetInv sampleMultiset ∧
    multiset_put sampleMultiset 3 false = (0, (multiset_put sampleMultiset 3 false).2) ∧
    multiset_count (multiset_put sampleMultiset 3 false).2 3
      = multiset_count sampleMultiset 3 + 1 ∧
    (∀ k', sampleMultiset.comparator k' 3 ≠ 0 →
      multiset_count (multiset_put sampleMultiset 3 false).2 k'
        = multiset_count sampleMultiset k') ∧
    records (multiset_put sampleMultiset 3 false).2 3 = 1 ∧
    (multiset_put sampleMultiset 3 true).1 = 0 ∧
    (multiset_count sampleMultiset 3 = 0 → ∃ m1 m2,
      multiset_put sampleMultiset 3 true = (0, m1) ∧
      multiset_put m1 3 true = (0, m2) ∧ multiset_count m2 3 = 2 ∧ records m2 3 = 1) ∧
    (∀ (key_size : Nat) (cs : List (Call Int)),
      (∀ key a, Call.put key a ∈ cs → sampleMultiset.comparator 3 key ≠ 0) →
      multiset_count (runCalls (emptyMultiset key_size sampleMultiset.comparator) cs).1 3 = 0 ∧
      multiset_contains (runCalls (emptyMultiset key_size sampleMultiset.comparator) cs).1 3
        = false) :=
  ⟨sampleMultiset_inv, rfl, multiset_put_count sampleMultiset_inv 3 false rfl⟩

/-- C10: on every multiset that satisfies the invariants, `multiset_remove` of a key of
count 0 returns false and returns the multiset as it was; of a key of count at least 1 it
returns true, lowers the count of the key and the size by exactly one and leaves the count
of every key not equivalent to it as it was; after removing a key of count 1 the key is not
contained and a fresh put brings its count back to 1. -/
theorem multiset_remove_spec {K : Type} {me : MultisetObj K} (inv : MultisetInv me) (k : K) :
    (multiset_count me k = 0 → multiset_remove me k = (false, me)) ∧
    (1 ≤ multiset_count me k → ∃ me', multiset_remove me k = (true, me') ∧
      multiset_count me' k + 1 = multiset_count me k ∧
      multiset_size me' = multiset_size me - 1 ∧
      (∀ k', me.comparator k' k ≠ 0 → multiset_count me' k' = multiset_count me k')) ∧
    (multiset_count me k = 1 → ∃ me' me'', multiset_remove me k = (true, me') ∧
      multiset_contains me' k = false ∧
      multiset_put me' k true = (0, me'') ∧ multiset_count me'' k = 1) := by
  have hc := inv.cmp_ok
  refine ⟨inv.remove_absent k, ?_, ?_⟩
  · intro h1
    obtain ⟨me', hrun, _, _, htot, hcount⟩ := inv.remove_effect k h1
    refine ⟨me', hrun, ?_, htot, ?_⟩
    · have := hcount k
      rwa [if_pos (hc.refl k)] at this
    · intro k' hk'
      have := hcount k'
      rwa [if_neg hk', Nat.add_zero] at this
  · intro h1
    obtain ⟨me', hrun, inv', hc', _, hcount⟩ := inv.remove_effect k (by omega)
    have hz : multiset_count me' k = 0 := by
      have := hcount k
      rw [if_pos (hc.refl k)] at this
      omega
    obtain ⟨me'', hrun2, _, _, _, hcount2, _⟩ := inv'.put_effect k true (Or.inl rfl)
    refine ⟨me', me'', hrun, by simp [multiset_contains, hz], hrun2, ?_⟩
    rw [hcount2 k, hc', if_pos (hc.refl k), hz]

/-- C10 at the sample multiset and the key 2, which it holds once. -/
theorem multiset_remove_spec_witness :
    MultisetInv sampleMultiset ∧
    (multiset_count sampleMultiset 2 = 0 →
      multiset_remove sampleMultiset 2 = (false, sampleMultiset)) ∧
    (1 ≤ multiset_count sampleMultiset 2 → ∃ me',
      multiset_remove sampleMultiset 2 = (true, me') ∧
      multiset_count me' 2 + 1 = multiset_count sampleMultiset 2 ∧
      multiset_size me' = multiset_size sampleMultiset - 1 ∧
      (∀ k', sampleMultiset.comparator k' 2 ≠ 0 →
        multiset_count me' k' = multiset_count sampleMultiset k')) ∧
    (multiset_count sampleMultiset 2 = 1 → ∃ me' me'',
      multiset_remove sampleMultiset 2 = (true, me') ∧
      multiset_contains me' 2 = false ∧
      multiset_put me' 2 true = (0, me'') ∧ multiset_count me'' 2 = 1) :=
  ⟨sampleMultiset_inv, multiset_remove_spec sampleMultiset_inv 2⟩


/-! ## The multiset: remove_all and the order of the records -/

/-- C11: on every multiset that satisfies the invariants and every key `k` of count `m`,
`multiset_remove_all` returns false and returns the multiset as it was when `m = 0`; when
`m ≥ 1` it returns true, lowers `multiset_size` by exactly `m`, leaves `k` not contained and
leaves the count of every key not equivalent to `k` as it was. -/
theorem multiset_remove_all_spec {K : Type} {me : MultisetObj K} (inv : MultisetInv me)
    (k : K) :
    (multiset_count me k = 0 → multiset_remove_all me k = (false, me)) ∧
    (1 ≤ multiset_count me k → ∃ me', multiset_remove_all me k = (true, me') ∧
      multiset_size me' = multiset_size me - (multiset_count me k : Int) ∧
      multiset_count me' k = 0 ∧
      multiset_contains me' k = false ∧
      (∀ k', me.comparator k' k ≠ 0 → multiset_count me' k' = multiset_count me k')) := by
  have hc := inv.cmp_ok
  refine ⟨inv.remove_all_absent k, ?_⟩
  intro h1
  obtain ⟨me', hrun, _, _, htot, hcount⟩ := inv.remove_all_effect k h1
  have hz : multiset_count me' k = 0 := by
    rw [hcount k, if_pos (hc.refl k)]
  refine ⟨me', hrun, htot, hz, by simp [multiset_contains, hz], ?_⟩
  intro k' hk'
  rw [hcount k', if_neg hk']

/-- C11 at the sample multiset and the key 3, which it holds twice. -/
theorem multiset_remove_all_spec_witness :
    MultisetInv sampleMultiset ∧
    (multiset_count sampleMultiset 3 = 0 →
      multiset_remove_all sampleMultiset 3 = (false, sampleMultiset)) ∧
    (1 ≤ multiset_count sampleMultiset 3 → ∃ me',
      multiset_remove_all sampleMultiset 3 = (true, me') ∧
      multiset_size me' = multiset_size sampleMultiset - (multiset_count sampleMultiset 3 : Int) ∧
      multiset_count me' 3 = 0 ∧
      multiset_contains me' 3 = false ∧
      (∀ k', sampleMultiset.comparator k' 3 ≠ 0 →
        multiset_count me' k' = multiset_count sampleMultiset k')) :=
  ⟨sampleMultiset_inv, multiset_remove_all_spec sampleMultiset_inv 3⟩

/-- Under the invariants every stored key has exactly one record and any two records are
not equivalent. -/
theorem MultisetInv.one_record {K : Type} {me : MultisetObj K} (inv : MultisetInv me) :
    (Tree.keys me.root).Pairwise
      (fun a b => me.comparator a b ≠ 0 ∧ me.comparator b a ≠ 0) ∧
    (∀ k ∈ Tree.keys me.root, records me k = 1) ∧
    (∀ k, records me k ≤ 1) := by
  have hc := inv.cmp_ok
  have one : ∀ k ∈ Tree.keys me.root, records me k = 1 := by
    intro k hk
    obtain ⟨p, hp, rfl⟩ := List.mem_map.1 hk
    obtain ⟨l1, l2, e⟩ := List.append_of_mem hp
    have hs := inv.sorted
    rw [Tree.keys, e] at hs
    have := (records_split hc hs (hc.refl p.1)).1
    rw [← e] at this
    exact this
  refine ⟨?_, one, ?_⟩
  · refine List.Pairwise.imp ?_ inv.sorted
    intro a b hab
    exact ⟨by omega, hc.gt_ne hab⟩
  · intro k
    by_cases hex : ∃ p ∈ me.root.toList, me.comparator k p.1 = 0
    · obtain ⟨p, hp, hk⟩ := hex
      obtain ⟨l1, l2, e⟩ := List.append_of_mem hp
      have hs := inv.sorted
      rw [Tree.keys, e] at hs
      have := (records_split hc hs hk).1
      rw [← e] at this
      exact le_of_eq this
    · have : (me.root.toList.filter (fun p => decide (me.comparator k p.1 = 0))) = [] := by
        rw [List.filter_eq_nil_iff]
        intro p hp
        have : ¬ me.comparator k p.1 = 0 := fun h => hex ⟨p, hp, h⟩
        simpa using this
      simp [records, this]

/-- C12: after every sequence of put, remove and remove_all calls on a multiset created by
`multiset_init` under a strict total order, the in-order traversal of the tree yields the
keys in strictly increasing order of the comparator, no two records compare equal, and
there is exactly one record for each stored key and at most one for any key. -/
theorem multiset_inorder_increasing {K : Type} (key_size : Nat) {cmp : K → K → Int}
    (hc : StrictTotalCmp cmp) (cs : List (Call K)) :
    multiset_init true key_size cmp = some (emptyMultiset key_size cmp) ∧
    (Tree.keys (runCalls (emptyMultiset key_size cmp) cs).1.root).Pairwise
      (fun a b => cmp a b < 0) ∧
    (Tree.keys (runCalls (emptyMultiset key_size cmp) cs).1.root).Pairwise
      (fun a b => cmp a b ≠ 0 ∧ cmp b a ≠ 0) ∧
    (∀ k ∈ Tree.keys (runCalls (emptyMultiset key_size cmp) cs).1.root,
      ((Tree.toList (runCalls (emptyMultiset key_size cmp) cs).1.root).filter
        (fun p => decide (cmp k p.1 = 0))).length = 1) ∧
    (∀ k, ((Tree.toList (runCalls (emptyMultiset key_size cmp) cs).1.root).filter
        (fun p => decide (cmp k p.1 = 0))).length ≤ 1) := by
  obtain ⟨inv, hcmp, _⟩ := runCalls_booked key_size hc cs
  obtain ⟨h1, h2, h3⟩ := inv.one_record
  have hs := inv.sorted
  simp only [records] at h2 h3
  rw [hcmp] at h1 h2 h3 hs
  exact ⟨rfl, hs, h1, h2, h3⟩

/-- C12 at integer keys and the calls of the scenario. -/
theorem multiset_inorder_increasing_witness :
    StrictTotalCmp intCmp ∧
    multiset_init true 4 intCmp = some (emptyMultiset 4 intCmp) ∧
    (Tree.keys (runCalls (emptyMultiset 4 intCmp)
      [.put 3 true, .put 1 true, .put 3 true, .put 2 true, .remove 3, .remove_all 1]).1.root).Pairwise
      (fun a b => intCmp a b < 0) ∧
    (Tree.keys (runCalls (emptyMultiset 4 intCmp)
      [.put 3 true, .put 1 true, .put 3 true, .put 2 true, .remove 3, .remove_all 1]).1.root).Pairwise
      (fun a b => intCmp a b ≠ 0 ∧ intCmp b a ≠ 0) ∧
    (∀ k ∈ Tree.keys (runCalls (emptyMultiset 4 intCmp)
      [.put 3 true, .put 1 true, .put 3 true, .put 2 true, .remove 3, .remove_all 1]).1.root,
      ((Tree.toList (runCalls (emptyMultiset 4 intCmp)
        [.put 3 true, .put 1 true, .put 3 true, .put 2 true, .remove 3,
          .remove_all 1]).1.root).filter
        (fun p => decide (intCmp k p.1 = 0))).length = 1) ∧
    (∀ k, ((Tree.toList (runCalls (emptyMultiset 4 intCmp)
        [.put 3 true, .put 1 true, .put 3 true, .put 2 true, .remove 3,
          .remove_all 1]).1.root).filter
        (fun p => decide (intCmp k p.1 = 0))).length ≤ 1) :=
  ⟨intCmp_ok, multiset_inorder_increasing 4 intCmp_ok
    [.put 3 true, .put 1 true, .put 3 true, .put 2 true, .remove 3, .remove_all 1]⟩

end Containers
